import Mathlib

/-!
# SFS: a shallow embedding of `src/src/library/fs.cpp`

The file system of `fs.cpp` is embedded as pure functions over an explicit
state.  A block is its 4096 bytes; the `union Block` views (`Super`,
`Inodes`, `Pointers`, `Data`) are decoded from those bytes with 32-bit
little-endian words, the layout of the hosts the code is built for.
Every `uint32_t` that is stored goes through `byteOf`, which keeps the low
32 bits; `size_t` arithmetic that can wrap carries an explicit `% 2 ^ 64`.
-/

namespace SFS

/-! ## Constants (`fs.h`) -/

/-- One `char` of a block or of a caller's buffer. -/
abbrev Byte := Fin 256

/-- The 4096 bytes of `Block::Data`; only indices below `BLOCK_SIZE` are part of the block. -/
abbrev Block := Nat → Byte

/-- A caller's `char *` buffer. -/
abbrev Buffer := Nat → Byte

/-- Modelled from the spec: `Disk::BLOCK_SIZE` of the absent `sfs/disk.h`, 4096 bytes (spec section 3). -/
def BLOCK_SIZE : Nat := 4096

/-- The constant `FileSystem::MAGIC_NUMBER`. -/
def MAGIC_NUMBER : Nat := 0xf0f03410

/-- The constant `FileSystem::INODES_PER_BLOCK`. -/
def INODES_PER_BLOCK : Nat := 128

/-- The constant `FileSystem::POINTERS_PER_INODE`. -/
def POINTERS_PER_INODE : Nat := 5

/-- The constant `FileSystem::POINTERS_PER_BLOCK`. -/
def POINTERS_PER_BLOCK : Nat := 1024

/-! ## Block codec (`union Block`) -/

/-- Byte `k` (0 is the least significant) of the 32-bit value `v`. -/
def byteOf (v k : Nat) : Byte := ⟨(v / 256 ^ k) % 256, Nat.mod_lt _ (by decide)⟩

/-- The block after `memset(block.Data, 0, BLOCK_SIZE)`. -/
def zeroBlock : Block := fun _ => 0

/-- Word `w` of a block read as `uint32_t Pointers[w]`. -/
def get32 (b : Block) (w : Nat) : Nat :=
  (b (4 * w)).val + 256 * (b (4 * w + 1)).val + 65536 * (b (4 * w + 2)).val
    + 16777216 * (b (4 * w + 3)).val

/-- The assignment `block.Pointers[w] = v` (the value is truncated to 32 bits). -/
def set32 (b : Block) (w v : Nat) : Block :=
  fun k => if k / 4 = w then byteOf v (k % 4) else b k

/-- The in-memory `struct Inode`.  `Direct j` is `Direct[j]`; the code only uses
`j < POINTERS_PER_INODE`. -/
structure Inode where
  Valid : Nat
  Size : Nat
  Direct : Nat → Nat
  Indirect : Nat

/-- Word `w` (0..7) of the 32-byte inode record: `Valid, Size, Direct[0..4], Indirect`. -/
def Inode.word (x : Inode) (w : Nat) : Nat :=
  if w = 0 then x.Valid else if w = 1 then x.Size else if w < 7 then x.Direct (w - 2)
  else x.Indirect

/-- The record `block.Inodes[i]` read out of a block (`Direct[j]` past the array reads 0). -/
def getInode (b : Block) (i : Nat) : Inode :=
  { Valid := get32 b (8 * i)
    Size := get32 b (8 * i + 1)
    Direct := fun j => if j < POINTERS_PER_INODE then get32 b (8 * i + 2 + j) else 0
    Indirect := get32 b (8 * i + 7) }

/-- The struct assignment `block.Inodes[i] = x`. -/
def setInode (b : Block) (i : Nat) (x : Inode) : Block :=
  fun k => if k / 32 = i then byteOf (x.word (k % 32 / 4)) (k % 4) else b k

/-- The call `memcpy(dst + dpos, src + spos, n)`. -/
def memcpy (dst : Nat → Byte) (dpos : Nat) (src : Nat → Byte) (spos n : Nat) : Nat → Byte :=
  fun k => if dpos ≤ k ∧ k < dpos + n then src (spos + (k - dpos)) else dst k

/-! ## The block device -/

/-- Modelled from the spec: the block device of the absent `sfs/disk.h` (spec 6.1), a
fixed-size array of `Blocks` blocks with a mounted flag.  The spec gives no behaviour
for a block index at or beyond `size()`; here such a write changes nothing and such a
read yields zero bytes. -/
structure Disk where
  Blocks : Nat
  Mounted : Bool
  data : Nat → Block

/-- Modelled from the spec: `size() -> u32`, the total block count. -/
def Disk.size (d : Disk) : Nat := d.Blocks

/-- Modelled from the spec: `mounted() -> bool`. -/
def Disk.mounted (d : Disk) : Bool := d.Mounted

/-- Modelled from the spec: `mount()` sets the single-holder flag. -/
def Disk.mount (d : Disk) : Disk := { d with Mounted := true }

/-- Modelled from the spec: `read(block_index, buffer)` fills exactly `BLOCK_SIZE` bytes. -/
def Disk.read (d : Disk) (blocknum : Nat) : Block :=
  if blocknum < d.Blocks then d.data blocknum else zeroBlock

/-- Modelled from the spec: `write(block_index, buffer)` writes exactly `BLOCK_SIZE` bytes. -/
def Disk.write (d : Disk) (blocknum : Nat) (buf : Block) : Disk :=
  if blocknum < d.Blocks then
    { d with data := fun b => if b = blocknum then buf else d.data b }
  else d

/-! ## The file system object -/

/-- The member variables of `class FileSystem`; `disk_` is the device the pointer
designates, `bitmap_` the `std::vector<int>` (1 = free, 0 = in use). -/
structure FileSystem where
  disk_ : Disk
  blocks_num_ : Nat
  inode_blocks_num_ : Nat
  inodes_num_ : Nat
  bitmap_ : List Int

/-- The call `v.resize(n, x)` of `std::vector`. -/
def resize (v : List Int) (n : Nat) (x : Int) : List Int :=
  v.take n ++ List.replicate (n - v.length) x

/-- The read `bitmap_[i]` (an index past the end is undefined in C++; it reads 0 here). -/
def bitGet (bm : List Int) (i : Nat) : Int := bm.getD i 0

/-- The assignment `bitmap_[i] = x` (an index past the end is undefined in C++; it is
dropped here). -/
def bitSet (bm : List Int) (i : Nat) (x : Int) : List Int := bm.set i x

/-- A `uint32_t` converted to `int`. -/
def toInt32 (v : Nat) : Int :=
  if v % 2 ^ 32 < 2 ^ 31 then ((v % 2 ^ 32 : Nat) : Int) else ((v % 2 ^ 32 : Nat) : Int) - 2 ^ 32

/-! ## format -/

/-- The superblock that `format` builds for a device of `n` blocks.  `disk->size() / 10`
is an integer division, so the `::ceil` around it changes nothing. -/
def formatSuper (n : Nat) : Block :=
  let block := zeroBlock
  let block := set32 block 0 MAGIC_NUMBER
  let block := set32 block 1 n
  let block := set32 block 2 (n / 10)
  set32 block 3 (INODES_PER_BLOCK * get32 block 2)

/-- The function `FileSystem::format`.  The buffer `buf[BUFSIZ] = {0}` is taken to cover a block
(`BUFSIZ >= BLOCK_SIZE`), so every block `1 .. Blocks-1` receives zero bytes. -/
def format (disk : Disk) : Bool × Disk :=
  if disk.mounted then (false, disk)
  else
    let block := formatSuper disk.size
    let disk := disk.write 0 block
    (true, (List.range' 1 (get32 block 1 - 1)).foldl (fun d i => d.write i zeroBlock) disk)

/-! ## mount -/

/-- The body of mount's scan for one valid inode: clear the bitmap at its pointers. -/
def mountInode (disk : Disk) (inode : Inode) (bm : List Int) : List Int :=
  let bm := (List.range POINTERS_PER_INODE).foldl (fun bm j => bitSet bm (inode.Direct j) 0) bm
  if inode.Indirect ≠ 0 then
    let bm := bitSet bm inode.Indirect 0
    let ptr_block := disk.read inode.Indirect
    (List.range POINTERS_PER_BLOCK).foldl (fun bm j => bitSet bm (get32 ptr_block j) 0) bm
  else bm

/-- The part of mount's scan over the 128 inodes of inode block `k`. -/
def mountBlock (disk : Disk) (bm : List Int) (k : Nat) : List Int :=
  let inode_block := disk.read k
  (List.range INODES_PER_BLOCK).foldl
    (fun bm i =>
      if (getInode inode_block i).Valid = 0 then bm
      else mountInode disk (getInode inode_block i) bm)
    bm

/-- The function `FileSystem::mount`, called on the object `fs` for the device `disk`.  On success
the result holds the mounted device in `disk_`; on failure the object is unchanged
(and so is the device, which the code has only read).  The test `Super.Blocks < 0` of
line 108 is on an unsigned value and never holds. -/
def mount (fs : FileSystem) (disk : Disk) : Bool × FileSystem :=
  if disk.mounted then (false, fs)
  else
    let block := disk.read 0
    if get32 block 0 ≠ MAGIC_NUMBER
        ∨ get32 block 3 ≠ (get32 block 2 * INODES_PER_BLOCK) % 2 ^ 32 then (false, fs)
    else if (if disk.size % 10 = 0 then get32 block 2 ≠ disk.size / 10
             else get32 block 2 ≠ disk.size / 10 + 1) then (false, fs)
    else
      let disk := disk.mount
      let inodes := get32 block 3
      let blocks := get32 block 1
      let inode_blocks := get32 block 2
      let bm := resize fs.bitmap_ blocks 1
      let bm := bitSet bm 0 0
      let bm := (List.range' 1 inode_blocks).foldl (fun bm i => bitSet bm i 0) bm
      let bm := (List.range' 1 inode_blocks).foldl (mountBlock disk) bm
      (true, { disk_ := disk, blocks_num_ := blocks, inode_blocks_num_ := inode_blocks,
               inodes_num_ := inodes, bitmap_ := bm })

/-! ## Inode table access -/

/-- The function `FileSystem::load_inode`; `none` is the `false` result. -/
def load_inode (fs : FileSystem) (inumber : Nat) : Option Inode :=
  if inumber ≥ fs.inodes_num_ then none
  else some (getInode (fs.disk_.read (inumber / INODES_PER_BLOCK + 1)) (inumber % INODES_PER_BLOCK))

/-- The function `FileSystem::make_inode`: the record it leaves in `inode`. -/
def make_inode (valid : Bool) : Inode :=
  { Valid := if valid then 1 else 0, Size := 0, Direct := fun _ => 0, Indirect := 0 }

/-- The function `FileSystem::save_inode`; `none` is the `false` result. -/
def save_inode (fs : FileSystem) (inode : Inode) (inumber : Nat) : Option FileSystem :=
  if inumber ≥ fs.inodes_num_ then none
  else
    let cur_block_i := inumber / INODES_PER_BLOCK + 1
    let new_block := setInode (fs.disk_.read cur_block_i) (inumber % INODES_PER_BLOCK) inode
    some { fs with disk_ := fs.disk_.write cur_block_i new_block }

/-! ## Allocator -/

/-- The scan of `allocate_free_block`: the first `i` in `[i, i + n)` with `bitmap_[i] != 0`. -/
def firstFreeBit (bm : List Int) : Nat → Nat → Option Nat
  | 0, _ => none
  | n + 1, i => if bitGet bm i ≠ 0 then some i else firstFreeBit bm n (i + 1)

/-- The function `FileSystem::allocate_free_block`; `none` is the `-1` result.  The code
keeps the index found in `int block`; here the index is taken as it is, which is exact when
`blocks_num_ <= 2^31` (every index below it then fits the `int`).  For a larger block count
the code would hand a negative value to `disk_->write` and return it; this definition does
not describe that case, and the theorems that depend on the index returned assume the
bound. -/
def allocate_free_block (fs : FileSystem) : Option Nat × FileSystem :=
  match firstFreeBit fs.bitmap_ fs.blocks_num_ 0 with
  | some i =>
    (some i, { fs with bitmap_ := bitSet fs.bitmap_ i 0, disk_ := fs.disk_.write i zeroBlock })
  | none => (none, fs)

/-! ## create, remove, stat -/

/-- The inner loop of `create`: the first slot in `[i, i + n)` whose `Valid` is 0. -/
def firstFreeInode (block : Block) : Nat → Nat → Option Nat
  | 0, _ => none
  | n + 1, i => if (getInode block i).Valid = 0 then some i else firstFreeInode block n (i + 1)

/-- The outer loop of `create` over the inode blocks `k, k+1, .., k+n-1`.  `inumber` is an
`int` assigned from `uint32_t` arithmetic, and the loop leaves only when it differs from -1. -/
def createFrom (fs : FileSystem) : Nat → Nat → Int × FileSystem
  | 0, _ => (-1, fs)
  | n + 1, k =>
    let block := fs.disk_.read k
    match firstFreeInode block INODES_PER_BLOCK 0 with
    | some i =>
      let fs1 := { fs with disk_ := fs.disk_.write k (setInode block i (make_inode true)) }
      let inumber := toInt32 (i + INODES_PER_BLOCK * (k - 1))
      if inumber ≠ -1 then (inumber, fs1) else createFrom fs1 n (k + 1)
    | none => createFrom fs n (k + 1)

/-- The function `FileSystem::create`. -/
def create (fs : FileSystem) : Int × FileSystem :=
  createFrom fs fs.inode_blocks_num_ 1

/-- The bitmap after `remove` has released the pointers of `inode`. -/
def removeBits (disk : Disk) (inode : Inode) (bm : List Int) : List Int :=
  let bm := (List.range POINTERS_PER_INODE).foldl (fun bm i => bitSet bm (inode.Direct i) 1) bm
  if inode.Indirect ≠ 0 then
    let bm := bitSet bm inode.Indirect 1
    let ptr_block := disk.read inode.Indirect
    (List.range POINTERS_PER_BLOCK).foldl (fun bm i => bitSet bm (get32 ptr_block i) 1) bm
  else bm

/-- The function `FileSystem::remove`. -/
def remove (fs : FileSystem) (inumber : Nat) : Bool × FileSystem :=
  match load_inode fs inumber with
  | none => (false, fs)
  | some inode =>
    if inode.Valid = 0 then (false, fs)
    else
      let fs1 := { fs with bitmap_ := removeBits fs.disk_ inode fs.bitmap_ }
      let cleared : Inode := { Valid := 0, Size := 0, Direct := fun _ => 0, Indirect := 0 }
      match save_inode fs1 cleared inumber with
      | none => (false, fs1)
      | some fs2 => (true, fs2)

/-- The function `FileSystem::stat`. -/
def stat (fs : FileSystem) (inumber : Nat) : Int :=
  match load_inode fs inumber with
  | none => -1
  | some inode => if inode.Valid = 0 then -1 else (inode.Size : Int)

/-! ## read -/

/-- The loop of `read`, from logical block `i` with `idx` bytes copied so far.  Every
iteration that does not return -1 copies at least one byte, so `length` iterations always
suffice; the first argument counts the iterations still allowed. -/
def readLoop (fs : FileSystem) (inode : Inode) (ptr_block : Block) (length offset : Nat) :
    Nat → Nat → Nat → Buffer → Int × Buffer
  | 0, _, idx, data => ((idx : Int), data)
  | n + 1, i, idx, data =>
    if idx < length then
      let cur_block_i :=
        if i < POINTERS_PER_INODE then inode.Direct i else get32 ptr_block (i - POINTERS_PER_INODE)
      if cur_block_i = 0 then (-1, data)
      else
        let new_block := fs.disk_.read cur_block_i
        let pos := if idx = 0 then offset % BLOCK_SIZE else 0
        let cpy_len :=
          if idx = 0 then min (BLOCK_SIZE - pos) length else min (BLOCK_SIZE - pos) (length - idx)
        readLoop fs inode ptr_block length offset n (i + 1) (idx + cpy_len)
          (memcpy data idx new_block pos cpy_len)
    else ((idx : Int), data)

/-- The function `FileSystem::read`.  `uninit` is the content of the local `Block ptr_block` before
anything is stored in it: the code reads it when it walks past the direct pointers without
having loaded the pointer block.  The result is the return value and the caller's buffer.
The walk starts at `offset / disk_->size()` as in line 262 (a device of size 0 would make
the C++ division undefined; this quotient is then 0). -/
def read (fs : FileSystem) (uninit : Block) (inumber : Nat) (data : Buffer)
    (length offset : Nat) : Int × Buffer :=
  match load_inode fs inumber with
  | none => (-1, data)
  | some inode =>
    if offset > inode.Size then (-1, data)
    else
      let length := min length (inode.Size - offset)
      if (offset + length) / BLOCK_SIZE > POINTERS_PER_INODE ∧ inode.Indirect = 0 then (-1, data)
      else
        let ptr_block :=
          if (offset + length) / BLOCK_SIZE > POINTERS_PER_INODE then fs.disk_.read inode.Indirect
          else uninit
        readLoop fs inode ptr_block length offset length (offset / fs.disk_.size) 0 data

/-! ## write -/

/-- The local variables of `write` together with the file system object. -/
structure WState where
  fs : FileSystem
  inode : Inode
  ptr_block : Block
  read_indirect : Bool
  modify_ptr_block : Bool
  modify_inode : Bool
  idx : Nat

/-- How the block-selection part of one iteration of the loop of `write` ends. -/
inductive Step where
  /-- The statement `break`. -/
  | brk (s : WState)
  /-- The statement `return idx`. -/
  | ret (s : WState)
  /-- The iteration goes on with physical block `cur_block_i`. -/
  | go (cur_block_i : Nat) (s : WState)

/-- Lines 328-340: make sure that the inode has a pointer block and that `ptr_block` holds
it; `none` is the exit by `return idx` when the pointer block cannot be allocated. -/
def writeLoadIndirect (s : WState) : Option WState :=
  let alloc : Option WState :=
    if s.inode.Indirect = 0 then
      match allocate_free_block s.fs with
      | (none, _) => none
      | (some ptr_block_i, fs1) =>
        some { s with fs := fs1, inode := { s.inode with Indirect := ptr_block_i },
                      modify_ptr_block := true }
    else some s
  match alloc with
  | none => none
  | some s1 =>
    if s1.read_indirect then some s1
    else some { s1 with ptr_block := s1.fs.disk_.read s1.inode.Indirect, read_indirect := true }

/-- Lines 317-351: find, and allocate when absent, the physical block of logical block
`block_i`. -/
def writeSelect (block_i : Nat) (s : WState) : Step :=
  if block_i < POINTERS_PER_INODE then
    if s.inode.Direct block_i = 0 then
      match allocate_free_block s.fs with
      | (none, _) => Step.brk s
      | (some new_block_i, fs1) =>
        Step.go new_block_i
          { s with
            fs := fs1
            inode := { s.inode with
                       Direct := fun j => if j = block_i then new_block_i else s.inode.Direct j }
            modify_inode := true }
    else Step.go (s.inode.Direct block_i) s
  else
    match writeLoadIndirect s with
    | none => Step.ret s
    | some s2 =>
      if get32 s2.ptr_block (block_i - POINTERS_PER_INODE) = 0 then
        match allocate_free_block s2.fs with
        | (none, _) => Step.brk s2
        | (some new_block_i, fs3) =>
          Step.go new_block_i
            { s2 with
              fs := fs3
              ptr_block := set32 s2.ptr_block (block_i - POINTERS_PER_INODE) new_block_i
              modify_ptr_block := true }
      else Step.go (get32 s2.ptr_block (block_i - POINTERS_PER_INODE)) s2

/-- Lines 353-370: copy the next piece of `data` into block `cur_block_i`.  When the whole
block is overwritten the local `buf` is not read from the device first; its prior content
is then irrelevant and taken as zero. -/
def writeCopy (data : Buffer) (length offset cur_block_i : Nat) (s : WState) : WState :=
  let pos := if s.idx = 0 then offset % BLOCK_SIZE else 0
  let cpy_len :=
    if s.idx = 0 then min (BLOCK_SIZE - pos) length else min (BLOCK_SIZE - pos) (length - s.idx)
  let buf : Block := if cpy_len < BLOCK_SIZE then s.fs.disk_.read cur_block_i else zeroBlock
  let buf := memcpy buf pos data s.idx cpy_len
  { s with fs := { s.fs with disk_ := s.fs.disk_.write cur_block_i buf }, idx := s.idx + cpy_len }

/-- The loop of `write` at logical block `block_i`; the first argument is
`POINTERS_PER_INODE + POINTERS_PER_BLOCK - block_i`, the number of logical blocks left.
The Boolean is true when the loop was left by `return idx`. -/
def writeLoop (data : Buffer) (length offset : Nat) : Nat → Nat → WState → Bool × WState
  | 0, _, s => (false, s)
  | n + 1, block_i, s =>
    if s.idx < length then
      match writeSelect block_i s with
      | Step.brk s1 => (false, s1)
      | Step.ret s1 => (true, s1)
      | Step.go cur_block_i s1 =>
        writeLoop data length offset n (block_i + 1) (writeCopy data length offset cur_block_i s1)
    else (false, s)

/-- Lines 310-314: the local variables of `write` before the loop.  `ptr_block` is not
initialised by the code; it is only used after it has been read from the device. -/
def writeInit (fs : FileSystem) (inode : Inode) : WState :=
  { fs := fs, inode := inode, ptr_block := zeroBlock, read_indirect := false,
    modify_ptr_block := false, modify_inode := false, idx := 0 }

/-- Lines 373-383: the code after the loop of `write`. -/
def writeFinish (inumber offset : Nat) (s : WState) : FileSystem :=
  let grow := decide (s.idx + offset > s.inode.Size)
  let inode := if grow then { s.inode with Size := s.idx + offset } else s.inode
  let fs1 :=
    if grow || s.modify_inode then
      match save_inode s.fs inode inumber with
      | some fs1 => fs1
      | none => s.fs
    else s.fs
  if s.modify_ptr_block then { fs1 with disk_ := fs1.disk_.write inode.Indirect s.ptr_block }
  else fs1

/-- The function `FileSystem::write`.  `offset <= inode.Size < 2^32`, so `offset / BLOCK_SIZE` fits the
`uint32_t block_i`; `MAX_SIZE - offset` is `size_t` arithmetic and wraps. -/
def write (fs : FileSystem) (inumber : Nat) (data : Buffer) (length offset : Nat) :
    Int × FileSystem :=
  match load_inode fs inumber with
  | none => (-1, fs)
  | some inode =>
    if offset > inode.Size then (-1, fs)
    else
      let MAX_SIZE := BLOCK_SIZE * (POINTERS_PER_INODE + POINTERS_PER_BLOCK)
      let length := min length ((MAX_SIZE + 2 ^ 64 - offset) % 2 ^ 64)
      let block_i := offset / BLOCK_SIZE
      match writeLoop data length offset
          (POINTERS_PER_INODE + POINTERS_PER_BLOCK - block_i) block_i (writeInit fs inode) with
      | (true, s) => ((s.idx : Int), s.fs)
      | (false, s) => ((s.idx : Int), writeFinish inumber offset s)

/-! ## Scenarios: devices and call sequences used as concrete inputs -/

/-- An unmounted device of `n` blocks whose bytes all hold 0xff before it is formatted. -/
def blankDisk (n : Nat) : Disk := { Blocks := n, Mounted := false, data := fun _ _ => 255 }

/-- A `FileSystem` object on which `mount` has not been called yet: the bitmap is empty. -/
def newFileSystem : FileSystem :=
  { disk_ := blankDisk 0, blocks_num_ := 0, inode_blocks_num_ := 0, inodes_num_ := 0,
    bitmap_ := [] }

/-- The state after `format` and `mount` of a blank device of `n` blocks. -/
def freshFS (n : Nat) : FileSystem := (mount newFileSystem (format (blankDisk n)).2).2

/-- A buffer of which every byte is `c`. -/
def fill (c : Byte) : Buffer := fun _ => c

/-- The five bytes of "hello". -/
def hello : Buffer := fun k => ([104, 101, 108, 108, 111] : List Byte).getD k 0

/-- On a 20-block device: `create` gives inode 0, then 20 bytes are written at offset 0. -/
def twentyBytes : FileSystem := (write (create (freshFS 20)).2 0 (fill 65) 20 0).2

/-- On a 20-block device: one file of 20481 bytes, which needs the pointer block. -/
def oneIndirectFile : FileSystem := (write (create (freshFS 20)).2 0 (fill 65) 20481 0).2

/-- On a 10-block device: inodes 0 and 1 are created and three blocks written to inode 0, which
leaves exactly five free blocks. -/
def fiveBlocksLeft : FileSystem :=
  (write (create (create (freshFS 10)).2).2 0 (fill 65) 12288 0).2

/-- The number of bitmap entries marked free. -/
def freeCount (fs : FileSystem) : Nat := fs.bitmap_.count 1

/-- The device `d` after a test has overwritten byte `k` of block `blocknum` by `v`. -/
def pokeByte (d : Disk) (blocknum k : Nat) (v : Byte) : Disk :=
  { d with data := fun b j => if b = blocknum ∧ j = k then v else d.data b j }

/-- A block 0 with the four superblock fields given and zero padding. -/
def superBlockOf (magic blocks inode_blocks inodes : Nat) : Block :=
  set32 (set32 (set32 (set32 zeroBlock 0 magic) 1 blocks) 2 inode_blocks) 3 inodes

/-- An unmounted device of `n` blocks that holds `sb` in block 0 and zeros elsewhere. -/
def diskWithSuper (n : Nat) (sb : Block) : Disk :=
  { Blocks := n, Mounted := false, data := fun b => if b = 0 then sb else zeroBlock }

/-- On a 20-block device: inodes 0 and 1 are created and "hello" is written to each. -/
def twoSmallFiles : FileSystem :=
  (write (write (create (create (freshFS 20)).2).2 0 hello 5 0).2 1 hello 5 0).2

/-- On a 20-block device: inode 0 is created, removed and created again. -/
def afterRemove : FileSystem := (create (remove (create (freshFS 20)).2 0).2).2

/-! ## debug -/

/-- One line of the dump of `debug`, by the `printf` that produces it; the numbers are the
`%u` arguments. -/
inductive DebugLine where
  /-- The line `SuperBlock:`. -/
  | superBlock
  /-- The line `magic number is valid`. -/
  | magicValid
  /-- The line `magic number is invalid`. -/
  | magicInvalid
  /-- The line `%u blocks`. -/
  | blocks (n : Nat)
  /-- The line `%u inode blocks`. -/
  | inodeBlocks (n : Nat)
  /-- The line `%u inodes`. -/
  | inodes (n : Nat)
  /-- The line `Inode %u:`. -/
  | inode (i : Nat)
  /-- The line `size: %u bytes`. -/
  | size (n : Nat)
  /-- The line `direct blocks:` followed by the numbers printed after it. -/
  | directBlocks (l : List Nat)
  /-- The line `indirect block: %u`. -/
  | indirectBlock (p : Nat)
  /-- The line `indirect data blocks:` followed by the numbers printed after it. -/
  | indirectDataBlocks (l : List Nat)
  deriving DecidableEq

/-- The two vectors that `debug` declares before its loops, and the lines printed so far. -/
structure DebugState where
  direct_blocks : List Nat
  indirect_data_blocks : List Nat
  out : List DebugLine

/-- Lines 40-69 of `debug` for one valid inode, slot `i` of the inode block that was read. -/
def debugInode (disk : Disk) (inode : Inode) (i : Nat) (st : DebugState) : DebugState :=
  let direct_blocks := (List.range POINTERS_PER_INODE).foldl
    (fun v j => if inode.Direct j ≠ 0 then v ++ [inode.Direct j] else v) st.direct_blocks
  let indirect_ptr := inode.Indirect
  let indirect_data_blocks :=
    if indirect_ptr ≠ 0 then
      let indirect_block := disk.read indirect_ptr
      (List.range POINTERS_PER_BLOCK).foldl
        (fun v u => if get32 indirect_block u ≠ 0 then v ++ [get32 indirect_block u] else v)
        st.indirect_data_blocks
    else st.indirect_data_blocks
  let out := st.out ++ [DebugLine.inode i, DebugLine.size inode.Size,
    DebugLine.directBlocks direct_blocks]
  let out :=
    if indirect_data_blocks.length ≠ 0 then
      out ++ [DebugLine.indirectBlock indirect_ptr,
        DebugLine.indirectDataBlocks indirect_data_blocks]
    else out
  { direct_blocks := direct_blocks, indirect_data_blocks := indirect_data_blocks, out := out }

/-- The loop of `debug` over the 128 slots of inode block `k`. -/
def debugBlock (disk : Disk) (st : DebugState) (k : Nat) : DebugState :=
  let block := disk.read k
  (List.range INODES_PER_BLOCK).foldl
    (fun st i => if (getInode block i).Valid = 0 then st
      else debugInode disk (getInode block i) i st)
    st

/-- The function `FileSystem::debug`: the lines it prints for a device. -/
def debug (disk : Disk) : List DebugLine :=
  let block := disk.read 0
  let out := [DebugLine.superBlock,
    if get32 block 0 = MAGIC_NUMBER then DebugLine.magicValid else DebugLine.magicInvalid,
    DebugLine.blocks (get32 block 1), DebugLine.inodeBlocks (get32 block 2),
    DebugLine.inodes (get32 block 3)]
  ((List.range' 1 (get32 block 2)).foldl (debugBlock disk)
    { direct_blocks := [], indirect_data_blocks := [], out := out }).out

/-- The device after the call `mount(disk)`: the only statement of `mount` that changes the
device is `disk->mount()` on line 123, which is reached exactly when the call returns
true. -/
def mountDevice (fs : FileSystem) (disk : Disk) : Disk :=
  if (mount fs disk).1 then disk.mount else disk

/-! ## Notions used to state the properties -/

/-- The inode record `j` as it is stored in the inode table on the device
(`load_inode` without its bound check). -/
def inodeAt (fs : FileSystem) (j : Nat) : Inode :=
  getInode (fs.disk_.read (j / INODES_PER_BLOCK + 1)) (j % INODES_PER_BLOCK)

/-- Pointer slot `s` of the on-disk inode `j`: slots 0..4 are `Direct[0..4]`, slot 5 is
`Indirect`, and slot `6 + u` is entry `u` of the pointer block (0 when there is none). -/
def ptrAt (fs : FileSystem) (j s : Nat) : Nat :=
  if s < 5 then (inodeAt fs j).Direct s
  else if s = 5 then (inodeAt fs j).Indirect
  else if (inodeAt fs j).Indirect = 0 then 0
  else get32 (fs.disk_.read (inodeAt fs j).Indirect) (s - 6)

/-- The number of pointer slots of an inode: 5 direct, 1 indirect, 1024 entries. -/
def SLOTS : Nat := 1030

/-- What the checks of a successful `mount` give on a device whose inode table lies on the
device, with an inode count that fits the `int` result of `create`. -/
structure MountedOK (fs : FileSystem) : Prop where
  inodes_eq : fs.inodes_num_ = fs.inode_blocks_num_ * INODES_PER_BLOCK
  table_on_disk : fs.inode_blocks_num_ < fs.disk_.Blocks
  int_range : fs.inodes_num_ < 2 ^ 31

/-- The states reached from a freshly formatted and mounted device by `create`, `remove`
and `write` calls with arbitrary arguments.  The device has at most 2^31 blocks, so that
every block index fits the `int` in which `allocate_free_block` keeps it. -/
inductive Reachable : FileSystem → Prop
  | fresh (fs0 : FileSystem) (d : Disk) (hd : d.mounted = false) (h31 : d.size ≤ 2 ^ 31)
      (hm : (mount fs0 (format d).2).1 = true) : Reachable (mount fs0 (format d).2).2
  | create (fs : FileSystem) (h : Reachable fs) : Reachable (create fs).2
  | remove (fs : FileSystem) (inumber : Nat) (h : Reachable fs) : Reachable (remove fs inumber).2
  | write (fs : FileSystem) (inumber : Nat) (data : Buffer) (length offset : Nat)
      (h : Reachable fs) : Reachable (write fs inumber data length offset).2

/-- The consistency of pointers and bitmap that `create`, `remove` and `write` maintain:
every nonzero pointer slot of every inode record of the table lies after the inode table,
on the device, is marked in use, and occurs in no other slot. -/
structure Inv (fs : FileSystem) : Prop where
  blocks_eq : fs.blocks_num_ = fs.disk_.Blocks
  blocks_u32 : fs.blocks_num_ < 2 ^ 32
  inodes_le : fs.inodes_num_ ≤ fs.inode_blocks_num_ * INODES_PER_BLOCK
  table_lt : fs.inode_blocks_num_ < fs.blocks_num_
  bitmap_len : fs.bitmap_.length = fs.blocks_num_
  table_used : ∀ k, 1 ≤ k → k ≤ fs.inode_blocks_num_ → bitGet fs.bitmap_ k = 0
  ptr_ok : ∀ j s, j < fs.inode_blocks_num_ * INODES_PER_BLOCK → s < SLOTS → ptrAt fs j s ≠ 0 →
    fs.inode_blocks_num_ < ptrAt fs j s ∧ ptrAt fs j s < fs.blocks_num_
      ∧ bitGet fs.bitmap_ (ptrAt fs j s) = 0
  ptr_inj : ∀ j s j' s', j < fs.inode_blocks_num_ * INODES_PER_BLOCK →
    j' < fs.inode_blocks_num_ * INODES_PER_BLOCK → s < SLOTS → s' < SLOTS →
    ptrAt fs j s ≠ 0 → ptrAt fs j s = ptrAt fs j' s' → j = j' ∧ s = s'

/-- The pointer slots that the local variables of `write` on inode `i` hold: the in-memory
`inode`, and `ptr_block` once it has been read (before that, the entries on the device as
they were in the state `fs0` in which `write` was called). -/
def memPtr (fs0 : FileSystem) (i : Nat) (s : WState) (slot : Nat) : Nat :=
  if slot < 5 then s.inode.Direct slot
  else if slot = 5 then s.inode.Indirect
  else if s.read_indirect then get32 s.ptr_block (slot - 6)
  else ptrAt fs0 i slot

/-- The file system after the record of inode `j` has been overwritten by `x` in its
inode block (the effect of `save_inode`). -/
def putInode (fs : FileSystem) (j : Nat) (x : Inode) : FileSystem :=
  { fs with
    disk_ := (fs.disk_.write (j / INODES_PER_BLOCK + 1)
      (setInode (fs.disk_.read (j / INODES_PER_BLOCK + 1)) (j % INODES_PER_BLOCK) x)) }

/-- The state in which `create` leaves the file system when it takes inode `j`: the record
is overwritten in place by `make_inode(.., true)`. -/
def createAt (fs : FileSystem) (j : Nat) : FileSystem :=
  { fs with
    disk_ := (fs.disk_.write (j / INODES_PER_BLOCK + 1)
      (setInode (fs.disk_.read (j / INODES_PER_BLOCK + 1)) (j % INODES_PER_BLOCK)
        (make_inode true))) }

/-- The state after `k` successive calls of `create`. -/
def createMany (fs : FileSystem) : Nat → FileSystem
  | 0 => fs
  | k + 1 => (create (createMany fs k)).2

/-- Inodes below `m` are valid and inodes from `m` on are not. -/
def ValidBelow (fs : FileSystem) (m : Nat) : Prop :=
  MountedOK fs ∧ ∀ j, j < fs.inodes_num_ → ((inodeAt fs j).Valid = 0 ↔ m ≤ j)

/-- The facts about the bitmap, the device and the pointer slots `mp` held in memory that
every iteration of the loop of `write` on inode `i` keeps, relative to the state `fs0` in
which `write` was called. -/
structure Core (fs0 : FileSystem) (i : Nat) (mp : Nat → Nat) (fs : FileSystem) : Prop where
  f_blocks : fs.blocks_num_ = fs0.blocks_num_
  f_ib : fs.inode_blocks_num_ = fs0.inode_blocks_num_
  f_inodes : fs.inodes_num_ = fs0.inodes_num_
  f_dblocks : fs.disk_.Blocks = fs0.disk_.Blocks
  f_len : fs.bitmap_.length = fs0.bitmap_.length
  bits : ∀ b, bitGet fs.bitmap_ b ≠ 0 → bitGet fs0.bitmap_ b ≠ 0
  frame : ∀ b, b ≠ 0 → bitGet fs0.bitmap_ b = 0 →
    (∀ slot, slot < SLOTS → slot ≠ 5 → ptrAt fs0 i slot ≠ b) → fs.disk_.read b = fs0.disk_.read b
  pNew : ∀ slot, slot < SLOTS →
    mp slot = 0 ∨ mp slot = ptrAt fs0 i slot ∨ bitGet fs0.bitmap_ (mp slot) ≠ 0
  pUsed : ∀ slot, slot < SLOTS → mp slot ≠ 0 → bitGet fs.bitmap_ (mp slot) = 0
  pInj : ∀ a b, a < SLOTS → b < SLOTS → mp a ≠ 0 → mp a = mp b → a = b
  pKeep : ∀ slot, slot < SLOTS → ptrAt fs0 i slot ≠ 0 → mp slot = ptrAt fs0 i slot

/-- The loop invariant of `write` on inode `i` called in state `fs0`. -/
structure WInv (fs0 : FileSystem) (i : Nat) (s : WState) : Prop where
  core : Core fs0 i (memPtr fs0 i s) s.fs
  noRead : s.read_indirect = false →
    s.modify_ptr_block = false ∧ s.inode.Indirect = (inodeAt fs0 i).Indirect
  noModI : s.modify_inode = false → ∀ t, t < 5 → s.inode.Direct t = (inodeAt fs0 i).Direct t
  noModP : s.modify_ptr_block = false → ∀ slot, 5 ≤ slot → slot < SLOTS →
    memPtr fs0 i s slot = ptrAt fs0 i slot

/-- What a call of `write` on inode `i` in state `fs0` may have changed when it ends in
state `fs`: the cached sizes are the same, free bitmap entries were free before, the
records of the other inodes and every block that was in use and not a block of inode `i`
are untouched, and the pointer slots of inode `i` are 0 or taken from slots `mp` that are
old slots of `i` or blocks that were free, all marked in use and pairwise distinct. -/
structure Effect (fs0 : FileSystem) (i : Nat) (fs : FileSystem) : Prop where
  f_blocks : fs.blocks_num_ = fs0.blocks_num_
  f_ib : fs.inode_blocks_num_ = fs0.inode_blocks_num_
  f_inodes : fs.inodes_num_ = fs0.inodes_num_
  f_dblocks : fs.disk_.Blocks = fs0.disk_.Blocks
  f_len : fs.bitmap_.length = fs0.bitmap_.length
  bits : ∀ b, bitGet fs.bitmap_ b ≠ 0 → bitGet fs0.bitmap_ b ≠ 0
  others : ∀ j, j < fs0.inode_blocks_num_ * INODES_PER_BLOCK → j ≠ i →
    inodeAt fs j = inodeAt fs0 j
  frame : ∀ b, b ≠ 0 → bitGet fs0.bitmap_ b = 0 →
    (∀ slot, slot < SLOTS → ptrAt fs0 i slot ≠ b) → fs0.inode_blocks_num_ < b →
    fs.disk_.read b = fs0.disk_.read b
  self : ∃ mp : Nat → Nat,
    (∀ slot, slot < SLOTS → ptrAt fs i slot = 0 ∨ ptrAt fs i slot = mp slot)
    ∧ (∀ slot, slot < SLOTS →
        mp slot = 0 ∨ mp slot = ptrAt fs0 i slot ∨ bitGet fs0.bitmap_ (mp slot) ≠ 0)
    ∧ (∀ slot, slot < SLOTS → mp slot ≠ 0 → bitGet fs.bitmap_ (mp slot) = 0)
    ∧ (∀ a b, a < SLOTS → b < SLOTS → mp a ≠ 0 → mp a = mp b → a = b)

/-- The constant `MAX_SIZE` that `write` computes on line 307: (5 + 1024) * 4096. -/
def MAX_FILE_SIZE : Nat := BLOCK_SIZE * (POINTERS_PER_INODE + POINTERS_PER_BLOCK)

/-- Every inode record of the table has a size of at most `MAX_FILE_SIZE`. -/
def SizeOK (fs : FileSystem) : Prop :=
  ∀ j, j < fs.inode_blocks_num_ * INODES_PER_BLOCK → (inodeAt fs j).Size ≤ MAX_FILE_SIZE

/-- The number of `t < m` with `f t ≠ 0`. -/
def countNonzero (f : Nat → Nat) (m : Nat) : Nat :=
  ((List.range m).filter (fun t => decide (f t ≠ 0))).length

/-- The number of device blocks that the first `j` logical blocks of a file take when they
are allocated in a row: one per logical block, and the pointer block once there is a sixth
logical block. -/
def blocksUsed (j : Nat) : Nat := if 5 < j then j + 1 else j

/-- The number of logical blocks that `len` bytes written from offset 0 take. -/
def blocksOf (len : Nat) : Nat := (len + (BLOCK_SIZE - 1)) / BLOCK_SIZE

/-- The number of bitmap entries below `n` that are marked free. -/
def freeBelow (bm : List Int) : Nat → Nat
  | 0 => 0
  | n + 1 => freeBelow bm n + (if bitGet bm n ≠ 0 then 1 else 0)

/-- A file system object in which inode `i` has size 0 and no pointers, and in which the
bitmap marks the superblock and the inode table as in use (what `format`, `mount` and
`create` calls leave behind). -/
structure FreshFile (fs : FileSystem) (i : Nat) : Prop where
  blocks_eq : fs.blocks_num_ = fs.disk_.Blocks
  blocks_u32 : fs.blocks_num_ < 2 ^ 32
  table_lt : fs.inode_blocks_num_ < fs.blocks_num_
  i_lt : i < fs.inodes_num_
  inodes_le : fs.inodes_num_ ≤ fs.inode_blocks_num_ * INODES_PER_BLOCK
  used : ∀ b, b ≤ fs.inode_blocks_num_ → bitGet fs.bitmap_ b = 0
  size0 : (inodeAt fs i).Size = 0
  direct0 : ∀ t, t < 5 → (inodeAt fs i).Direct t = 0
  indirect0 : (inodeAt fs i).Indirect = 0

/-- The loop invariant of `write` at offset 0 on a fresh file, when `k` blocks have been
allocated out of the `need` blocks that the call takes, on a device of `n` blocks with `ib`
inode blocks: the blocks have been handed to `Direct[0..4]`, then to `Indirect`, then to the
entries of the pointer block, and enough free entries are left for the rest. -/
structure Shape (n ib N need k : Nat) (s : WState) : Prop where
  blocks : s.fs.blocks_num_ = n
  dblocks : s.fs.disk_.Blocks = n
  inodes : s.fs.inodes_num_ = N
  table : ∀ b, b ≤ ib → bitGet s.fs.bitmap_ b = 0
  room : need ≤ k + freeBelow s.fs.bitmap_ n
  size : s.inode.Size = 0
  direct : ∀ t, t < 5 → (s.inode.Direct t ≠ 0 ↔ t < k) ∧ s.inode.Direct t < n
  indirect : (s.inode.Indirect ≠ 0 ↔ 5 < k) ∧ s.inode.Indirect < n
    ∧ (s.inode.Indirect ≠ 0 → ib < s.inode.Indirect)
  notLoaded : k ≤ 5 → s.read_indirect = false
  loaded : 5 < k → s.read_indirect = true ∧ s.modify_ptr_block = true
  entries : 5 < k → ∀ u, u < 1024 → (get32 s.ptr_block u ≠ 0 ↔ u + 6 < k)

/-- The state after `format` and `mount` of device `d`, `k + 1` calls of `create` in a row,
and then one `write` of `len` bytes at offset 0 to the inode that the last `create`
returned, which is inode `k`. -/
def writeNewFile (fs0 : FileSystem) (d : Disk) (k : Nat) (data : Buffer) (len : Nat) :
    FileSystem :=
  (write (create (createMany (mount fs0 (format d).2).2 k)).2 k data len 0).2

/-! ## Codec lemmas -/

theorem byteOf_val (v k : Nat) : (byteOf v k).val = (v / 256 ^ k) % 256 := rfl

theorem get32_lt (b : Block) (w : Nat) : get32 b w < 2 ^ 32 := by
  unfold get32
  have h0 := (b (4 * w)).isLt
  have h1 := (b (4 * w + 1)).isLt
  have h2 := (b (4 * w + 2)).isLt
  have h3 := (b (4 * w + 3)).isLt
  omega

theorem get32_congr (b b' : Block) (w : Nat)
    (h : ∀ k, k < 4 → b (4 * w + k) = b' (4 * w + k)) : get32 b w = get32 b' w := by
  unfold get32
  have h0 := h 0 (by omega)
  rw [Nat.add_zero] at h0
  rw [h0, h 1 (by omega), h 2 (by omega), h 3 (by omega)]

theorem get32_zeroBlock (w : Nat) : get32 zeroBlock w = 0 := by
  simp [get32, zeroBlock]

theorem get32_set32_same (b : Block) (w v : Nat) : get32 (set32 b w v) w = v % 2 ^ 32 := by
  have e0 : 4 * w / 4 = w := by omega
  have e1 : (4 * w + 1) / 4 = w := by omega
  have e2 : (4 * w + 2) / 4 = w := by omega
  have e3 : (4 * w + 3) / 4 = w := by omega
  have m0 : 4 * w % 4 = 0 := by omega
  have m1 : (4 * w + 1) % 4 = 1 := by omega
  have m2 : (4 * w + 2) % 4 = 2 := by omega
  have m3 : (4 * w + 3) % 4 = 3 := by omega
  simp only [get32, set32, e0, e1, e2, e3, m0, m1, m2, m3, if_true, byteOf_val]
  norm_num
  omega

theorem get32_set32_ne (b : Block) (w w' v : Nat) (h : w' ≠ w) :
    get32 (set32 b w v) w' = get32 b w' := by
  apply get32_congr
  intro k hk
  have : (4 * w' + k) / 4 ≠ w := by omega
  simp [set32, this]

theorem get32_setInode_same (b : Block) (i w : Nat) (x : Inode) (hw : w < 8) :
    get32 (setInode b i x) (8 * i + w) = x.word w % 2 ^ 32 := by
  have e0 : 4 * (8 * i + w) / 32 = i := by omega
  have e1 : (4 * (8 * i + w) + 1) / 32 = i := by omega
  have e2 : (4 * (8 * i + w) + 2) / 32 = i := by omega
  have e3 : (4 * (8 * i + w) + 3) / 32 = i := by omega
  have d0 : 4 * (8 * i + w) % 32 / 4 = w := by omega
  have d1 : (4 * (8 * i + w) + 1) % 32 / 4 = w := by omega
  have d2 : (4 * (8 * i + w) + 2) % 32 / 4 = w := by omega
  have d3 : (4 * (8 * i + w) + 3) % 32 / 4 = w := by omega
  have m0 : 4 * (8 * i + w) % 4 = 0 := by omega
  have m1 : (4 * (8 * i + w) + 1) % 4 = 1 := by omega
  have m2 : (4 * (8 * i + w) + 2) % 4 = 2 := by omega
  have m3 : (4 * (8 * i + w) + 3) % 4 = 3 := by omega
  simp only [get32, setInode, e0, e1, e2, e3, d0, d1, d2, d3, m0, m1, m2, m3, if_true,
    byteOf_val]
  norm_num
  omega

theorem get32_setInode_ne (b : Block) (i w : Nat) (x : Inode) (h : w / 8 ≠ i) :
    get32 (setInode b i x) w = get32 b w := by
  apply get32_congr
  intro k hk
  have : (4 * w + k) / 32 ≠ i := by omega
  simp [setInode, this]
theorem getInode_setInode_ne (b : Block) (i i' : Nat) (x : Inode) (h : i' ≠ i) :
    getInode (setInode b i x) i' = getInode b i' := by
  unfold getInode
  have e0 : get32 (setInode b i x) (8 * i') = get32 b (8 * i') :=
    get32_setInode_ne _ _ _ _ (by omega)
  have e1 : get32 (setInode b i x) (8 * i' + 1) = get32 b (8 * i' + 1) :=
    get32_setInode_ne _ _ _ _ (by omega)
  have e7 : get32 (setInode b i x) (8 * i' + 7) = get32 b (8 * i' + 7) :=
    get32_setInode_ne _ _ _ _ (by omega)
  have ed : (fun j => if j < POINTERS_PER_INODE then get32 (setInode b i x) (8 * i' + 2 + j)
      else 0) = fun j => if j < POINTERS_PER_INODE then get32 b (8 * i' + 2 + j) else 0 := by
    funext j
    by_cases hj : j < POINTERS_PER_INODE
    · simp only [hj, if_true]
      exact get32_setInode_ne _ _ _ _ (by unfold POINTERS_PER_INODE at hj; omega)
    · simp only [hj, if_false]
  rw [e0, e1, e7, ed]

theorem getInode_setInode_same (b : Block) (i : Nat) (x : Inode) :
    (getInode (setInode b i x) i).Valid = x.Valid % 2 ^ 32
      ∧ (getInode (setInode b i x) i).Size = x.Size % 2 ^ 32
      ∧ (∀ t, t < POINTERS_PER_INODE →
          (getInode (setInode b i x) i).Direct t = x.Direct t % 2 ^ 32)
      ∧ (getInode (setInode b i x) i).Indirect = x.Indirect % 2 ^ 32 := by
  unfold getInode
  refine ⟨?_, ?_, ?_, ?_⟩
  · have h := get32_setInode_same b i 0 x (by omega)
    simpa [Inode.word] using h
  · have h := get32_setInode_same b i 1 x (by omega)
    simpa [Inode.word] using h
  · intro t ht
    unfold POINTERS_PER_INODE at ht
    have h := get32_setInode_same b i (2 + t) x (by omega)
    have e1 : ¬ (2 + t = 0) := by omega
    have e2 : ¬ (2 + t = 1) := by omega
    have e3 : 2 + t < 7 := by omega
    have e4 : 2 + t - 2 = t := by omega
    simp only [Inode.word, e1, e2, e3, e4, if_false, if_true] at h
    simp only [POINTERS_PER_INODE, ht, if_true]
    rw [← h]
    congr 1
    omega
  · have h := get32_setInode_same b i 7 x (by omega)
    simpa [Inode.word] using h

theorem getInode_Direct_oob (b : Block) (i t : Nat) (h : POINTERS_PER_INODE ≤ t) :
    (getInode b i).Direct t = 0 := by
  simp [getInode, Nat.not_lt.mpr h]

theorem getInode_lt (b : Block) (i : Nat) :
    (getInode b i).Valid < 2 ^ 32 ∧ (getInode b i).Size < 2 ^ 32
      ∧ (∀ t, (getInode b i).Direct t < 2 ^ 32) ∧ (getInode b i).Indirect < 2 ^ 32 := by
  refine ⟨get32_lt _ _, get32_lt _ _, ?_, get32_lt _ _⟩
  intro t
  unfold getInode
  simp only []
  split_ifs
  · exact get32_lt _ _
  · decide

/-! ## Device lemmas -/

@[simp] theorem Disk.write_Blocks (d : Disk) (b : Nat) (x : Block) :
    (d.write b x).Blocks = d.Blocks := by
  unfold Disk.write; split_ifs <;> rfl

@[simp] theorem Disk.write_Mounted (d : Disk) (b : Nat) (x : Block) :
    (d.write b x).Mounted = d.Mounted := by
  unfold Disk.write; split_ifs <;> rfl

theorem Disk.read_write_same (d : Disk) (b : Nat) (x : Block) (h : b < d.Blocks) :
    (d.write b x).read b = x := by
  simp [Disk.write, Disk.read, h]

theorem Disk.read_write_ne (d : Disk) (b b' : Nat) (x : Block) (h : b' ≠ b) :
    (d.write b x).read b' = d.read b' := by
  unfold Disk.write Disk.read
  split_ifs <;> simp_all

theorem Disk.read_write (d : Disk) (b b' : Nat) (x : Block) :
    (d.write b x).read b' = if b' = b ∧ b < d.Blocks then x else d.read b' := by
  by_cases h : b' = b
  · subst h
    by_cases hb : b' < d.Blocks
    · simp [Disk.read_write_same, hb]
    · simp [Disk.write, hb]
  · simp [Disk.read_write_ne, h]

theorem Disk.read_oob (d : Disk) (b : Nat) (h : d.Blocks ≤ b) : d.read b = zeroBlock := by
  simp [Disk.read, Nat.not_lt.mpr h]

@[simp] theorem Disk.mount_read (d : Disk) (b : Nat) : d.mount.read b = d.read b := rfl

@[simp] theorem Disk.mount_Blocks (d : Disk) : d.mount.Blocks = d.Blocks := rfl

/-! ## format -/

theorem foldl_write_zero_Blocks (L : List Nat) (d : Disk) :
    (L.foldl (fun d i => d.write i zeroBlock) d).Blocks = d.Blocks := by
  induction L generalizing d with
  | nil => rfl
  | cons a L ih => simp [List.foldl_cons, ih]

theorem foldl_write_zero_Mounted (L : List Nat) (d : Disk) :
    (L.foldl (fun d i => d.write i zeroBlock) d).Mounted = d.Mounted := by
  induction L generalizing d with
  | nil => rfl
  | cons a L ih => simp [List.foldl_cons, ih]

theorem foldl_write_zero_read (L : List Nat) (d : Disk) (b : Nat) :
    (L.foldl (fun d i => d.write i zeroBlock) d).read b
      = if b ∈ L then zeroBlock else d.read b := by
  induction L generalizing d with
  | nil => simp
  | cons a L ih =>
    rw [List.foldl_cons, ih]
    by_cases hb : b ∈ L
    · simp [hb]
    · by_cases hba : b = a
      · subst hba
        by_cases hlt : b < d.Blocks
        · simp [Disk.read_write_same, hlt]
        · have h1 : d.write b zeroBlock = d := by simp [Disk.write, hlt]
          simp [hb, h1, Disk.read, hlt]
      · simp [hb, hba, Disk.read_write_ne]

theorem get32_formatSuper (n : Nat) :
    get32 (formatSuper n) 0 = MAGIC_NUMBER ∧ get32 (formatSuper n) 1 = n % 2 ^ 32
      ∧ get32 (formatSuper n) 2 = (n / 10) % 2 ^ 32
      ∧ get32 (formatSuper n) 3 = (INODES_PER_BLOCK * ((n / 10) % 2 ^ 32)) % 2 ^ 32 := by
  unfold formatSuper
  simp only []
  refine ⟨?_, ?_, ?_, ?_⟩
  · rw [get32_set32_ne _ _ _ _ (by decide), get32_set32_ne _ _ _ _ (by decide),
      get32_set32_ne _ _ _ _ (by decide), get32_set32_same]
    decide
  · rw [get32_set32_ne _ _ _ _ (by decide), get32_set32_ne _ _ _ _ (by decide),
      get32_set32_same]
  · rw [get32_set32_ne _ _ _ _ (by decide), get32_set32_same]
  · rw [get32_set32_same, get32_set32_same]

/-- What `format` leaves on an unmounted device whose size is a `u32`: it returns true,
block 0 is the superblock built from the size, and every other block is zero. -/
theorem format_spec (d : Disk) (hd : d.mounted = false) (h32 : d.size < 2 ^ 32) :
    (format d).1 = true ∧ (format d).2.Blocks = d.Blocks ∧ (format d).2.Mounted = false
      ∧ (0 < d.Blocks → (format d).2.read 0 = formatSuper d.Blocks)
      ∧ ∀ b, 1 ≤ b → (format d).2.read b = zeroBlock := by
  have hd' : d.Mounted = false := hd
  have h32' : d.Blocks < 2 ^ 32 := h32
  have hn : get32 (formatSuper d.Blocks) 1 = d.Blocks := by
    rw [(get32_formatSuper d.Blocks).2.1]; exact Nat.mod_eq_of_lt h32'
  unfold format
  simp only [hd, Bool.false_eq_true, if_false, Disk.size, hn]
  refine ⟨trivial, ?_, ?_, ?_, ?_⟩
  · rw [foldl_write_zero_Blocks, Disk.write_Blocks]
  · rw [foldl_write_zero_Mounted, Disk.write_Mounted]; exact hd'
  · intro h0
    rw [foldl_write_zero_read]
    have : (0 : Nat) ∉ List.range' 1 (d.Blocks - 1) := by
      rw [List.mem_range'_1]; omega
    simp only [this, if_false]
    exact Disk.read_write_same _ _ _ h0
  · intro b hb
    rw [foldl_write_zero_read]
    by_cases hm : b ∈ List.range' 1 (d.Blocks - 1)
    · simp [hm]
    · simp only [hm, if_false]
      have hge : d.Blocks ≤ b := by
        by_contra hlt
        apply hm
        rw [List.mem_range'_1]
        omega
      rw [Disk.read_write_ne _ _ _ _ (by omega)]
      exact Disk.read_oob _ _ hge

/-! ## Bitmap lemmas -/

@[simp] theorem bitSet_length (bm : List Int) (i : Nat) (x : Int) :
    (bitSet bm i x).length = bm.length := by
  simp [bitSet]

theorem bitGet_bitSet (bm : List Int) (i j : Nat) (x : Int) :
    bitGet (bitSet bm i x) j = if j = i ∧ i < bm.length then x else bitGet bm j := by
  unfold bitGet bitSet
  rw [List.getD_eq_getElem?_getD, List.getD_eq_getElem?_getD, List.getElem?_set]
  by_cases h : i = j
  · subst h
    by_cases hl : i < bm.length
    · simp [hl]
    · simp [hl, List.getElem?_eq_none (Nat.not_lt.mp hl)]
  · have h' : ¬ j = i := fun e => h e.symm
    simp [h, h']

theorem bitGet_oob (bm : List Int) (i : Nat) (h : bm.length ≤ i) : bitGet bm i = 0 := by
  unfold bitGet
  rw [List.getD_eq_getElem?_getD, List.getElem?_eq_none h]
  rfl

theorem bitGet_ne_zero_lt (bm : List Int) (i : Nat) (h : bitGet bm i ≠ 0) : i < bm.length := by
  by_contra hlt
  exact h (bitGet_oob bm i (Nat.not_lt.mp hlt))

@[simp] theorem resize_length (v : List Int) (n : Nat) (x : Int) : (resize v n x).length = n := by
  simp [resize]
  omega

theorem foldl_bitSet_length (L : List Nat) (f : Nat → Nat) (x : Int) (bm : List Int) :
    (L.foldl (fun bm i => bitSet bm (f i) x) bm).length = bm.length := by
  induction L generalizing bm with
  | nil => rfl
  | cons a L ih => rw [List.foldl_cons, ih, bitSet_length]

/-- A loop of assignments `bitmap_[f i] = x` sets exactly the entries it names. -/
theorem bitGet_foldl_bitSet (L : List Nat) (f : Nat → Nat) (x : Int) (bm : List Int) (b : Nat) :
    bitGet (L.foldl (fun bm i => bitSet bm (f i) x) bm) b
      = if (∃ i, i ∈ L ∧ f i = b) ∧ b < bm.length then x else bitGet bm b := by
  induction L generalizing bm with
  | nil => simp
  | cons a L ih =>
    rw [List.foldl_cons, ih, bitSet_length, bitGet_bitSet]
    by_cases h1 : ∃ i, i ∈ L ∧ f i = b
    · obtain ⟨i, hi, hfi⟩ := h1
      have h2 : ∃ i, i ∈ a :: L ∧ f i = b := ⟨i, List.mem_cons_of_mem _ hi, hfi⟩
      have h1' : ∃ i, i ∈ L ∧ f i = b := ⟨i, hi, hfi⟩
      by_cases hl : b < bm.length
      · simp only [h1', h2, hl, and_self, if_true]
      · simp only [hl, and_false, if_false]
        rw [bitGet_oob bm b (Nat.not_lt.mp hl)]
        split_ifs <;> first | rfl | omega
    · by_cases ha : f a = b
      · have h2 : ∃ i, i ∈ a :: L ∧ f i = b := ⟨a, List.mem_cons_self _ _, ha⟩
        simp only [h1, h2, false_and, if_false, true_and]
        subst ha
        simp
      · have h2 : ¬ ∃ i, i ∈ a :: L ∧ f i = b := by
          rintro ⟨i, hi, hfi⟩
          rcases List.mem_cons.mp hi with rfl | hi
          · exact ha hfi
          · exact h1 ⟨i, hi, hfi⟩
        have ha' : ¬ b = f a := fun e => ha e.symm
        simp only [h1, h2, ha', false_and, if_false]

/-! ## mount -/

theorem getInode_zeroBlock_Valid (i : Nat) : (getInode zeroBlock i).Valid = 0 :=
  get32_zeroBlock _

theorem mountBlock_zero (disk : Disk) (bm : List Int) (k : Nat) (h : disk.read k = zeroBlock) :
    mountBlock disk bm k = bm := by
  unfold mountBlock
  simp only [h, getInode_zeroBlock_Valid, if_true]
  generalize List.range INODES_PER_BLOCK = L
  induction L with
  | nil => rfl
  | cons a L ih => rw [List.foldl_cons, ih]

theorem foldl_mountBlock_zero (disk : Disk) (L : List Nat) (bm : List Int)
    (h : ∀ k, k ∈ L → disk.read k = zeroBlock) : L.foldl (mountBlock disk) bm = bm := by
  induction L generalizing bm with
  | nil => rfl
  | cons a L ih =>
    rw [List.foldl_cons, mountBlock_zero disk bm a (h a (List.mem_cons_self _ _))]
    exact ih bm (fun k hk => h k (List.mem_cons_of_mem _ hk))

/-- The state that a successful `mount` of a freshly formatted device yields. -/
theorem mount_fresh (fs0 : FileSystem) (d : Disk) (hd : d.mounted = false)
    (h32 : d.size < 2 ^ 32) (hm : (mount fs0 (format d).2).1 = true) :
    (mount fs0 (format d).2).2 =
      { disk_ := (format d).2.mount
        blocks_num_ := d.Blocks
        inode_blocks_num_ := d.Blocks / 10
        inodes_num_ := (INODES_PER_BLOCK * (d.Blocks / 10)) % 2 ^ 32
        bitmap_ := (List.range' 1 (d.Blocks / 10)).foldl (fun bm i => bitSet bm i 0)
          (bitSet (resize fs0.bitmap_ d.Blocks 1) 0 0) }
      ∧ d.Blocks % 10 = 0 ∧ 0 < d.Blocks := by
  obtain ⟨-, hB, hM, h0, hz⟩ := format_spec d hd h32
  have h32' : d.Blocks < 2 ^ 32 := h32
  have hM' : (format d).2.mounted = false := hM
  have hpos : 0 < d.Blocks := by
    by_contra hc
    have hr : (format d).2.read 0 = zeroBlock := Disk.read_oob _ _ (by omega)
    unfold mount at hm
    simp [hM', hr, get32_zeroBlock, MAGIC_NUMBER] at hm
  have hs := h0 hpos
  obtain ⟨g0, g1, g2, g3⟩ := get32_formatSuper d.Blocks
  have e1 : d.Blocks % 2 ^ 32 = d.Blocks := Nat.mod_eq_of_lt h32'
  have e2 : (d.Blocks / 10) % 2 ^ 32 = d.Blocks / 10 := Nat.mod_eq_of_lt (by omega)
  rw [e1] at g1
  rw [e2] at g2 g3
  have hmod : d.Blocks % 10 = 0 := by
    by_contra hc
    unfold mount at hm
    simp [hM', hs, g0, g1, g2, g3, Disk.size, hB, hc] at hm
  refine ⟨?_, hmod, hpos⟩
  have hscan : ∀ bm, (List.range' 1 (d.Blocks / 10)).foldl (mountBlock (format d).2.mount) bm
      = bm := by
    intro bm
    apply foldl_mountBlock_zero
    intro k hk
    rw [List.mem_range'_1] at hk
    rw [Disk.mount_read]
    exact hz k hk.1
  unfold mount
  simp only [hM', hs, g0, g1, g2, g3, Disk.size, hB, hmod, hscan, Nat.mul_comm]
  simp

/-! ## create -/

theorem toInt32_of_lt (v : Nat) (h : v < 2 ^ 31) : toInt32 v = (v : Int) := by
  unfold toInt32
  have h1 : v % 2 ^ 32 = v := Nat.mod_eq_of_lt (by omega)
  rw [h1, if_pos h]

theorem firstFreeInode_some (block : Block) (n i r : Nat)
    (h1 : i ≤ r) (h2 : r < i + n) (h3 : (getInode block r).Valid = 0)
    (h4 : ∀ t, i ≤ t → t < r → (getInode block t).Valid ≠ 0) :
    firstFreeInode block n i = some r := by
  induction n generalizing i with
  | zero => omega
  | succ n ih =>
    unfold firstFreeInode
    by_cases hir : i = r
    · subst hir; simp [h3]
    · have hv : (getInode block i).Valid ≠ 0 := h4 i (le_refl _) (by omega)
      rw [if_neg hv]
      exact ih (i + 1) (by omega) (by omega) (fun t ht1 ht2 => h4 t (by omega) ht2)

theorem firstFreeInode_none (block : Block) (n i : Nat)
    (h : ∀ t, i ≤ t → t < i + n → (getInode block t).Valid ≠ 0) :
    firstFreeInode block n i = none := by
  induction n generalizing i with
  | zero => rfl
  | succ n ih =>
    unfold firstFreeInode
    rw [if_neg (h i (le_refl _) (by omega))]
    exact ih (i + 1) (fun t ht1 ht2 => h t (by omega) (by omega))

theorem inodeAt_in_block (fs : FileSystem) (k t : Nat) (hk : 1 ≤ k)
    (h1 : INODES_PER_BLOCK * (k - 1) ≤ t) (h2 : t < INODES_PER_BLOCK * k) :
    inodeAt fs t = getInode (fs.disk_.read k) (t - INODES_PER_BLOCK * (k - 1)) := by
  unfold inodeAt
  unfold INODES_PER_BLOCK at *
  have e1 : t / 128 + 1 = k := by omega
  have e2 : t % 128 = t - 128 * (k - 1) := by omega
  rw [e1, e2]

theorem createFrom_none (fs : FileSystem) (n k : Nat) (hk : 1 ≤ k)
    (h : ∀ t, INODES_PER_BLOCK * (k - 1) ≤ t → t < INODES_PER_BLOCK * (k - 1 + n) →
      (inodeAt fs t).Valid ≠ 0) :
    createFrom fs n k = (-1, fs) := by
  induction n generalizing k with
  | zero => rfl
  | succ n ih =>
    unfold createFrom
    have hnone : firstFreeInode (fs.disk_.read k) INODES_PER_BLOCK 0 = none := by
      apply firstFreeInode_none
      intro t _ ht
      have h5 := h (INODES_PER_BLOCK * (k - 1) + t) (by omega)
        (by unfold INODES_PER_BLOCK at *; omega)
      rw [inodeAt_in_block fs k _ hk (by omega) (by unfold INODES_PER_BLOCK at *; omega)] at h5
      simpa using h5
    simp only [hnone]
    apply ih (k + 1) (by omega)
    intro t ht1 ht2
    apply h t
    · unfold INODES_PER_BLOCK at *; omega
    · unfold INODES_PER_BLOCK at *; omega

theorem createFrom_found (fs : FileSystem) (n k j : Nat) (hk : 1 ≤ k)
    (hr : INODES_PER_BLOCK * (k - 1 + n) ≤ 2 ^ 31)
    (h1 : INODES_PER_BLOCK * (k - 1) ≤ j) (h2 : j < INODES_PER_BLOCK * (k - 1 + n))
    (h3 : (inodeAt fs j).Valid = 0)
    (h4 : ∀ t, INODES_PER_BLOCK * (k - 1) ≤ t → t < j → (inodeAt fs t).Valid ≠ 0) :
    createFrom fs n k = ((j : Int), createAt fs j) := by
  induction n generalizing k with
  | zero => unfold INODES_PER_BLOCK at *; omega
  | succ n ih =>
    unfold createFrom
    by_cases hj : j < INODES_PER_BLOCK * k
    · have hsome : firstFreeInode (fs.disk_.read k) INODES_PER_BLOCK 0
          = some (j - INODES_PER_BLOCK * (k - 1)) := by
        apply firstFreeInode_some
        · omega
        · unfold INODES_PER_BLOCK at *; omega
        · rw [← inodeAt_in_block fs k j hk h1 hj]; exact h3
        · intro t _ ht
          have h5 := h4 (INODES_PER_BLOCK * (k - 1) + t) (by omega) (by omega)
          rw [inodeAt_in_block fs k _ hk (by omega)
            (by unfold INODES_PER_BLOCK at *; omega)] at h5
          simpa using h5
      have hsum : j - INODES_PER_BLOCK * (k - 1) + INODES_PER_BLOCK * (k - 1) = j := by omega
      have hlt : j < 2 ^ 31 := by unfold INODES_PER_BLOCK at *; omega
      have hne : (j : Int) ≠ -1 := by omega
      have e1 : j / INODES_PER_BLOCK + 1 = k := by unfold INODES_PER_BLOCK at *; omega
      have e2 : j % INODES_PER_BLOCK = j - INODES_PER_BLOCK * (k - 1) := by
        unfold INODES_PER_BLOCK at *; omega
      simp only [hsome, hsum, toInt32_of_lt j hlt, hne, ne_eq, not_false_eq_true, if_true]
      unfold createAt
      rw [e1, e2]
    · have hnone : firstFreeInode (fs.disk_.read k) INODES_PER_BLOCK 0 = none := by
        apply firstFreeInode_none
        intro t _ ht
        have h5 := h4 (INODES_PER_BLOCK * (k - 1) + t) (by omega)
          (by unfold INODES_PER_BLOCK at *; omega)
        rw [inodeAt_in_block fs k _ hk (by omega)
          (by unfold INODES_PER_BLOCK at *; omega)] at h5
        simpa using h5
      simp only [hnone]
      apply ih (k + 1) (by omega)
      · unfold INODES_PER_BLOCK at *; omega
      · unfold INODES_PER_BLOCK at *; omega
      · unfold INODES_PER_BLOCK at *; omega
      · intro t ht1 ht2
        exact h4 t (by unfold INODES_PER_BLOCK at *; omega) ht2

/-! ## Overwriting one inode record -/

@[simp] theorem putInode_fields (fs : FileSystem) (j : Nat) (x : Inode) :
    (putInode fs j x).blocks_num_ = fs.blocks_num_
      ∧ (putInode fs j x).inode_blocks_num_ = fs.inode_blocks_num_
      ∧ (putInode fs j x).inodes_num_ = fs.inodes_num_
      ∧ (putInode fs j x).bitmap_ = fs.bitmap_
      ∧ (putInode fs j x).disk_.Blocks = fs.disk_.Blocks := by
  simp [putInode]

theorem putInode_read_ne (fs : FileSystem) (j b : Nat) (x : Inode)
    (h : b ≠ j / INODES_PER_BLOCK + 1) : (putInode fs j x).disk_.read b = fs.disk_.read b := by
  unfold putInode
  exact Disk.read_write_ne _ _ _ _ h

theorem inodeAt_putInode_ne (fs : FileSystem) (j j' : Nat) (x : Inode) (h : j' ≠ j) :
    inodeAt (putInode fs j x) j' = inodeAt fs j' := by
  unfold inodeAt
  by_cases hb : j' / INODES_PER_BLOCK + 1 = j / INODES_PER_BLOCK + 1
  · unfold putInode
    simp only []
    rw [hb, Disk.read_write]
    split_ifs with hc
    · apply getInode_setInode_ne
      unfold INODES_PER_BLOCK at *
      omega
    · rfl
  · rw [putInode_read_ne fs j _ x hb]

theorem inodeAt_putInode_same (fs : FileSystem) (j : Nat) (x : Inode)
    (hj : j / INODES_PER_BLOCK + 1 < fs.disk_.Blocks) :
    inodeAt (putInode fs j x) j
      = getInode (setInode (fs.disk_.read (j / INODES_PER_BLOCK + 1)) (j % INODES_PER_BLOCK) x)
          (j % INODES_PER_BLOCK) := by
  unfold inodeAt putInode
  simp only []
  rw [Disk.read_write_same _ _ _ hj]

theorem createAt_eq (fs : FileSystem) (j : Nat) : createAt fs j = putInode fs j (make_inode true) :=
  rfl

/-! ## create on a mounted file system -/

theorem create_found (fs : FileSystem) (h : MountedOK fs) (j : Nat) (hj : j < fs.inodes_num_)
    (h0 : (inodeAt fs j).Valid = 0) (hmin : ∀ t, t < j → (inodeAt fs t).Valid ≠ 0) :
    create fs = ((j : Int), createAt fs j) := by
  have h1 := h.inodes_eq
  have h2 := h.int_range
  unfold create
  apply createFrom_found fs _ 1 j (le_refl _)
  · unfold INODES_PER_BLOCK at *; omega
  · omega
  · unfold INODES_PER_BLOCK at *; omega
  · exact h0
  · intro t _ ht; exact hmin t ht

theorem create_full (fs : FileSystem) (h : MountedOK fs)
    (hall : ∀ j, j < fs.inodes_num_ → (inodeAt fs j).Valid ≠ 0) : create fs = (-1, fs) := by
  have h1 := h.inodes_eq
  unfold create
  apply createFrom_none fs _ 1 (le_refl _)
  intro t _ ht
  apply hall
  unfold INODES_PER_BLOCK at *; omega

theorem exists_least_invalid (fs : FileSystem) (n : Nat)
    (h : ∃ j, j < n ∧ (inodeAt fs j).Valid = 0) :
    ∃ j, j < n ∧ (inodeAt fs j).Valid = 0 ∧ ∀ t, t < j → (inodeAt fs t).Valid ≠ 0 := by
  classical
  refine ⟨Nat.find h, (Nat.find_spec h).1, (Nat.find_spec h).2, ?_⟩
  intro t ht hv
  exact Nat.find_min h ht ⟨lt_trans ht (Nat.find_spec h).1, hv⟩

theorem MountedOK_putInode (fs : FileSystem) (h : MountedOK fs) (j : Nat) (x : Inode) :
    MountedOK (putInode fs j x) := by
  obtain ⟨a, b, c⟩ := h
  constructor
  · simpa [putInode] using a
  · simpa [putInode] using b
  · simpa [putInode] using c

theorem table_block_lt (fs : FileSystem) (h : MountedOK fs) (j : Nat) (hj : j < fs.inodes_num_) :
    j / INODES_PER_BLOCK + 1 < fs.disk_.Blocks := by
  have h1 := h.inodes_eq
  have h2 := h.table_on_disk
  unfold INODES_PER_BLOCK at *
  omega

theorem inodeAt_createAt (fs : FileSystem) (h : MountedOK fs) (j : Nat) (hj : j < fs.inodes_num_) :
    (inodeAt (createAt fs j) j).Valid = 1 ∧ (inodeAt (createAt fs j) j).Size = 0
      ∧ (∀ t, t < POINTERS_PER_INODE → (inodeAt (createAt fs j) j).Direct t = 0)
      ∧ (inodeAt (createAt fs j) j).Indirect = 0 := by
  rw [createAt_eq, inodeAt_putInode_same fs j _ (table_block_lt fs h j hj)]
  obtain ⟨a, b, c, d⟩ := getInode_setInode_same (fs.disk_.read (j / INODES_PER_BLOCK + 1))
    (j % INODES_PER_BLOCK) (make_inode true)
  refine ⟨?_, ?_, ?_, ?_⟩
  · rw [a]; rfl
  · rw [b]; rfl
  · intro t ht; rw [c t ht]; rfl
  · rw [d]; rfl

/-! ## remove -/

theorem load_inode_eq (fs : FileSystem) (i : Nat) :
    load_inode fs i = if i ≥ fs.inodes_num_ then none else some (inodeAt fs i) := rfl

theorem save_inode_eq (fs : FileSystem) (x : Inode) (i : Nat) :
    save_inode fs x i = if i ≥ fs.inodes_num_ then none else some (putInode fs i x) := rfl

/-- A `remove` that returns true was given an inumber of the table whose record is valid;
it updates the bitmap and overwrites the record with zeros. -/
theorem remove_true (fs : FileSystem) (i : Nat) (h : (remove fs i).1 = true) :
    i < fs.inodes_num_ ∧ (inodeAt fs i).Valid ≠ 0
      ∧ (remove fs i).2 = putInode
          { fs with bitmap_ := removeBits fs.disk_ (inodeAt fs i) fs.bitmap_ } i
          { Valid := 0, Size := 0, Direct := fun _ => 0, Indirect := 0 } := by
  have hi : ¬ i ≥ fs.inodes_num_ := by
    intro hi
    unfold remove at h
    rw [load_inode_eq] at h
    simp [hi] at h
  have hv : ¬ (inodeAt fs i).Valid = 0 := by
    intro hv
    unfold remove at h
    rw [load_inode_eq] at h
    simp [hi, hv] at h
  refine ⟨by omega, hv, ?_⟩
  unfold remove
  rw [load_inode_eq]
  simp only [hi, hv, if_false, save_inode_eq]

/-- A `remove` that returns false leaves the file system as it was. -/
theorem remove_false (fs : FileSystem) (i : Nat) (h : (remove fs i).1 = false) :
    (remove fs i).2 = fs := by
  unfold remove at h ⊢
  rw [load_inode_eq] at h ⊢
  by_cases hi : i ≥ fs.inodes_num_
  · simp [hi]
  · simp only [hi, if_false] at h ⊢
    by_cases hv : (inodeAt fs i).Valid = 0
    · simp [hv]
    · simp [hv, save_inode_eq, hi] at h

/-! ## C6: create returns the lowest free inumber -/

theorem validBelow_step (fs : FileSystem) (m : Nat) (h : ValidBelow fs m)
    (hm : m < fs.inodes_num_) :
    create fs = ((m : Int), createAt fs m) ∧ ValidBelow (createAt fs m) (m + 1) := by
  obtain ⟨hok, hv⟩ := h
  have hc : create fs = ((m : Int), createAt fs m) := by
    apply create_found fs hok m hm ((hv m hm).mpr (le_refl _))
    intro t ht hz
    have := (hv t (by omega)).mp hz
    omega
  refine ⟨hc, ?_, ?_⟩
  · rw [createAt_eq]; exact MountedOK_putInode fs hok _ _
  · intro j hj
    have hj' : j < fs.inodes_num_ := by simpa [createAt] using hj
    by_cases hjm : j = m
    · subst hjm
      rw [(inodeAt_createAt fs hok j hj').1]
      constructor
      · intro h1; exact absurd h1 (by decide)
      · intro h1; omega
    · rw [createAt_eq, inodeAt_putInode_ne fs m j _ hjm, hv j hj']
      omega

theorem validBelow_full (fs : FileSystem) (m : Nat) (h : ValidBelow fs m)
    (hm : fs.inodes_num_ ≤ m) : create fs = (-1, fs) := by
  obtain ⟨hok, hv⟩ := h
  apply create_full fs hok
  intro j hj hz
  have := (hv j hj).mp hz
  omega

theorem createMany_validBelow (fs : FileSystem) (h : ValidBelow fs 0) (k : Nat) :
    (createMany fs k).inodes_num_ = fs.inodes_num_
      ∧ ValidBelow (createMany fs k) (min k fs.inodes_num_) := by
  induction k with
  | zero => exact ⟨rfl, by simpa using h⟩
  | succ k ih =>
    obtain ⟨hn, hv⟩ := ih
    show ((create (createMany fs k)).2).inodes_num_ = _ ∧ ValidBelow (create (createMany fs k)).2 _
    by_cases hk : k < fs.inodes_num_
    · have hmin : min k fs.inodes_num_ = k := by omega
      rw [hmin] at hv
      obtain ⟨hc, hv'⟩ := validBelow_step _ k hv (by omega)
      rw [hc]
      have hmin' : min (k + 1) fs.inodes_num_ = k + 1 := by omega
      rw [hmin']
      exact ⟨by simpa [createAt] using hn, hv'⟩
    · have hmin : min k fs.inodes_num_ = fs.inodes_num_ := by omega
      have hmin' : min (k + 1) fs.inodes_num_ = fs.inodes_num_ := by omega
      have hc := validBelow_full _ _ hv (by omega)
      rw [hc, hmin']
      rw [hmin] at hv
      exact ⟨hn, hv⟩

theorem fresh_validBelow (fs0 : FileSystem) (d : Disk) (hd : d.mounted = false)
    (h32 : d.size < 2 ^ 32) (hint : d.size / 10 * INODES_PER_BLOCK < 2 ^ 31)
    (hm : (mount fs0 (format d).2).1 = true) :
    ValidBelow (mount fs0 (format d).2).2 0 := by
  obtain ⟨hfs, hmod, hpos⟩ := mount_fresh fs0 d hd h32 hm
  obtain ⟨-, hB, -, -, hz⟩ := format_spec d hd h32
  have hsz : d.size = d.Blocks := rfl
  rw [hsz] at hint
  have hval : ∀ j, (inodeAt (mount fs0 (format d).2).2 j).Valid = 0 := by
    intro j
    rw [hfs]
    unfold inodeAt
    simp only [Disk.mount_read]
    rw [hz _ (Nat.le_add_left 1 _)]
    exact getInode_zeroBlock_Valid _
  refine ⟨⟨?_, ?_, ?_⟩, ?_⟩
  · rw [hfs]
    show INODES_PER_BLOCK * (d.Blocks / 10) % 2 ^ 32 = d.Blocks / 10 * INODES_PER_BLOCK
    rw [Nat.mul_comm, Nat.mod_eq_of_lt (by omega)]
  · rw [hfs]
    show d.Blocks / 10 < (format d).2.mount.Blocks
    rw [Disk.mount_Blocks, hB]; omega
  · rw [hfs]
    show INODES_PER_BLOCK * (d.Blocks / 10) % 2 ^ 32 < 2 ^ 31
    rw [Nat.mul_comm, Nat.mod_eq_of_lt (by omega)]; exact hint
  · intro j _
    simp [hval j]

/-- C6: on a mounted file system `create` returns the smallest inumber below `inodes` whose
record has `Valid == 0` and leaves `Valid = 1`, `Size = 0` and all pointers 0 in that slot;
it returns -1 exactly when no record has `Valid == 0`; after a `remove(0)` that succeeded
the next `create` returns 0; and on a freshly formatted and mounted device the call number
`k + 1` returns `k` while `k < inodes` and -1 afterwards. -/
theorem create_returns_lowest_free_inumber :
    (∀ fs : FileSystem, MountedOK fs →
      (∀ j, j < fs.inodes_num_ → (inodeAt fs j).Valid = 0 →
          (∀ t, t < j → (inodeAt fs t).Valid ≠ 0) →
          (create fs).1 = (j : Int) ∧ (inodeAt (create fs).2 j).Valid = 1
            ∧ (inodeAt (create fs).2 j).Size = 0
            ∧ (∀ t, t < POINTERS_PER_INODE → (inodeAt (create fs).2 j).Direct t = 0)
            ∧ (inodeAt (create fs).2 j).Indirect = 0)
      ∧ ((create fs).1 = -1 ↔ ∀ j, j < fs.inodes_num_ → (inodeAt fs j).Valid ≠ 0)
      ∧ ((remove fs 0).1 = true → (create (remove fs 0).2).1 = 0))
    ∧ (∀ (fs0 : FileSystem) (d : Disk), d.mounted = false → d.size < 2 ^ 32 →
        d.size / 10 * INODES_PER_BLOCK < 2 ^ 31 → (mount fs0 (format d).2).1 = true →
        ∀ k, (create (createMany (mount fs0 (format d).2).2 k)).1
          = if k < (mount fs0 (format d).2).2.inodes_num_ then (k : Int) else -1) := by
  refine ⟨?_, ?_⟩
  · intro fs hok
    refine ⟨?_, ?_, ?_⟩
    · intro j hj h0 hmin
      rw [create_found fs hok j hj h0 hmin]
      exact ⟨rfl, inodeAt_createAt fs hok j hj⟩
    · constructor
      · intro hc j hj hz
        obtain ⟨j', hj', hz', hmin'⟩ := exists_least_invalid fs fs.inodes_num_ ⟨j, hj, hz⟩
        rw [create_found fs hok j' hj' hz' hmin'] at hc
        simp only at hc
        omega
      · intro hall
        rw [create_full fs hok hall]
    · intro hr
      obtain ⟨hi, -, hfs⟩ := remove_true fs 0 hr
      have hok' : MountedOK { fs with bitmap_ := removeBits fs.disk_ (inodeAt fs 0) fs.bitmap_ } :=
        ⟨hok.inodes_eq, hok.table_on_disk, hok.int_range⟩
      have hok2 : MountedOK (remove fs 0).2 := by
        rw [hfs]; exact MountedOK_putInode _ hok' _ _
      have hz : (inodeAt (remove fs 0).2 0).Valid = 0 := by
        rw [hfs, inodeAt_putInode_same _ 0 _ (table_block_lt _ hok' 0 hi)]
        rw [(getInode_setInode_same _ _ _).1]
        rfl
      have hi2 : 0 < (remove fs 0).2.inodes_num_ := by
        rw [hfs]; simpa [putInode] using hi
      rw [create_found _ hok2 0 hi2 hz (fun t ht => absurd ht (Nat.not_lt_zero t))]
      rfl
  · intro fs0 d hd h32 hint hm k
    have hv0 := fresh_validBelow fs0 d hd h32 hint hm
    obtain ⟨hn, hv⟩ := createMany_validBelow _ hv0 k
    by_cases hk : k < (mount fs0 (format d).2).2.inodes_num_
    · rw [if_pos hk]
      have hmin : min k (mount fs0 (format d).2).2.inodes_num_ = k := by omega
      rw [hmin] at hv
      rw [(validBelow_step _ k hv (by omega)).1]
    · rw [if_neg hk]
      rw [validBelow_full _ _ hv (by omega)]

/-- C6 at a concrete input: the 20-block device after `format` and `mount`, where inode 0 is
the lowest free inode, and the fourth `create` in a row, which returns 3. -/
theorem create_returns_lowest_free_inumber_witness :
    MountedOK (freshFS 20) ∧ (create (freshFS 20)).1 = 0
      ∧ (create (createMany (mount newFileSystem (format (blankDisk 20)).2).2 3)).1 = 3 :=
  ⟨⟨by decide!, by decide!, by decide!⟩,
   ((create_returns_lowest_free_inumber.1 (freshFS 20)
      ⟨by decide!, by decide!, by decide!⟩).1 0 (by decide!) (by decide!)
      (fun t ht => absurd ht (Nat.not_lt_zero t))).1,
   (create_returns_lowest_free_inumber.2 newFileSystem (blankDisk 20) (by decide) (by decide)
      (by decide) (by decide!) 3).trans (if_pos (by decide!))⟩

/-! ## The allocator -/

theorem firstFreeBit_some (bm : List Int) (n i r : Nat) (h : firstFreeBit bm n i = some r) :
    i ≤ r ∧ r < i + n ∧ bitGet bm r ≠ 0 := by
  induction n generalizing i with
  | zero => simp [firstFreeBit] at h
  | succ n ih =>
    unfold firstFreeBit at h
    by_cases hb : bitGet bm i ≠ 0
    · rw [if_pos hb] at h
      cases h
      exact ⟨le_refl _, by omega, hb⟩
    · rw [if_neg hb] at h
      obtain ⟨h1, h2, h3⟩ := ih (i + 1) h
      exact ⟨by omega, by omega, h3⟩

/-- The allocator `allocate_free_block` either fails and changes nothing, or returns a block below
`blocks_num_` that was marked free, marks it in use and zero-fills it. -/
theorem allocate_spec (fs : FileSystem) :
    allocate_free_block fs = (none, fs) ∨
      ∃ b, b < fs.blocks_num_ ∧ bitGet fs.bitmap_ b ≠ 0 ∧
        allocate_free_block fs =
          (some b, { fs with bitmap_ := bitSet fs.bitmap_ b 0,
                             disk_ := fs.disk_.write b zeroBlock }) := by
  unfold allocate_free_block
  cases h : firstFreeBit fs.bitmap_ fs.blocks_num_ 0 with
  | none => left; rfl
  | some b =>
    right
    obtain ⟨-, h2, h3⟩ := firstFreeBit_some _ _ _ _ h
    exact ⟨b, by omega, h3, rfl⟩

/-! ## Pointer slots -/

theorem ptrAt_congr (fs fs' : FileSystem) (j s : Nat) (h1 : inodeAt fs' j = inodeAt fs j)
    (h2 : (inodeAt fs j).Indirect ≠ 0 →
      fs'.disk_.read (inodeAt fs j).Indirect = fs.disk_.read (inodeAt fs j).Indirect) :
    ptrAt fs' j s = ptrAt fs j s := by
  unfold ptrAt
  rw [h1]
  by_cases h0 : (inodeAt fs j).Indirect = 0
  · simp only [h0, if_true]
  · rw [h2 h0]

theorem Core.congr {fs0 : FileSystem} {i : Nat} {mp mp' : Nat → Nat} {fs : FileSystem}
    (h : Core fs0 i mp fs) (e : ∀ slot, slot < SLOTS → mp' slot = mp slot) :
    Core fs0 i mp' fs := by
  refine ⟨h.f_blocks, h.f_ib, h.f_inodes, h.f_dblocks, h.f_len, h.bits, h.frame, ?_, ?_, ?_, ?_⟩
  · intro slot hs; rw [e slot hs]; exact h.pNew slot hs
  · intro slot hs; rw [e slot hs]; exact h.pUsed slot hs
  · intro a b ha hb; rw [e a ha, e b hb]; exact h.pInj a b ha hb
  · intro slot hs; rw [e slot hs]; exact h.pKeep slot hs

/-- Allocating a block for a slot that holds 0 keeps the facts of `Core`. -/
theorem Core.alloc {fs0 : FileSystem} {i : Nat} {mp : Nat → Nat} {fs : FileSystem}
    (h : Core fs0 i mp fs) (b t : Nat) (hb : bitGet fs.bitmap_ b ≠ 0) (ht : t < SLOTS)
    (h0 : mp t = 0) :
    Core fs0 i (fun slot => if slot = t then b else mp slot)
      { fs with bitmap_ := bitSet fs.bitmap_ b 0, disk_ := fs.disk_.write b zeroBlock } := by
  have hb0 : bitGet fs0.bitmap_ b ≠ 0 := h.bits b hb
  have hlen : b < fs.bitmap_.length := bitGet_ne_zero_lt _ _ hb
  refine ⟨h.f_blocks, h.f_ib, h.f_inodes, ?_, ?_, ?_, ?_, ?_, ?_, ?_, ?_⟩
  · show (fs.disk_.write b zeroBlock).Blocks = _
    rw [Disk.write_Blocks]; exact h.f_dblocks
  · show (bitSet fs.bitmap_ b 0).length = _
    rw [bitSet_length]; exact h.f_len
  · intro b' hb'
    apply h.bits
    have e : bitGet (bitSet fs.bitmap_ b 0) b' ≠ 0 := hb'
    rw [bitGet_bitSet] at e
    split_ifs at e with hc
    · exact absurd rfl e
    · exact e
  · intro b' hb' hz hp
    show (fs.disk_.write b zeroBlock).read b' = _
    have hne : b' ≠ b := fun e => hb0 (e ▸ hz)
    rw [Disk.read_write_ne _ _ _ _ hne]
    exact h.frame b' hb' hz hp
  · intro slot hs
    by_cases hst : slot = t
    · simp only [hst, if_true]
      right; right; exact hb0
    · simp only [hst, if_false]
      exact h.pNew slot hs
  · intro slot hs hne
    show bitGet (bitSet fs.bitmap_ b 0) _ = 0
    rw [bitGet_bitSet]
    by_cases hst : slot = t
    · simp only [hst, if_true, hlen, and_self]
    · simp only [hst, if_false] at hne ⊢
      split_ifs
      · rfl
      · exact h.pUsed slot hs hne
  · intro a c ha hc hne he
    by_cases hat : a = t
    · by_cases hct : c = t
      · rw [hat, hct]
      · exfalso
        simp only [hat, hct, if_true, if_false] at hne he
        have hu := h.pUsed c hc (by rw [← he]; exact hne)
        rw [← he] at hu
        exact hb hu
    · by_cases hct : c = t
      · exfalso
        simp only [hat, hct, if_true, if_false] at hne he
        have hu := h.pUsed a ha hne
        rw [he] at hu
        exact hb hu
      · simp only [hat, hct, if_false] at hne he
        exact h.pInj a c ha hc hne he
  · intro slot hs hne
    by_cases hst : slot = t
    · exfalso
      rw [hst] at hne
      have := h.pKeep t ht hne
      rw [h0] at this
      exact hne this.symm
    · simp only [hst, if_false]
      exact h.pKeep slot hs hne

/-- Writing data to the block of a data slot keeps the facts of `Core`. -/
theorem Core.copy {fs0 : FileSystem} {i : Nat} {mp : Nat → Nat} {fs : FileSystem}
    (h : Core fs0 i mp fs) (slot : Nat) (hs : slot < SLOTS) (h5 : slot ≠ 5) (buf : Block) :
    Core fs0 i mp { fs with disk_ := fs.disk_.write (mp slot) buf } := by
  refine ⟨h.f_blocks, h.f_ib, h.f_inodes, ?_, h.f_len, h.bits, ?_, h.pNew, h.pUsed, h.pInj,
    h.pKeep⟩
  · show (fs.disk_.write (mp slot) buf).Blocks = _
    rw [Disk.write_Blocks]; exact h.f_dblocks
  · intro b' hb' hz hp
    show (fs.disk_.write (mp slot) buf).read b' = _
    have hne : b' ≠ mp slot := by
      intro e
      rcases h.pNew slot hs with h1 | h1 | h1
      · exact hb' (e.trans h1)
      · exact hp slot hs h5 (h1.symm.trans e.symm)
      · exact h1 (e ▸ hz)
    rw [Disk.read_write_ne _ _ _ _ hne]
    exact h.frame b' hb' hz hp

/-! ## One iteration of the loop of write -/

theorem inumber_in_table (fs0 : FileSystem) (hinv : Inv fs0) (i : Nat) (hi : i < fs0.inodes_num_) :
    i < fs0.inode_blocks_num_ * INODES_PER_BLOCK :=
  lt_of_lt_of_le hi hinv.inodes_le

theorem ptrAt_five (fs : FileSystem) (j : Nat) : ptrAt fs j 5 = (inodeAt fs j).Indirect := by
  simp [ptrAt]

theorem ptrAt_direct (fs : FileSystem) (j t : Nat) (ht : t < 5) :
    ptrAt fs j t = (inodeAt fs j).Direct t := by
  simp [ptrAt, ht]

theorem ptrAt_entry (fs : FileSystem) (j s : Nat) (hs : 6 ≤ s) :
    ptrAt fs j s = if (inodeAt fs j).Indirect = 0 then 0
      else get32 (fs.disk_.read (inodeAt fs j).Indirect) (s - 6) := by
  have h1 : ¬ s < 5 := by omega
  have h2 : ¬ s = 5 := by omega
  simp [ptrAt, h1, h2]

/-- The pointer block of inode `i` is not touched while the loop of `write` runs. -/
theorem Core.indirect_block {fs0 : FileSystem} {i : Nat} {mp : Nat → Nat} {fs : FileSystem}
    (h : Core fs0 i mp fs) (hinv : Inv fs0) (hi : i < fs0.inodes_num_)
    (hne : (inodeAt fs0 i).Indirect ≠ 0) :
    fs.disk_.read (inodeAt fs0 i).Indirect = fs0.disk_.read (inodeAt fs0 i).Indirect := by
  have hit := inumber_in_table fs0 hinv i hi
  have h5 : ptrAt fs0 i 5 ≠ 0 := by rw [ptrAt_five]; exact hne
  apply h.frame _ hne
  · have := (hinv.ptr_ok i 5 hit (by decide) h5).2.2
    rwa [ptrAt_five] at this
  · intro slot hs hs5 he
    have := hinv.ptr_inj i 5 i slot hit hit (by decide) hs h5 (by rw [ptrAt_five]; exact he.symm)
    exact hs5 this.2.symm

theorem writeLoadIndirect_inv (fs0 : FileSystem) (hinv : Inv fs0) (i : Nat)
    (hi : i < fs0.inodes_num_) (s : WState) (h : WInv fs0 i s) :
    match writeLoadIndirect s with
    | none => True
    | some s2 => WInv fs0 i s2 ∧ s2.read_indirect = true := by
  unfold writeLoadIndirect
  by_cases hI : s.inode.Indirect = 0
  · -- the pointer block has to be allocated
    simp only [hI, if_true]
    rcases allocate_spec s.fs with ha | ⟨b, hb1, hb2, ha⟩
    · rw [ha]; trivial
    · rw [ha]
      simp only []
      have hbB : b < s.fs.disk_.Blocks := by
        rw [h.core.f_dblocks, ← hinv.blocks_eq, ← h.core.f_blocks]; exact hb1
      have hcore := h.core.alloc b 5 hb2 (by decide) (by simp [memPtr, hI])
      by_cases hr : s.read_indirect = true
      · simp only [hr, if_true]
        refine ⟨⟨?_, ?_, ?_, ?_⟩, trivial⟩
        · apply hcore.congr
          intro slot hs
          by_cases h5 : slot = 5
          · simp [memPtr, h5]
          · by_cases h4 : slot < 5
            · simp [memPtr, h4, h5]
            · simp [memPtr, h4, h5, hr]
        · intro hc; cases hc
        · exact h.noModI
        · intro hc; cases hc
      · have hr' : s.read_indirect = false := by simpa using hr
        have hI0 : (inodeAt fs0 i).Indirect = 0 := by rw [← (h.noRead hr').2]; exact hI
        simp only [hr', Bool.false_eq_true, if_false]
        refine ⟨⟨?_, ?_, ?_, ?_⟩, trivial⟩
        · apply hcore.congr
          intro slot hs
          by_cases h5 : slot = 5
          · simp [memPtr, h5]
          · by_cases h4 : slot < 5
            · simp [memPtr, h4, h5]
            · have h6 : 6 ≤ slot := by omega
              simp only [memPtr, h4, h5, if_false, if_true, hr', Bool.false_eq_true]
              rw [Disk.read_write_same _ _ _ hbB, get32_zeroBlock, ptrAt_entry _ _ _ h6, hI0]
              simp
        · intro hc; cases hc
        · exact h.noModI
        · intro hc; cases hc
  · -- the inode already has a pointer block
    simp only [hI, if_false]
    by_cases hr : s.read_indirect = true
    · simp only [hr, if_true]
      exact ⟨h, trivial⟩
    · have hr' : s.read_indirect = false := by simpa using hr
      have hIe : s.inode.Indirect = (inodeAt fs0 i).Indirect := (h.noRead hr').2
      have hI0 : (inodeAt fs0 i).Indirect ≠ 0 := by rw [← hIe]; exact hI
      have hblk := h.core.indirect_block hinv hi hI0
      simp only [hr', Bool.false_eq_true, if_false]
      have hmp : ∀ slot, slot < SLOTS →
          memPtr fs0 i { s with ptr_block := s.fs.disk_.read s.inode.Indirect,
                                read_indirect := true } slot = memPtr fs0 i s slot := by
        intro slot hs
        by_cases h5 : slot = 5
        · simp [memPtr, h5]
        · by_cases h4 : slot < 5
          · simp [memPtr, h4, h5]
          · have h6 : 6 ≤ slot := by omega
            simp only [memPtr, h4, h5, if_false, if_true, hr', Bool.false_eq_true]
            rw [hIe, hblk, ptrAt_entry _ _ _ h6]
            simp [hI0]
      refine ⟨⟨?_, ?_, ?_, ?_⟩, trivial⟩
      · exact h.core.congr hmp
      · intro hc; cases hc
      · exact h.noModI
      · intro hm slot h5 hs
        rw [hmp slot hs]
        exact h.noModP hm slot h5 hs

theorem writeSelect_inv (fs0 : FileSystem) (hinv : Inv fs0) (i : Nat)
    (hi : i < fs0.inodes_num_) (block_i : Nat)
    (hbi : block_i < POINTERS_PER_INODE + POINTERS_PER_BLOCK) (s : WState) (h : WInv fs0 i s) :
    match writeSelect block_i s with
    | Step.brk s1 => WInv fs0 i s1
    | Step.ret s1 => WInv fs0 i s1
    | Step.go cur s1 =>
      WInv fs0 i s1 ∧ ∃ slot, slot < SLOTS ∧ slot ≠ 5 ∧ cur = memPtr fs0 i s1 slot := by
  unfold POINTERS_PER_INODE POINTERS_PER_BLOCK at hbi
  unfold writeSelect
  by_cases hd : block_i < POINTERS_PER_INODE
  · have hd5 : block_i < 5 := hd
    have hS : block_i < SLOTS := by unfold SLOTS; omega
    simp only [hd, if_true]
    by_cases hz : s.inode.Direct block_i = 0
    · simp only [hz, if_true]
      rcases allocate_spec s.fs with ha | ⟨b, hb1, hb2, ha⟩
      · rw [ha]; exact h
      · rw [ha]
        simp only []
        have hcore := h.core.alloc b block_i hb2 hS (by simp [memPtr, hd5, hz])
        refine ⟨⟨?_, ?_, ?_, ?_⟩, block_i, hS, by omega, by simp [memPtr, hd5]⟩
        · apply hcore.congr
          intro slot hs
          by_cases h4 : slot < 5
          · simp [memPtr, h4]
          · have hne : ¬ slot = block_i := by omega
            by_cases h5 : slot = 5
            · subst h5; simp [memPtr, hne]
            · simp [memPtr, h4, h5, hne]
        · exact h.noRead
        · intro hc; cases hc
        · intro hm slot h5 hs
          have h4 : ¬ slot < 5 := by omega
          have := h.noModP hm slot h5 hs
          by_cases h5' : slot = 5
          · simpa [memPtr, h5'] using this
          · simpa [memPtr, h4, h5'] using this
    · simp only [hz, if_false]
      exact ⟨h, block_i, hS, by omega, by simp [memPtr, hd5]⟩
  · have hd5 : ¬ block_i < 5 := hd
    simp only [hd, if_false]
    have hload := writeLoadIndirect_inv fs0 hinv i hi s h
    cases hl : writeLoadIndirect s with
    | none => simp only []; exact h
    | some s2 =>
      rw [hl] at hload
      obtain ⟨h2, hr2⟩ := hload
      simp only []
      have hslot : block_i + 1 < SLOTS := by unfold SLOTS; omega
      have h6 : ¬ block_i + 1 < 5 := by omega
      have h6' : ¬ block_i + 1 = 5 := by omega
      have hsub : block_i + 1 - 6 = block_i - POINTERS_PER_INODE := by
        unfold POINTERS_PER_INODE; omega
      have hmem : memPtr fs0 i s2 (block_i + 1)
          = get32 s2.ptr_block (block_i - POINTERS_PER_INODE) := by
        simp only [memPtr, h6, h6', if_false, hr2, if_true, hsub]
      by_cases hz : get32 s2.ptr_block (block_i - POINTERS_PER_INODE) = 0
      · simp only [hz, if_true]
        rcases allocate_spec s2.fs with ha | ⟨b, hb1, hb2, ha⟩
        · rw [ha]; exact h2
        · rw [ha]
          simp only []
          have hb32 : b % 2 ^ 32 = b := by
            apply Nat.mod_eq_of_lt
            have := hinv.blocks_u32
            rw [h2.core.f_blocks] at hb1
            omega
          have hcore := h2.core.alloc b (block_i + 1) hb2 hslot (by rw [hmem]; exact hz)
          have hmp : ∀ slot, slot < SLOTS →
              memPtr fs0 i { s2 with
                fs := { s2.fs with bitmap_ := bitSet s2.fs.bitmap_ b 0,
                                   disk_ := s2.fs.disk_.write b zeroBlock }
                ptr_block := set32 s2.ptr_block (block_i - POINTERS_PER_INODE) b
                modify_ptr_block := true } slot
              = if slot = block_i + 1 then b else memPtr fs0 i s2 slot := by
            intro slot hs
            by_cases h4 : slot < 5
            · have hne : ¬ slot = block_i + 1 := by omega
              simp [memPtr, h4, hne]
            · by_cases h5 : slot = 5
              · have hne : ¬ slot = block_i + 1 := by omega
                subst h5
                simp [memPtr, hne]
              · simp only [memPtr, h4, h5, if_false, hr2, if_true]
                by_cases he : slot = block_i + 1
                · simp only [he, if_true, hsub]
                  rw [get32_set32_same, hb32]
                · simp only [he, if_false]
                  apply get32_set32_ne
                  unfold POINTERS_PER_INODE
                  omega
          refine ⟨⟨?_, ?_, ?_, ?_⟩, block_i + 1, hslot, h6', ?_⟩
          · exact hcore.congr hmp
          · intro hc
            have : s2.read_indirect = false := hc
            rw [hr2] at this
            cases this
          · exact h2.noModI
          · intro hc; cases hc
          · rw [hmp _ hslot]; simp
      · simp only [hz, if_false]
        exact ⟨h2, block_i + 1, hslot, h6', hmem.symm⟩

theorem writeCopy_inv (fs0 : FileSystem) (i : Nat) (data : Buffer) (length offset : Nat)
    (s : WState) (h : WInv fs0 i s) (slot : Nat) (hs : slot < SLOTS) (h5 : slot ≠ 5) :
    WInv fs0 i (writeCopy data length offset (memPtr fs0 i s slot) s) := by
  unfold writeCopy
  simp only []
  exact ⟨h.core.copy slot hs h5 _, h.noRead, h.noModI, h.noModP⟩

theorem writeLoop_inv (fs0 : FileSystem) (hinv : Inv fs0) (i : Nat) (hi : i < fs0.inodes_num_)
    (data : Buffer) (length offset : Nat) (n block_i : Nat)
    (hn : block_i + n ≤ POINTERS_PER_INODE + POINTERS_PER_BLOCK) (s : WState)
    (h : WInv fs0 i s) :
    WInv fs0 i (writeLoop data length offset n block_i s).2 := by
  induction n generalizing block_i s with
  | zero => exact h
  | succ n ih =>
    unfold writeLoop
    by_cases hlen : s.idx < length
    · simp only [hlen, if_true]
      have hsel := writeSelect_inv fs0 hinv i hi block_i (by omega) s h
      cases hw : writeSelect block_i s with
      | brk s1 => rw [hw] at hsel; exact hsel
      | ret s1 => rw [hw] at hsel; exact hsel
      | go cur s1 =>
        rw [hw] at hsel
        obtain ⟨h1, slot, hs, h5, hcur⟩ := hsel
        simp only []
        apply ih (block_i + 1) (by omega)
        rw [hcur]
        exact writeCopy_inv fs0 i data length offset s1 h1 slot hs h5
    · simp only [hlen, if_false]
      exact h

/-! ## From the loop invariant to the effect of write -/

/-- A block that was free in a consistent state lies after the inode table, unless it is
block 0. -/
theorem Inv.free_range {fs0 : FileSystem} (hinv : Inv fs0) (b : Nat)
    (hb : bitGet fs0.bitmap_ b ≠ 0) (hne : b ≠ 0) :
    fs0.inode_blocks_num_ < b ∧ b < fs0.blocks_num_ := by
  constructor
  · by_contra hc
    exact hb (hinv.table_used b (by omega) (by omega))
  · rw [← hinv.bitmap_len]; exact bitGet_ne_zero_lt _ _ hb

theorem Inv.other_block {fs0 : FileSystem} (hinv : Inv fs0) (i j : Nat)
    (hi : i < fs0.inode_blocks_num_ * INODES_PER_BLOCK)
    (hj : j < fs0.inode_blocks_num_ * INODES_PER_BLOCK) (hji : j ≠ i) (s : Nat)
    (hs : s < SLOTS) (hne : ptrAt fs0 j s ≠ 0) :
    ptrAt fs0 j s ≠ 0 ∧ bitGet fs0.bitmap_ (ptrAt fs0 j s) = 0
      ∧ (∀ slot, slot < SLOTS → ptrAt fs0 i slot ≠ ptrAt fs0 j s)
      ∧ fs0.inode_blocks_num_ < ptrAt fs0 j s := by
  obtain ⟨h1, -, h3⟩ := hinv.ptr_ok j s hj hs hne
  refine ⟨hne, h3, ?_, h1⟩
  intro slot hslot he
  exact hji (hinv.ptr_inj j s i slot hj hi hs hslot hne he.symm).1

theorem Effect.ptrAt_other {fs0 fs : FileSystem} {i : Nat} (h : Effect fs0 i fs) (hinv : Inv fs0)
    (hi : i < fs0.inode_blocks_num_ * INODES_PER_BLOCK) (j : Nat)
    (hj : j < fs0.inode_blocks_num_ * INODES_PER_BLOCK) (hji : j ≠ i) (s : Nat) :
    ptrAt fs j s = ptrAt fs0 j s := by
  apply ptrAt_congr _ _ _ _ (h.others j hj hji)
  intro hne
  have h5 : ptrAt fs0 j 5 ≠ 0 := by rw [ptrAt_five]; exact hne
  obtain ⟨a, b, c, d⟩ := hinv.other_block i j hi hj hji 5 (by decide) h5
  rw [ptrAt_five] at a b c d
  exact h.frame _ a b c d

/-- The effect of a `write` keeps the consistency of pointers and bitmap. -/
theorem Effect.keeps_inv {fs0 fs : FileSystem} {i : Nat} (h : Effect fs0 i fs) (hinv : Inv fs0)
    (hi : i < fs0.inode_blocks_num_ * INODES_PER_BLOCK) : Inv fs := by
  obtain ⟨mp, hval, hnew, hused, hinj⟩ := h.self
  have hbit0 : ∀ b, bitGet fs0.bitmap_ b = 0 → bitGet fs.bitmap_ b = 0 := by
    intro b hb
    by_contra hc
    exact h.bits b hc hb
  have hself : ∀ slot, slot < SLOTS → ptrAt fs i slot ≠ 0 →
      ptrAt fs i slot = mp slot ∧ mp slot ≠ 0 := by
    intro slot hs hne
    rcases hval slot hs with h0 | h1
    · exact absurd h0 hne
    · exact ⟨h1, by rw [← h1]; exact hne⟩
  have hmprange : ∀ slot, slot < SLOTS → mp slot ≠ 0 →
      fs0.inode_blocks_num_ < mp slot ∧ mp slot < fs0.blocks_num_ := by
    intro slot hs hne
    rcases hnew slot hs with h0 | h1 | h2
    · exact absurd h0 hne
    · have := hinv.ptr_ok i slot hi hs (by rw [← h1]; exact hne)
      rw [← h1] at this
      exact ⟨this.1, this.2.1⟩
    · exact hinv.free_range _ h2 hne
  have hcross : ∀ j s slot, j < fs0.inode_blocks_num_ * INODES_PER_BLOCK → j ≠ i → s < SLOTS →
      slot < SLOTS → ptrAt fs0 j s ≠ 0 → ptrAt fs0 j s = mp slot → False := by
    intro j s slot hj hji hs hslot hne he
    rcases hnew slot hslot with h0 | h1 | h2
    · exact hne (he.trans h0)
    · exact hji (hinv.ptr_inj j s i slot hj hi hs hslot hne (he.trans h1)).1
    · rw [← he] at h2
      exact h2 (hinv.ptr_ok j s hj hs hne).2.2
  refine ⟨?_, ?_, ?_, ?_, ?_, ?_, ?_, ?_⟩
  · rw [h.f_blocks, h.f_dblocks]; exact hinv.blocks_eq
  · rw [h.f_blocks]; exact hinv.blocks_u32
  · rw [h.f_inodes, h.f_ib]; exact hinv.inodes_le
  · rw [h.f_ib, h.f_blocks]; exact hinv.table_lt
  · rw [h.f_len, h.f_blocks]; exact hinv.bitmap_len
  · intro k hk1 hk2
    rw [h.f_ib] at hk2
    exact hbit0 k (hinv.table_used k hk1 hk2)
  · intro j s hj hs hne
    rw [h.f_ib] at hj ⊢
    rw [h.f_blocks]
    by_cases hji : j = i
    · subst hji
      obtain ⟨e, hm⟩ := hself s hs hne
      rw [e]
      exact ⟨(hmprange s hs hm).1, (hmprange s hs hm).2, hused s hs hm⟩
    · rw [h.ptrAt_other hinv hi j hj hji s] at hne ⊢
      obtain ⟨a, b, c⟩ := hinv.ptr_ok j s hj hs hne
      exact ⟨a, b, hbit0 _ c⟩
  · intro j s j' s' hj hj' hs hs' hne he
    rw [h.f_ib] at hj hj'
    by_cases hji : j = i
    · by_cases hji' : j' = i
      · subst hji; subst hji'
        obtain ⟨e, hm⟩ := hself s hs hne
        have hne' : ptrAt fs j' s' ≠ 0 := by rw [← he]; exact hne
        obtain ⟨e', -⟩ := hself s' hs' hne'
        rw [e, e'] at he
        exact ⟨rfl, hinj s s' hs hs' hm he⟩
      · exfalso
        subst hji
        obtain ⟨e, hm⟩ := hself s hs hne
        rw [h.ptrAt_other hinv hi j' hj' hji' s'] at he
        rw [e] at he
        exact hcross j' s' s hj' hji' hs' hs (by rw [← he]; exact hm) he.symm
    · by_cases hji' : j' = i
      · exfalso
        subst hji'
        rw [h.ptrAt_other hinv hi j hj hji s] at hne he
        have hne' : ptrAt fs j' s' ≠ 0 := by rw [← he]; exact hne
        obtain ⟨e', -⟩ := hself s' hs' hne'
        rw [e'] at he
        exact hcross j s s' hj hji hs hs' hne he
      · rw [h.ptrAt_other hinv hi j hj hji s] at hne he
        rw [h.ptrAt_other hinv hi j' hj' hji' s'] at he
        exact hinv.ptr_inj j s j' s' hj hj' hs hs' hne he

/-! ## The end of write -/

theorem Core.range {fs0 : FileSystem} {i : Nat} {mp : Nat → Nat} {fs : FileSystem}
    (h : Core fs0 i mp fs) (hinv : Inv fs0) (hi : i < fs0.inodes_num_) (slot : Nat)
    (hs : slot < SLOTS) (hne : mp slot ≠ 0) :
    fs0.inode_blocks_num_ < mp slot ∧ mp slot < fs0.blocks_num_ := by
  rcases h.pNew slot hs with h0 | h1 | h2
  · exact absurd h0 hne
  · have := hinv.ptr_ok i slot (inumber_in_table fs0 hinv i hi) hs (by rw [← h1]; exact hne)
    rw [← h1] at this
    exact ⟨this.1, this.2.1⟩
  · exact hinv.free_range _ h2 hne

theorem Core.table {fs0 : FileSystem} {i : Nat} {mp : Nat → Nat} {fs : FileSystem}
    (h : Core fs0 i mp fs) (hinv : Inv fs0) (hi : i < fs0.inodes_num_) (k : Nat) (hk1 : 1 ≤ k)
    (hk2 : k ≤ fs0.inode_blocks_num_) : fs.disk_.read k = fs0.disk_.read k := by
  apply h.frame k (by omega) (hinv.table_used k hk1 hk2)
  intro slot hs _ he
  have := (hinv.ptr_ok i slot (inumber_in_table fs0 hinv i hi) hs (by rw [he]; omega)).1
  omega

theorem table_block_le (fs0 : FileSystem) (j : Nat)
    (hj : j < fs0.inode_blocks_num_ * INODES_PER_BLOCK) :
    1 ≤ j / INODES_PER_BLOCK + 1 ∧ j / INODES_PER_BLOCK + 1 ≤ fs0.inode_blocks_num_ := by
  unfold INODES_PER_BLOCK at *
  omega

theorem Core.inodeAt_eq {fs0 : FileSystem} {i : Nat} {mp : Nat → Nat} {fs : FileSystem}
    (h : Core fs0 i mp fs) (hinv : Inv fs0) (hi : i < fs0.inodes_num_) (j : Nat)
    (hj : j < fs0.inode_blocks_num_ * INODES_PER_BLOCK) : inodeAt fs j = inodeAt fs0 j := by
  unfold inodeAt
  rw [h.table hinv hi _ (table_block_le fs0 j hj).1 (table_block_le fs0 j hj).2]

theorem Core.ptrAt_self {fs0 : FileSystem} {i : Nat} {mp : Nat → Nat} {fs : FileSystem}
    (h : Core fs0 i mp fs) (hinv : Inv fs0) (hi : i < fs0.inodes_num_) (slot : Nat) :
    ptrAt fs i slot = ptrAt fs0 i slot := by
  apply ptrAt_congr _ _ _ _ (h.inodeAt_eq hinv hi i (inumber_in_table fs0 hinv i hi))
  intro hne
  exact h.indirect_block hinv hi hne

/-- The state of the device and bitmap reached inside the loop of `write` is an admissible
effect of `write` (this is the state in which `return idx` leaves). -/
theorem WInv.effect_loop {fs0 : FileSystem} {i : Nat} {s : WState} (h : WInv fs0 i s)
    (hinv : Inv fs0) (hi : i < fs0.inodes_num_) : Effect fs0 i s.fs := by
  have hc := h.core
  refine ⟨hc.f_blocks, hc.f_ib, hc.f_inodes, hc.f_dblocks, hc.f_len, hc.bits, ?_, ?_, ?_⟩
  · intro j hj _
    exact hc.inodeAt_eq hinv hi j hj
  · intro b hb hz hp _
    exact hc.frame b hb hz (fun slot hs _ => hp slot hs)
  · refine ⟨memPtr fs0 i s, ?_, hc.pNew, hc.pUsed, hc.pInj⟩
    intro slot hs
    rw [hc.ptrAt_self hinv hi slot]
    by_cases hz : ptrAt fs0 i slot = 0
    · left; exact hz
    · right; exact (hc.pKeep slot hs hz).symm

/-- A final state `F` that differs from the loop state by a saved inode record (when `sv`)
and a pointer block written back (when `modify_ptr_block`) is an admissible effect. -/
theorem WInv.effect_final {fs0 : FileSystem} {i : Nat} {s : WState} (h : WInv fs0 i s)
    (hinv : Inv fs0) (hi : i < fs0.inodes_num_) (F : FileSystem) (sv : Bool) (x : Inode)
    (hxD : ∀ t, t < 5 → x.Direct t = s.inode.Direct t) (hxI : x.Indirect = s.inode.Indirect)
    (g1 : F.blocks_num_ = s.fs.blocks_num_) (g2 : F.inode_blocks_num_ = s.fs.inode_blocks_num_)
    (g3 : F.inodes_num_ = s.fs.inodes_num_) (g4 : F.bitmap_ = s.fs.bitmap_)
    (g5 : F.disk_.Blocks = s.fs.disk_.Blocks)
    (I2 : ∀ b, b ≠ i / INODES_PER_BLOCK + 1 → b ≠ s.inode.Indirect →
      F.disk_.read b = s.fs.disk_.read b)
    (I3 : s.inode.Indirect ≠ i / INODES_PER_BLOCK + 1 →
      F.disk_.read (i / INODES_PER_BLOCK + 1) =
        if sv then setInode (s.fs.disk_.read (i / INODES_PER_BLOCK + 1)) (i % INODES_PER_BLOCK) x
        else s.fs.disk_.read (i / INODES_PER_BLOCK + 1))
    (I4 : s.modify_ptr_block = true → s.inode.Indirect < s.fs.disk_.Blocks →
      F.disk_.read s.inode.Indirect = s.ptr_block)
    (I5 : s.modify_ptr_block = false → s.inode.Indirect ≠ i / INODES_PER_BLOCK + 1 →
      F.disk_.read s.inode.Indirect = s.fs.disk_.read s.inode.Indirect) :
    Effect fs0 i F := by
  have hc := h.core
  have hit := inumber_in_table fs0 hinv i hi
  have htb := table_block_le fs0 i hit
  have hP5 : memPtr fs0 i s 5 = s.inode.Indirect := by simp [memPtr]
  have hPr : s.inode.Indirect ≠ 0 →
      fs0.inode_blocks_num_ < s.inode.Indirect ∧ s.inode.Indirect < fs0.blocks_num_ := by
    intro hne
    have := hc.range hinv hi 5 (by decide) (by rw [hP5]; exact hne)
    rwa [hP5] at this
  have hPtb : ∀ k, 1 ≤ k → k ≤ fs0.inode_blocks_num_ → s.inode.Indirect ≠ k := by
    intro k hk1 hk2 he
    have := hPr (by omega)
    omega
  have hPB : s.inode.Indirect ≠ 0 → s.inode.Indirect < s.fs.disk_.Blocks := by
    intro hne
    rw [hc.f_dblocks, ← hinv.blocks_eq]
    exact (hPr hne).2
  -- the record of inode i in the final state
  have hrec : inodeAt F i = inodeAt fs0 i ∨
      ((∀ t, t < 5 → (inodeAt F i).Direct t = s.inode.Direct t)
        ∧ (inodeAt F i).Indirect = s.inode.Indirect) := by
    unfold inodeAt
    rw [I3 (hPtb _ htb.1 htb.2)]
    cases sv with
    | false =>
      left
      simp only [Bool.false_eq_true, if_false]
      rw [hc.table hinv hi _ htb.1 htb.2]
    | true =>
      right
      simp only [if_true]
      obtain ⟨-, -, c, d⟩ := getInode_setInode_same
        (s.fs.disk_.read (i / INODES_PER_BLOCK + 1)) (i % INODES_PER_BLOCK) x
      constructor
      · intro t ht
        rw [c t ht, hxD t ht]
        apply Nat.mod_eq_of_lt
        by_cases hz : s.inode.Direct t = 0
        · rw [hz]; decide
        · have hm : memPtr fs0 i s t = s.inode.Direct t := by simp [memPtr, ht]
          have := hc.range hinv hi t (by unfold SLOTS; omega) (by rw [hm]; exact hz)
          rw [hm] at this
          have := hinv.blocks_u32
          omega
      · rw [d, hxI]
        apply Nat.mod_eq_of_lt
        by_cases hz : s.inode.Indirect = 0
        · rw [hz]; decide
        · have := hPr hz
          have := hinv.blocks_u32
          omega
  refine ⟨g1.trans hc.f_blocks, g2.trans hc.f_ib, g3.trans hc.f_inodes, g5.trans hc.f_dblocks,
    ?_, ?_, ?_, ?_, ?_⟩
  · rw [g4]; exact hc.f_len
  · rw [g4]; exact hc.bits
  · -- the records of the other inodes
    intro j hj hji
    have hjb := table_block_le fs0 j hj
    unfold inodeAt
    by_cases hb : j / INODES_PER_BLOCK + 1 = i / INODES_PER_BLOCK + 1
    · rw [hb, I3 (hPtb _ htb.1 htb.2)]
      have hmod : j % INODES_PER_BLOCK ≠ i % INODES_PER_BLOCK := by
        unfold INODES_PER_BLOCK at *; omega
      cases sv with
      | false =>
        simp only [Bool.false_eq_true, if_false]
        rw [hc.table hinv hi _ htb.1 htb.2]
      | true =>
        simp only [if_true]
        rw [getInode_setInode_ne _ _ _ _ hmod, hc.table hinv hi _ htb.1 htb.2]
    · rw [I2 _ hb (fun e => hPtb _ hjb.1 hjb.2 e.symm), hc.table hinv hi _ hjb.1 hjb.2]
  · -- blocks in use that do not belong to inode i
    intro b hb hz hp hib
    have hne1 : b ≠ i / INODES_PER_BLOCK + 1 := by omega
    have hne2 : b ≠ s.inode.Indirect := by
      intro e
      rcases hc.pNew 5 (by decide) with h0 | h1 | h2
      · rw [hP5] at h0; exact hb (e.trans h0)
      · rw [hP5] at h1; exact hp 5 (by decide) (h1.symm.trans e.symm)
      · rw [hP5, ← e] at h2; exact h2 hz
    rw [I2 b hne1 hne2]
    exact hc.frame b hb hz (fun slot hs _ => hp slot hs)
  · -- the pointer slots of inode i
    refine ⟨memPtr fs0 i s, ?_, hc.pNew, ?_, hc.pInj⟩
    · intro slot hs
      by_cases hz : ptrAt F i slot = 0
      · left; exact hz
      right
      have hlow : ∀ sl, sl ≤ 5 → ptrAt F i sl ≠ 0 → ptrAt F i sl = memPtr fs0 i s sl := by
        intro sl hsl hne
        rcases hrec with hr | ⟨hrD, hrI⟩
        · have e : ptrAt F i sl = ptrAt fs0 i sl := by
            by_cases h4 : sl < 5
            · rw [ptrAt_direct _ _ _ h4, ptrAt_direct _ _ _ h4, hr]
            · have h5 : sl = 5 := by omega
              rw [h5, ptrAt_five, ptrAt_five, hr]
          rw [e] at hne ⊢
          exact (hc.pKeep sl (by unfold SLOTS; omega) hne).symm
        · by_cases h4 : sl < 5
          · rw [ptrAt_direct _ _ _ h4, hrD sl h4]
            simp [memPtr, h4]
          · have h5 : sl = 5 := by omega
            rw [h5, ptrAt_five, hrI, hP5]
      by_cases h6 : slot ≤ 5
      · exact hlow slot h6 hz
      · have h6' : 6 ≤ slot := by omega
        have hI : (inodeAt F i).Indirect ≠ 0 := by
          intro e
          rw [ptrAt_entry _ _ _ h6', e] at hz
          exact hz (if_pos rfl)
        have h5ne : ptrAt F i 5 ≠ 0 := by rw [ptrAt_five]; exact hI
        have hIe : (inodeAt F i).Indirect = s.inode.Indirect := by
          have := hlow 5 (le_refl _) h5ne
          rwa [ptrAt_five, hP5] at this
        have hPne : s.inode.Indirect ≠ 0 := by rw [← hIe]; exact hI
        rw [ptrAt_entry _ _ _ h6', if_neg hI, hIe]
        have hs4 : ¬ slot < 5 := by omega
        have hs5 : ¬ slot = 5 := by omega
        cases hm : s.modify_ptr_block with
        | true =>
          rw [I4 hm (hPB hPne)]
          have hr : s.read_indirect = true := by
            by_contra hc'
            have := (h.noRead (by simpa using hc')).1
            rw [hm] at this
            cases this
          simp [memPtr, hs4, hs5, hr]
        | false =>
          rw [I5 hm (hPtb _ htb.1 htb.2)]
          have hk := h.noModP hm
          have h5' := hk 5 (le_refl _) (by decide)
          rw [hP5, ptrAt_five] at h5'
          have hI0 : (inodeAt fs0 i).Indirect ≠ 0 := by rw [← h5']; exact hPne
          rw [hk slot (by omega) hs, ptrAt_entry _ _ _ h6', if_neg hI0, h5',
            hc.indirect_block hinv hi hI0]
    · intro slot hs hne
      rw [g4]
      exact hc.pUsed slot hs hne

theorem writeFinish_eq (i offset : Nat) (s : WState) (hi : i < s.fs.inodes_num_) :
    ∃ (sv : Bool) (x : Inode), x.Direct = s.inode.Direct ∧ x.Indirect = s.inode.Indirect ∧
      writeFinish i offset s =
        if s.modify_ptr_block then
          { (if sv then putInode s.fs i x else s.fs) with
            disk_ := ((if sv then putInode s.fs i x else s.fs).disk_.write
              s.inode.Indirect s.ptr_block) }
        else (if sv then putInode s.fs i x else s.fs) := by
  have hi' : ¬ i ≥ s.fs.inodes_num_ := by omega
  refine ⟨decide (s.idx + offset > s.inode.Size) || s.modify_inode,
    if decide (s.idx + offset > s.inode.Size) = true
      then { s.inode with Size := s.idx + offset } else s.inode, ?_, ?_, ?_⟩
  · split_ifs <;> rfl
  · split_ifs <;> rfl
  · unfold writeFinish
    simp only [save_inode_eq, hi', if_false]
    have e : (if decide (s.idx + offset > s.inode.Size) = true
        then ({ s.inode with Size := s.idx + offset } : Inode) else s.inode).Indirect
        = s.inode.Indirect := by
      split_ifs <;> rfl
    rw [e]

theorem writeFinish_effect (fs0 : FileSystem) (hinv : Inv fs0) (i : Nat)
    (hi : i < fs0.inodes_num_) (offset : Nat) (s : WState) (h : WInv fs0 i s) :
    Effect fs0 i (writeFinish i offset s) := by
  have hc := h.core
  have hi' : i < s.fs.inodes_num_ := by rw [hc.f_inodes]; exact hi
  have htb := table_block_le fs0 i (inumber_in_table fs0 hinv i hi)
  have htbB : i / INODES_PER_BLOCK + 1 < s.fs.disk_.Blocks := by
    rw [hc.f_dblocks, ← hinv.blocks_eq]
    have := hinv.table_lt
    omega
  obtain ⟨sv, x, hxD, hxI, hF⟩ := writeFinish_eq i offset s hi'
  rw [hF]
  apply h.effect_final hinv hi _ sv x (fun t _ => by rw [hxD]) hxI
  · cases s.modify_ptr_block <;> cases sv <;> simp [putInode]
  · cases s.modify_ptr_block <;> cases sv <;> simp [putInode]
  · cases s.modify_ptr_block <;> cases sv <;> simp [putInode]
  · cases s.modify_ptr_block <;> cases sv <;> simp [putInode]
  · cases s.modify_ptr_block <;> cases sv <;> simp [putInode]
  · intro b hb1 hb2
    cases s.modify_ptr_block <;> cases sv <;>
      simp [putInode, Disk.read_write_ne _ _ _ _ hb1, Disk.read_write_ne _ _ _ _ hb2]
  · intro hP
    have hP' : i / INODES_PER_BLOCK + 1 ≠ s.inode.Indirect := fun e => hP e.symm
    cases s.modify_ptr_block <;> cases sv <;>
      simp [putInode, Disk.read_write_ne _ _ _ _ hP', Disk.read_write_same _ _ _ htbB]
  · intro hm hPB
    rw [hm]
    cases sv <;> simp [putInode, Disk.read_write_same, hPB]
  · intro hm hP
    rw [hm]
    cases sv <;> simp [putInode, Disk.read_write_ne _ _ _ _ hP]

/-! ## write as a whole -/

theorem WInv.init (fs0 : FileSystem) (hinv : Inv fs0) (i : Nat) (hi : i < fs0.inodes_num_) :
    WInv fs0 i (writeInit fs0 (inodeAt fs0 i)) := by
  have hit := inumber_in_table fs0 hinv i hi
  have hmp : ∀ slot, memPtr fs0 i (writeInit fs0 (inodeAt fs0 i)) slot = ptrAt fs0 i slot := by
    intro slot
    unfold memPtr ptrAt writeInit
    by_cases h4 : slot < 5
    · simp [h4]
    · by_cases h5 : slot = 5
      · simp [h5]
      · simp [h4, h5]
  refine ⟨⟨rfl, rfl, rfl, rfl, rfl, fun _ hb => hb, fun _ _ _ _ => rfl, ?_, ?_, ?_, ?_⟩, ?_, ?_, ?_⟩
  · intro slot _; right; left; exact hmp slot
  · intro slot hs hne
    rw [hmp] at hne ⊢
    exact (hinv.ptr_ok i slot hit hs hne).2.2
  · intro a b ha hb hne he
    rw [hmp] at hne he
    rw [hmp] at he
    exact (hinv.ptr_inj i a i b hit hit ha hb hne he).2
  · intro slot _ _; exact hmp slot
  · intro _; exact ⟨rfl, rfl⟩
  · intro _ t _; rfl
  · intro _ slot _ _; exact hmp slot

/-- A call of `write` either leaves the file system as it was or has an admissible effect
on an inode of the table. -/
theorem write_effect (fs0 : FileSystem) (hinv : Inv fs0) (i : Nat) (data : Buffer)
    (length offset : Nat) :
    (write fs0 i data length offset).2 = fs0
      ∨ (i < fs0.inodes_num_ ∧ Effect fs0 i (write fs0 i data length offset).2) := by
  unfold write
  rw [load_inode_eq]
  by_cases hi : i ≥ fs0.inodes_num_
  · left; simp [hi]
  · have hi' : i < fs0.inodes_num_ := by omega
    simp only [hi, if_false]
    by_cases ho : offset > (inodeAt fs0 i).Size
    · left; simp [ho]
    · simp only [ho, if_false]
      right
      refine ⟨hi', ?_⟩
      have h0 := WInv.init fs0 hinv i hi'
      have hloop : ∀ len, WInv fs0 i (writeLoop data len offset
          (POINTERS_PER_INODE + POINTERS_PER_BLOCK - offset / BLOCK_SIZE) (offset / BLOCK_SIZE)
          (writeInit fs0 (inodeAt fs0 i))).2 := by
        intro len
        by_cases hb : offset / BLOCK_SIZE ≤ POINTERS_PER_INODE + POINTERS_PER_BLOCK
        · exact writeLoop_inv fs0 hinv i hi' data len offset _ _ (by omega) _ h0
        · have e : POINTERS_PER_INODE + POINTERS_PER_BLOCK - offset / BLOCK_SIZE = 0 := by omega
          rw [e]
          exact h0
      generalize hlen : min length ((BLOCK_SIZE * (POINTERS_PER_INODE + POINTERS_PER_BLOCK)
        + 2 ^ 64 - offset) % 2 ^ 64) = len
      have hl := hloop len
      cases hres : writeLoop data len offset
          (POINTERS_PER_INODE + POINTERS_PER_BLOCK - offset / BLOCK_SIZE) (offset / BLOCK_SIZE)
          (writeInit fs0 (inodeAt fs0 i)) with
      | mk early s =>
        rw [hres] at hl
        cases early with
        | true => exact hl.effect_loop hinv hi'
        | false => exact writeFinish_effect fs0 hinv i hi' offset s hl

/-- The function `write` keeps the consistency of pointers and bitmap. -/
theorem write_inv (fs0 : FileSystem) (hinv : Inv fs0) (i : Nat) (data : Buffer)
    (length offset : Nat) : Inv (write fs0 i data length offset).2 := by
  rcases write_effect fs0 hinv i data length offset with h | ⟨hi, h⟩
  · rw [h]; exact hinv
  · exact h.keeps_inv hinv (inumber_in_table fs0 hinv i hi)

/-! ## create and remove keep the invariant -/

theorem ptrAt_putInode_zero (fs : FileSystem) (j s : Nat) (x : Inode)
    (hj : j / INODES_PER_BLOCK + 1 < fs.disk_.Blocks)
    (hxD : ∀ t, t < 5 → x.Direct t = 0) (hxI : x.Indirect = 0) :
    ptrAt (putInode fs j x) j s = 0 := by
  obtain ⟨-, -, c, d⟩ := getInode_setInode_same (fs.disk_.read (j / INODES_PER_BLOCK + 1))
    (j % INODES_PER_BLOCK) x
  have hD : ∀ t, t < 5 → (inodeAt (putInode fs j x) j).Direct t = 0 := by
    intro t ht
    rw [inodeAt_putInode_same fs j x hj, c t ht, hxD t ht]
    rfl
  have hI : (inodeAt (putInode fs j x) j).Indirect = 0 := by
    rw [inodeAt_putInode_same fs j x hj, d, hxI]
    rfl
  by_cases h4 : s < 5
  · rw [ptrAt_direct _ _ _ h4]; exact hD s h4
  · by_cases h5 : s = 5
    · rw [h5, ptrAt_five]; exact hI
    · rw [ptrAt_entry _ _ _ (by omega), hI]
      rfl

/-- Overwriting the record of inode `i` by one without pointers, and changing bitmap
entries only at blocks that `i` pointed to, keeps the invariant. -/
theorem Inv.release {fs : FileSystem} (hinv : Inv fs) (i : Nat)
    (hi : i < fs.inode_blocks_num_ * INODES_PER_BLOCK) (bm : List Int)
    (hlen : bm.length = fs.bitmap_.length)
    (hbm : ∀ b, (∀ s, s < SLOTS → ptrAt fs i s ≠ b) → bitGet bm b = bitGet fs.bitmap_ b)
    (x : Inode) (hxD : ∀ t, t < 5 → x.Direct t = 0) (hxI : x.Indirect = 0) :
    Inv (putInode { fs with bitmap_ := bm } i x) := by
  have htb := table_block_le fs i hi
  have htbB : i / INODES_PER_BLOCK + 1 < fs.disk_.Blocks := by
    rw [← hinv.blocks_eq]
    have := hinv.table_lt
    omega
  have hself : ∀ s, ptrAt (putInode { fs with bitmap_ := bm } i x) i s = 0 := fun s =>
    ptrAt_putInode_zero { fs with bitmap_ := bm } i s x htbB hxD hxI
  have hother : ∀ j s, j < fs.inode_blocks_num_ * INODES_PER_BLOCK → j ≠ i →
      ptrAt (putInode { fs with bitmap_ := bm } i x) j s = ptrAt fs j s := by
    intro j s hj hji
    have e1 : inodeAt (putInode { fs with bitmap_ := bm } i x) j = inodeAt fs j :=
      inodeAt_putInode_ne { fs with bitmap_ := bm } i j x hji
    apply ptrAt_congr _ _ _ _ e1
    intro hne
    have h5 : ptrAt fs j 5 ≠ 0 := by rw [ptrAt_five]; exact hne
    have := (hinv.ptr_ok j 5 hj (by decide) h5).1
    rw [ptrAt_five] at this
    exact putInode_read_ne { fs with bitmap_ := bm } i _ x (by omega)
  refine ⟨hinv.blocks_eq.trans (by simp [putInode]), hinv.blocks_u32, hinv.inodes_le,
    hinv.table_lt, ?_, ?_, ?_, ?_⟩
  · show bm.length = fs.blocks_num_
    rw [hlen]; exact hinv.bitmap_len
  · intro k hk1 hk2
    show bitGet bm k = 0
    rw [hbm k]
    · exact hinv.table_used k hk1 hk2
    · intro s hs he
      have hk2' : k ≤ fs.inode_blocks_num_ := hk2
      have := (hinv.ptr_ok i s hi hs (by rw [he]; omega)).1
      omega
  · intro j s hj hs hne
    have hj' : j < fs.inode_blocks_num_ * INODES_PER_BLOCK := hj
    by_cases hji : j = i
    · subst hji; exact absurd (hself s) hne
    · rw [hother j s hj' hji] at hne ⊢
      obtain ⟨a, b, c⟩ := hinv.ptr_ok j s hj' hs hne
      refine ⟨a, b, ?_⟩
      show bitGet bm _ = 0
      rw [hbm _ ?_]
      · exact c
      · intro s' hs' he
        exact hji (hinv.ptr_inj j s i s' hj' hi hs hs' hne he.symm).1
  · intro j s j' s' hj hj' hs hs' hne he
    have hj1 : j < fs.inode_blocks_num_ * INODES_PER_BLOCK := hj
    have hj1' : j' < fs.inode_blocks_num_ * INODES_PER_BLOCK := hj'
    by_cases hji : j = i
    · subst hji; exact absurd (hself s) hne
    · by_cases hji' : j' = i
      · subst hji'
        rw [hself s'] at he
        exact absurd he hne
      · rw [hother j s hj1 hji] at hne he
        rw [hother j' s' hj1' hji'] at he
        exact hinv.ptr_inj j s j' s' hj1 hj1' hs hs' hne he

theorem firstFreeInode_lt (block : Block) (n i r : Nat) (h : firstFreeInode block n i = some r) :
    r < i + n := by
  induction n generalizing i with
  | zero => simp [firstFreeInode] at h
  | succ n ih =>
    unfold firstFreeInode at h
    split_ifs at h with hv
    · cases h; omega
    · have := ih (i + 1) h
      omega

theorem createFrom_inv (n k : Nat) (fs : FileSystem) (hinv : Inv fs) (hk : 1 ≤ k)
    (hn : k - 1 + n ≤ fs.inode_blocks_num_) : Inv (createFrom fs n k).2 := by
  induction n generalizing k fs with
  | zero => exact hinv
  | succ n ih =>
    unfold createFrom
    cases hf : firstFreeInode (fs.disk_.read k) INODES_PER_BLOCK 0 with
    | none =>
      simp only [hf]
      have h1 : k + 1 - 1 + n ≤ fs.inode_blocks_num_ := by omega
      exact ih (k + 1) fs hinv (by omega) h1
    | some r =>
      simp only [hf]
      have hr := firstFreeInode_lt _ _ _ _ hf
      have hj : INODES_PER_BLOCK * (k - 1) + r < fs.inode_blocks_num_ * INODES_PER_BLOCK := by
        unfold INODES_PER_BLOCK at *; omega
      have e1 : (INODES_PER_BLOCK * (k - 1) + r) / INODES_PER_BLOCK + 1 = k := by
        unfold INODES_PER_BLOCK at *; omega
      have e2 : (INODES_PER_BLOCK * (k - 1) + r) % INODES_PER_BLOCK = r := by
        unfold INODES_PER_BLOCK at *; omega
      have hinv1 := hinv.release _ hj fs.bitmap_ rfl (fun _ _ => rfl) (make_inode true)
        (fun _ _ => rfl) rfl
      unfold putInode at hinv1
      simp only [e1, e2] at hinv1
      split_ifs
      · exact hinv1
      · exact ih (k + 1) _ hinv1 (by omega) (by show k + 1 - 1 + n ≤ fs.inode_blocks_num_; omega)

/-- The function `create` keeps the consistency of pointers and bitmap. -/
theorem create_inv (fs : FileSystem) (hinv : Inv fs) : Inv (create fs).2 :=
  createFrom_inv _ 1 fs hinv (le_refl _) (by omega)

theorem removeBits_length (disk : Disk) (inode : Inode) (bm : List Int) :
    (removeBits disk inode bm).length = bm.length := by
  unfold removeBits
  simp only []
  split_ifs
  · rw [foldl_bitSet_length, bitSet_length, foldl_bitSet_length]
  · rw [foldl_bitSet_length]

/-- The function `remove` changes bitmap entries only at the pointer slots of the inode (block 0
included when a slot holds 0). -/
theorem removeBits_frame (fs : FileSystem) (i : Nat) (bm : List Int) (b : Nat)
    (h : ∀ s, s < SLOTS → ptrAt fs i s ≠ b) :
    bitGet (removeBits fs.disk_ (inodeAt fs i) bm) b = bitGet bm b := by
  have hd : ¬ ∃ t, t ∈ List.range POINTERS_PER_INODE ∧ (inodeAt fs i).Direct t = b := by
    rintro ⟨t, ht, he⟩
    rw [List.mem_range] at ht
    have ht5 : t < 5 := ht
    exact h t (by unfold SLOTS; omega) (by rw [ptrAt_direct _ _ _ ht5]; exact he)
  have e1 : bitGet ((List.range POINTERS_PER_INODE).foldl
      (fun bm t => bitSet bm ((inodeAt fs i).Direct t) 1) bm) b = bitGet bm b := by
    rw [bitGet_foldl_bitSet]
    simp only [hd, false_and, if_false]
  unfold removeBits
  simp only []
  by_cases hI : (inodeAt fs i).Indirect = 0
  · simp only [hI, ne_eq, not_true_eq_false, if_false]
    exact e1
  · simp only [hI, ne_eq, not_false_eq_true, if_true]
    have he : ¬ ∃ u, u ∈ List.range POINTERS_PER_BLOCK
        ∧ get32 (fs.disk_.read (inodeAt fs i).Indirect) u = b := by
      rintro ⟨u, hu, he⟩
      rw [List.mem_range] at hu
      have hu' : u < 1024 := hu
      apply h (6 + u) (by unfold SLOTS; omega)
      rw [ptrAt_entry _ _ _ (by omega), if_neg hI]
      have e6 : 6 + u - 6 = u := by omega
      rw [e6]; exact he
    rw [bitGet_foldl_bitSet]
    simp only [he, false_and, if_false]
    rw [bitGet_bitSet]
    have h5 : ¬ b = (inodeAt fs i).Indirect := by
      intro e
      exact h 5 (by decide) (by rw [ptrAt_five]; exact e.symm)
    simp only [h5, false_and, if_false]
    exact e1

/-- The function `remove` keeps the consistency of pointers and bitmap. -/
theorem remove_inv (fs : FileSystem) (hinv : Inv fs) (i : Nat) : Inv (remove fs i).2 := by
  cases hr : (remove fs i).1 with
  | false => rw [remove_false fs i hr]; exact hinv
  | true =>
    obtain ⟨hi, -, hfs⟩ := remove_true fs i hr
    rw [hfs]
    exact hinv.release i (lt_of_lt_of_le hi hinv.inodes_le) _
      (removeBits_length _ _ _) (fun b hb => removeBits_frame fs i fs.bitmap_ b hb) _
      (fun _ _ => rfl) rfl

/-! ## Reachable states are consistent -/

theorem fresh_inv (fs0 : FileSystem) (d : Disk) (hd : d.mounted = false) (h32 : d.size < 2 ^ 32)
    (hm : (mount fs0 (format d).2).1 = true) : Inv (mount fs0 (format d).2).2 := by
  obtain ⟨hfs, hmod, hpos⟩ := mount_fresh fs0 d hd h32 hm
  obtain ⟨-, hB, -, -, hz⟩ := format_spec d hd h32
  have h32' : d.Blocks < 2 ^ 32 := h32
  have hptr : ∀ j s, ptrAt (mount fs0 (format d).2).2 j s = 0 := by
    intro j s
    have hino : inodeAt (mount fs0 (format d).2).2 j = getInode zeroBlock (j % INODES_PER_BLOCK) := by
      rw [hfs]
      unfold inodeAt
      simp only [Disk.mount_read]
      rw [hz _ (Nat.le_add_left 1 _)]
    have hD : ∀ t, (getInode zeroBlock (j % INODES_PER_BLOCK)).Direct t = 0 := by
      intro t
      unfold getInode
      simp only [get32_zeroBlock, ite_self]
    have hI : (getInode zeroBlock (j % INODES_PER_BLOCK)).Indirect = 0 := get32_zeroBlock _
    unfold ptrAt
    rw [hino, hD, hI]
    simp
  have hlen : (mount fs0 (format d).2).2.bitmap_.length = d.Blocks := by
    rw [hfs]
    show ((List.range' 1 (d.Blocks / 10)).foldl (fun bm i => bitSet bm i 0)
      (bitSet (resize fs0.bitmap_ d.Blocks 1) 0 0)).length = d.Blocks
    rw [foldl_bitSet_length (List.range' 1 (d.Blocks / 10)) (fun i => i) 0, bitSet_length,
      resize_length]
  have hbl : (mount fs0 (format d).2).2.blocks_num_ = d.Blocks := by rw [hfs]
  refine ⟨?_, ?_, ?_, ?_, hlen.trans hbl.symm, ?_, ?_, ?_⟩
  · rw [hfs]; show d.Blocks = (format d).2.mount.Blocks
    rw [Disk.mount_Blocks, hB]
  · rw [hfs]; exact h32'
  · rw [hfs]
    show INODES_PER_BLOCK * (d.Blocks / 10) % 2 ^ 32 ≤ d.Blocks / 10 * INODES_PER_BLOCK
    rw [Nat.mul_comm]
    exact Nat.mod_le _ _
  · rw [hfs]; show d.Blocks / 10 < d.Blocks
    omega
  · intro k hk1 hk2
    rw [hfs] at hk2 ⊢
    have hk2' : k ≤ d.Blocks / 10 := hk2
    show bitGet ((List.range' 1 (d.Blocks / 10)).foldl (fun bm i => bitSet bm i 0)
      (bitSet (resize fs0.bitmap_ d.Blocks 1) 0 0)) k = 0
    rw [bitGet_foldl_bitSet (List.range' 1 (d.Blocks / 10)) (fun i => i) 0]
    have hmem : ∃ i, i ∈ List.range' 1 (d.Blocks / 10) ∧ i = k :=
      ⟨k, by rw [List.mem_range'_1]; omega, rfl⟩
    have hl : k < (bitSet (resize fs0.bitmap_ d.Blocks 1) 0 0).length := by
      rw [bitSet_length, resize_length]; omega
    simp only [hmem, hl, and_self, if_true]
  · intro j s _ _ hne
    exact absurd (hptr j s) hne
  · intro j s j' s' _ _ _ _ hne
    exact absurd (hptr j s) hne

/-- Every state reached from a freshly formatted and mounted device by `create`, `remove`
and `write` satisfies the invariant. -/
theorem Reachable.consistent {fs : FileSystem} (h : Reachable fs) : Inv fs := by
  induction h with
  | fresh fs0 d hd h31 hm =>
    exact fresh_inv fs0 d hd (lt_of_le_of_lt h31 (by decide)) hm
  | create fs _ ih => exact create_inv fs ih
  | remove fs i _ ih => exact remove_inv fs ih i
  | write fs i data length offset _ ih => exact write_inv fs ih i data length offset

/-! ## C3 and C10 -/

/-- C3: in every state reached from a freshly formatted and mounted device by `create`,
`remove` and `write` calls, every nonzero direct pointer, indirect pointer and
pointer-block entry of a valid inode is a block index in `[inode_blocks + 1, blocks)`, and
no block index occurs in two pointer slots of valid inodes (of two inodes or of one). -/
theorem no_double_use_of_blocks (fs : FileSystem) (h : Reachable fs) :
    (∀ j s, j < fs.inodes_num_ → (inodeAt fs j).Valid ≠ 0 → s < SLOTS → ptrAt fs j s ≠ 0 →
        fs.inode_blocks_num_ + 1 ≤ ptrAt fs j s ∧ ptrAt fs j s < fs.blocks_num_)
      ∧ (∀ j s j' s', j < fs.inodes_num_ → j' < fs.inodes_num_ →
          (inodeAt fs j).Valid ≠ 0 → (inodeAt fs j').Valid ≠ 0 → s < SLOTS → s' < SLOTS →
          ptrAt fs j s ≠ 0 → ptrAt fs j s = ptrAt fs j' s' → j = j' ∧ s = s') := by
  have hinv := h.consistent
  constructor
  · intro j s hj _ hs hne
    obtain ⟨a, b, -⟩ := hinv.ptr_ok j s (lt_of_lt_of_le hj hinv.inodes_le) hs hne
    exact ⟨a, b⟩
  · intro j s j' s' hj hj' _ _ hs hs' hne he
    exact hinv.ptr_inj j s j' s' (lt_of_lt_of_le hj hinv.inodes_le)
      (lt_of_lt_of_le hj' hinv.inodes_le) hs hs' hne he

/-- The 20-block scenario state `twentyBytes` is reachable. -/
theorem reachable_twentyBytes : Reachable twentyBytes :=
  Reachable.write _ 0 (fill 65) 20 0
    (Reachable.create _
      (Reachable.fresh newFileSystem (blankDisk 20) (by decide) (by decide) (by decide!)))

/-- C3 at a concrete input: after `create` and a write of 20 bytes on a 20-block device, the
first direct pointer of inode 0 is nonzero and lies in `[inode_blocks + 1, blocks)`. -/
theorem no_double_use_of_blocks_witness :
    twentyBytes.inode_blocks_num_ + 1 ≤ ptrAt twentyBytes 0 0
      ∧ ptrAt twentyBytes 0 0 < twentyBytes.blocks_num_ :=
  (no_double_use_of_blocks twentyBytes reachable_twentyBytes).1 0 0
    (by decide!) (by decide!) (by decide) (by decide!)

/-- The loop of `read` never uses up its iteration allowance: with at least
`length - idx` iterations allowed, more allowance gives the same result. -/
theorem readLoop_fuel (fs : FileSystem) (inode : Inode) (ptr_block : Block)
    (length offset : Nat) (n m i idx : Nat) (data : Buffer) (h : length - idx ≤ n) :
    readLoop fs inode ptr_block length offset (n + m) i idx data
      = readLoop fs inode ptr_block length offset n i idx data := by
  induction n generalizing i idx data with
  | zero =>
    have hlen : ¬ idx < length := by omega
    cases m with
    | zero => rfl
    | succ m =>
      rw [Nat.zero_add]
      unfold readLoop
      simp only [hlen, if_false]
  | succ n ih =>
    rw [Nat.add_right_comm]
    unfold readLoop
    by_cases hlen : idx < length
    · simp only [hlen, if_true]
      generalize (if i < POINTERS_PER_INODE then inode.Direct i
        else get32 ptr_block (i - POINTERS_PER_INODE)) = cur
      by_cases h0 : cur = 0
      · simp only [h0, if_true]
      · simp only [h0, if_false]
        apply ih
        have hpos : 0 < BLOCK_SIZE - offset % BLOCK_SIZE := by
          have := Nat.mod_lt offset (by decide : 0 < BLOCK_SIZE)
          omega
        by_cases hz : idx = 0
        · simp only [hz, if_true]
          have hmin : 0 < min (BLOCK_SIZE - offset % BLOCK_SIZE) length := by
            rw [Nat.lt_min]; exact ⟨hpos, by omega⟩
          omega
        · simp only [hz, if_false]
          have hmin : 0 < min (BLOCK_SIZE - 0) (length - idx) := by
            rw [Nat.lt_min]; exact ⟨by decide, by omega⟩
          omega
    · simp only [hlen, if_false]

/-- The two error exits that `read` has: an inumber outside the inode table and an offset
past the size of the inode both give -1 and leave the caller's buffer as it was. -/
theorem read_error_exits (fs : FileSystem) (uninit : Block) (inumber : Nat) (data : Buffer)
    (length offset : Nat)
    (h : inumber ≥ fs.inodes_num_ ∨ offset > (inodeAt fs inumber).Size) :
    read fs uninit inumber data length offset = (-1, data) := by
  unfold read
  rw [load_inode_eq]
  by_cases hi : inumber ≥ fs.inodes_num_
  · simp [hi]
  · rcases h with h | h
    · exact absurd h hi
    · simp [hi, h]

/-! ## mount establishes `MountedOK` -/

/-- What a `mount` that returns true has checked, and the cached values it leaves. -/
theorem mount_true (fs0 : FileSystem) (d : Disk) (hm : (mount fs0 d).1 = true) :
    d.mounted = false ∧ get32 (d.read 0) 0 = MAGIC_NUMBER
      ∧ get32 (d.read 0) 3 = get32 (d.read 0) 2 * INODES_PER_BLOCK % 2 ^ 32
      ∧ (d.size % 10 = 0 → get32 (d.read 0) 2 = d.size / 10)
      ∧ (d.size % 10 ≠ 0 → get32 (d.read 0) 2 = d.size / 10 + 1)
      ∧ (mount fs0 d).2.disk_ = d.mount
      ∧ (mount fs0 d).2.blocks_num_ = get32 (d.read 0) 1
      ∧ (mount fs0 d).2.inode_blocks_num_ = get32 (d.read 0) 2
      ∧ (mount fs0 d).2.inodes_num_ = get32 (d.read 0) 3 := by
  have hM : d.mounted = false := by
    by_contra hc
    unfold mount at hm
    simp only [hc, if_true] at hm
    exact Bool.noConfusion hm
  unfold mount at hm ⊢
  simp only [hM, Bool.false_eq_true, if_false] at hm ⊢
  by_cases c1 : get32 (d.read 0) 0 ≠ MAGIC_NUMBER
      ∨ get32 (d.read 0) 3 ≠ get32 (d.read 0) 2 * INODES_PER_BLOCK % 2 ^ 32
  · rw [if_pos c1] at hm
    exact Bool.noConfusion hm
  · rw [if_neg c1] at hm ⊢
    by_cases c2 : (if d.size % 10 = 0 then get32 (d.read 0) 2 ≠ d.size / 10
        else get32 (d.read 0) 2 ≠ d.size / 10 + 1)
    · rw [if_pos c2] at hm
      exact Bool.noConfusion hm
    · rw [if_neg c2]
      have h0 : get32 (d.read 0) 0 = MAGIC_NUMBER := by
        by_contra hc; exact c1 (Or.inl hc)
      have h3 : get32 (d.read 0) 3 = get32 (d.read 0) 2 * INODES_PER_BLOCK % 2 ^ 32 := by
        by_contra hc; exact c1 (Or.inr hc)
      refine ⟨trivial, h0, h3, ?_, ?_, rfl, rfl, rfl, rfl⟩
      · intro hmod
        rw [if_pos hmod] at c2
        by_contra hc; exact c2 hc
      · intro hmod
        rw [if_neg hmod] at c2
        by_contra hc; exact c2 hc

/-- A successful `mount` of a device of at least two blocks, whose inode count fits an
`int`, yields a state that satisfies `MountedOK`, whatever the device holds. -/
theorem mount_MountedOK (fs0 : FileSystem) (d : Disk) (hm : (mount fs0 d).1 = true)
    (h2 : 2 ≤ d.size) (hint : (d.size + 9) / 10 * INODES_PER_BLOCK < 2 ^ 31) :
    MountedOK (mount fs0 d).2 := by
  obtain ⟨-, -, h3, h2a, h2b, e1, -, e3, e4⟩ := mount_true fs0 d hm
  unfold INODES_PER_BLOCK at hint h3
  have hsz : d.size = d.Blocks := rfl
  have hib : get32 (d.read 0) 2 ≤ (d.size + 9) / 10 := by
    by_cases hmod : d.size % 10 = 0
    · rw [h2a hmod]; omega
    · rw [h2b hmod]; omega
  have hin : get32 (d.read 0) 3 = get32 (d.read 0) 2 * 128 := by
    rw [h3]
    apply Nat.mod_eq_of_lt
    omega
  refine ⟨?_, ?_, ?_⟩
  · rw [e4, e3]; exact hin
  · rw [e3, e1, Disk.mount_Blocks]
    omega
  · rw [e4, hin]
    omega

/-! ## Evaluations of the code at concrete inputs -/

set_option maxRecDepth 100000

/-- C1: on a formatted and mounted 20-block device, inode 0 is valid with size 20; writing
the 5 bytes "hello" at offset 20 returns 5, but the read of 5 bytes at offset 20 that
follows returns -1, because `read` starts at logical block `offset / disk->size()` = 1.
This holds whatever the caller's buffer and the uninitialised `ptr_block` contain. -/
theorem read_after_write_returns_error (uninit : Block) (out : Buffer) :
    (create (freshFS 20)).1 = 0 ∧ stat twentyBytes 0 = 20
      ∧ (write twentyBytes 0 hello 5 20).1 = 5
      ∧ (read (write twentyBytes 0 hello 5 20).2 uninit 0 out 5 20).1 = -1 :=
  ⟨by decide!, by decide!, by decide!, by rfl⟩

/-- C2: after `format`, `mount`, `create` and `remove(0)` on a 20-block device the call
`remove` has returned true and bitmap entry 0, the superblock, is marked free (1). -/
theorem bitmap_superblock_freed_by_remove :
    (create (freshFS 20)).1 = 0 ∧ (remove (create (freshFS 20)).2 0).1 = true
      ∧ bitGet (remove (create (freshFS 20)).2 0).2.bitmap_ 0 = 1 := by
  decide!

/-- C4: `format` of an unmounted 25-block device returns true and stores
`inode_blocks = 2` and `inodes = 256` in block 0, whereas ceil(25 / 10) = 3. -/
theorem format_25_blocks_rounds_down :
    (format (blankDisk 25)).1 = true
      ∧ get32 ((format (blankDisk 25)).2.read 0) 2 = 2
      ∧ get32 ((format (blankDisk 25)).2.read 0) 3 = 256
      ∧ (25 + 9) / 10 = 3 := by
  decide!

/-- C5: on an unmounted 25-block device `format` returns true and the `mount` that follows
returns false and leaves the device unmounted. -/
theorem mount_rejects_formatted_25_blocks :
    (format (blankDisk 25)).1 = true
      ∧ (mount newFileSystem (format (blankDisk 25)).2).1 = false
      ∧ (format (blankDisk 25)).2.mounted = false := by
  decide!

/-- C7: with five free blocks left on a 10-block device, a write of 24576 bytes at offset 0
to the empty inode 1 returns 20480 (the pointer block cannot be allocated), and `stat(1)`
is still 0 afterwards. -/
theorem stat_unchanged_after_cut_short_write :
    stat fiveBlocksLeft 1 = 0 ∧ freeCount fiveBlocksLeft = 5
      ∧ (write fiveBlocksLeft 1 (fill 66) 24576 0).1 = 20480
      ∧ stat (write fiveBlocksLeft 1 (fill 66) 24576 0).2 1 = 0 := by
  decide!

/-- C8: on a formatted and mounted 20-block device inode 0 was never created (`stat(0)` is
-1, its `Valid` is 0), yet `read(0, buf, 5, 0)` returns 0, not -1, whatever the caller's
buffer and the uninitialised `ptr_block` contain. -/
theorem read_of_invalid_inode_returns_zero (uninit : Block) (out : Buffer) :
    stat (freshFS 20) 0 = -1
      ∧ (load_inode (freshFS 20) 0).map Inode.Valid = some 0
      ∧ (read (freshFS 20) uninit 0 out 5 0).1 = 0 :=
  ⟨by decide!, by decide!, by rfl⟩

/-- C9: on a formatted and mounted 20-block device (2 inode blocks), after `create`, a write
of 20481 bytes that returns 20481 and sets `stat` to 20481, and a `remove` that returns
true, 18 bitmap entries are free, one more than `blocks - 1 - inode_blocks` = 17. -/
theorem remove_frees_one_block_too_many :
    (write (create (freshFS 20)).2 0 (fill 65) 20481 0).1 = 20481
      ∧ stat oneIndirectFile 0 = 20481
      ∧ (remove oneIndirectFile 0).1 = true
      ∧ freeCount (remove oneIndirectFile 0).2 = 18
      ∧ oneIndirectFile.blocks_num_ - 1 - oneIndirectFile.inode_blocks_num_ = 17 := by
  decide!

/-! ## C17: the allocator is first-fit -/

theorem firstFreeBit_first (bm : List Int) (n i r : Nat) (h1 : i ≤ r) (h2 : r < i + n)
    (h3 : bitGet bm r ≠ 0) (h4 : ∀ t, i ≤ t → t < r → bitGet bm t = 0) :
    firstFreeBit bm n i = some r := by
  induction n generalizing i with
  | zero => omega
  | succ n ih =>
    unfold firstFreeBit
    by_cases hir : i = r
    · subst hir; rw [if_pos h3]
    · have hz : ¬ bitGet bm i ≠ 0 := by
        intro hc; exact hc (h4 i (le_refl _) (by omega))
      rw [if_neg hz]
      exact ih (i + 1) (by omega) (by omega) (fun t ht1 ht2 => h4 t (by omega) ht2)

theorem firstFreeBit_none (bm : List Int) (n i : Nat)
    (h : ∀ t, i ≤ t → t < i + n → bitGet bm t = 0) : firstFreeBit bm n i = none := by
  induction n generalizing i with
  | zero => rfl
  | succ n ih =>
    unfold firstFreeBit
    have hz : ¬ bitGet bm i ≠ 0 := by
      intro hc; exact hc (h i (le_refl _) (by omega))
    rw [if_neg hz]
    exact ih (i + 1) (fun t ht1 ht2 => h t (by omega) (by omega))

/-- The result of `allocate_free_block` when `b` is the first free entry. -/
theorem allocate_first (fs : FileSystem) (b : Nat) (hb : b < fs.blocks_num_)
    (hfree : bitGet fs.bitmap_ b ≠ 0) (hmin : ∀ t, t < b → bitGet fs.bitmap_ t = 0) :
    allocate_free_block fs =
      (some b, { fs with bitmap_ := bitSet fs.bitmap_ b 0,
                         disk_ := fs.disk_.write b zeroBlock }) := by
  unfold allocate_free_block
  rw [firstFreeBit_first fs.bitmap_ fs.blocks_num_ 0 b (Nat.zero_le _) (by omega) hfree
    (fun t _ ht => hmin t ht)]

theorem allocate_none (fs : FileSystem)
    (h : ∀ b, b < fs.blocks_num_ → bitGet fs.bitmap_ b = 0) :
    allocate_free_block fs = (none, fs) := by
  unfold allocate_free_block
  rw [firstFreeBit_none fs.bitmap_ fs.blocks_num_ 0 (fun t _ ht => h t (by omega))]

/-- C17: when the cached block count does not exceed the device and is at most 2^31 (so
that every index below it fits the `int block` in which the code keeps the index found),
`allocate_free_block` returns the smallest index `b < blocks` whose bitmap entry is free,
marks that entry in use and leaves every other entry as it was, leaves block `b` all zero on
the device and every other block unchanged, and the `int` it returns is `b` itself; it
returns -1 (`none`) exactly when no entry below `blocks` is free, and then changes
nothing. -/
theorem allocate_is_first_fit (fs : FileSystem) (hdev : fs.blocks_num_ ≤ fs.disk_.Blocks)
    (h31 : fs.blocks_num_ ≤ 2 ^ 31) :
    (∀ b, b < fs.blocks_num_ → bitGet fs.bitmap_ b ≠ 0 →
        (∀ t, t < b → bitGet fs.bitmap_ t = 0) →
        (allocate_free_block fs).1 = some b
          ∧ bitGet (allocate_free_block fs).2.bitmap_ b = 0
          ∧ (allocate_free_block fs).2.bitmap_.length = fs.bitmap_.length
          ∧ (∀ t, t ≠ b →
              bitGet (allocate_free_block fs).2.bitmap_ t = bitGet fs.bitmap_ t)
          ∧ (∀ k, k < BLOCK_SIZE → (allocate_free_block fs).2.disk_.read b k = 0)
          ∧ (∀ t, t ≠ b → (allocate_free_block fs).2.disk_.read t = fs.disk_.read t)
          ∧ toInt32 b = (b : Int))
      ∧ ((allocate_free_block fs).1 = none ↔
          ∀ b, b < fs.blocks_num_ → bitGet fs.bitmap_ b = 0)
      ∧ ((allocate_free_block fs).1 = none → (allocate_free_block fs).2 = fs) := by
  refine ⟨?_, ?_, ?_⟩
  · intro b hb hfree hmin
    rw [allocate_first fs b hb hfree hmin]
    have hlen : b < fs.bitmap_.length := bitGet_ne_zero_lt _ _ hfree
    refine ⟨rfl, ?_, ?_, ?_, ?_, ?_, toInt32_of_lt b (lt_of_lt_of_le hb h31)⟩
    · show bitGet (bitSet fs.bitmap_ b 0) b = 0
      rw [bitGet_bitSet]; simp [hlen]
    · show (bitSet fs.bitmap_ b 0).length = _
      rw [bitSet_length]
    · intro t ht
      show bitGet (bitSet fs.bitmap_ b 0) t = _
      rw [bitGet_bitSet]; simp [ht]
    · intro k _
      show (fs.disk_.write b zeroBlock).read b k = 0
      rw [Disk.read_write_same _ _ _ (by omega)]
      rfl
    · intro t ht
      show (fs.disk_.write b zeroBlock).read t = _
      rw [Disk.read_write_ne _ _ _ _ ht]
  · constructor
    · intro hnone b hb
      by_contra hfree
      have hex : ∃ r, r < fs.blocks_num_ ∧ bitGet fs.bitmap_ r ≠ 0 := ⟨b, hb, hfree⟩
      classical
      have hmin : ∀ t, t < Nat.find hex → bitGet fs.bitmap_ t = 0 := by
        intro t ht
        by_contra hc
        exact Nat.find_min hex ht ⟨lt_trans ht (Nat.find_spec hex).1, hc⟩
      rw [allocate_first fs _ (Nat.find_spec hex).1 (Nat.find_spec hex).2 hmin] at hnone
      cases hnone
    · intro h
      rw [allocate_none fs h]
  · intro hnone
    rcases allocate_spec fs with h | ⟨b, _, _, h⟩
    · rw [h]
    · rw [h] at hnone; cases hnone

/-- C17 at a concrete input: on the freshly formatted and mounted 20-block device the first
free entry is 3, and `allocate_free_block` returns it. -/
theorem allocate_is_first_fit_witness : (allocate_free_block (freshFS 20)).1 = some 3 :=
  ((allocate_is_first_fit (freshFS 20) (by decide!) (by decide!)).1 3 (by decide!)
    (by decide!) (by decide!)).1

/-! ## C19: remove -/

/-- C19: `remove(i)` returns true exactly when `i < inodes` and the record of `i` has
`Valid != 0`; when the inode table lies on the device, a true result leaves the record of
`i` with `Valid = 0`, `Size = 0`, the five direct pointers 0 and `Indirect = 0`, leaves
every other inode record unchanged, and `stat(i)` returns -1 afterwards. -/
theorem remove_zeroes_valid_inode (fs : FileSystem) (i : Nat) :
    ((remove fs i).1 = true ↔ i < fs.inodes_num_ ∧ (inodeAt fs i).Valid ≠ 0)
      ∧ (fs.inodes_num_ ≤ fs.inode_blocks_num_ * INODES_PER_BLOCK →
          fs.inode_blocks_num_ < fs.disk_.Blocks → (remove fs i).1 = true →
          (inodeAt (remove fs i).2 i).Valid = 0 ∧ (inodeAt (remove fs i).2 i).Size = 0
            ∧ (∀ t, t < POINTERS_PER_INODE → (inodeAt (remove fs i).2 i).Direct t = 0)
            ∧ (inodeAt (remove fs i).2 i).Indirect = 0
            ∧ (∀ j, j ≠ i → inodeAt (remove fs i).2 j = inodeAt fs j)
            ∧ stat (remove fs i).2 i = -1) := by
  constructor
  · constructor
    · intro h
      obtain ⟨h1, h2, -⟩ := remove_true fs i h
      exact ⟨h1, h2⟩
    · rintro ⟨h1, h2⟩
      have hi : ¬ i ≥ fs.inodes_num_ := by omega
      unfold remove
      rw [load_inode_eq]
      simp only [hi, h2, if_false, save_inode_eq]
  · intro hle htab hr
    obtain ⟨hi, -, hfs⟩ := remove_true fs i hr
    have htb : i / INODES_PER_BLOCK + 1 < fs.disk_.Blocks := by
      unfold INODES_PER_BLOCK at *; omega
    rw [hfs]
    obtain ⟨a, b, c, d⟩ := getInode_setInode_same
      (fs.disk_.read (i / INODES_PER_BLOCK + 1)) (i % INODES_PER_BLOCK)
      { Valid := 0, Size := 0, Direct := fun _ => 0, Indirect := 0 }
    have hrec := inodeAt_putInode_same
      { fs with bitmap_ := removeBits fs.disk_ (inodeAt fs i) fs.bitmap_ } i
      { Valid := 0, Size := 0, Direct := fun _ => 0, Indirect := 0 } htb
    have hV : (inodeAt (putInode
        { fs with bitmap_ := removeBits fs.disk_ (inodeAt fs i) fs.bitmap_ } i
        { Valid := 0, Size := 0, Direct := fun _ => 0, Indirect := 0 }) i).Valid = 0 := by
      rw [hrec, a]; rfl
    refine ⟨hV, ?_, ?_, ?_, ?_, ?_⟩
    · rw [hrec, b]; rfl
    · intro t ht; rw [hrec, c t ht]; rfl
    · rw [hrec, d]; rfl
    · intro j hj
      exact inodeAt_putInode_ne _ i j _ hj
    · unfold stat
      rw [load_inode_eq]
      have hi' : ¬ i ≥ (putInode
          { fs with bitmap_ := removeBits fs.disk_ (inodeAt fs i) fs.bitmap_ } i
          { Valid := 0, Size := 0, Direct := fun _ => 0, Indirect := 0 }).inodes_num_ := by
        show ¬ i ≥ fs.inodes_num_
        omega
      simp only [hi', if_false, hV, if_true]

/-- C19 at a concrete input: on the 20-block device where inode 0 holds 20 bytes,
`remove(0)` returns true and `stat(0)` is -1 afterwards. -/
theorem remove_zeroes_valid_inode_witness :
    (remove twentyBytes 0).1 = true ∧ stat (remove twentyBytes 0).2 0 = -1 :=
  ⟨by decide!,
   ((remove_zeroes_valid_inode twentyBytes 0).2 (by decide!) (by decide!)
      (by decide!)).2.2.2.2.2⟩

/-! ## C12: a failing call changes nothing -/

theorem write_error_unchanged (fs : FileSystem) (i : Nat) (data : Buffer) (length offset : Nat) :
    (write fs i data length offset).1 = -1 → (write fs i data length offset).2 = fs := by
  unfold write
  rw [load_inode_eq]
  by_cases hi : i ≥ fs.inodes_num_
  · simp [hi]
  · simp only [hi, if_false]
    by_cases ho : offset > (inodeAt fs i).Size
    · simp [ho]
    · simp only [ho, if_false]
      generalize writeLoop data _ offset _ _ _ = res
      obtain ⟨early, s⟩ := res
      cases early with
      | true =>
        intro h
        simp only at h
        omega
      | false =>
        intro h
        simp only at h
        omega

theorem mount_false (fs : FileSystem) (d : Disk) (h : (mount fs d).1 = false) :
    (mount fs d).2 = fs := by
  unfold mount at h ⊢
  by_cases hM : d.mounted = true
  · simp only [hM, if_true]
  · simp only [hM, Bool.false_eq_true, if_false] at h ⊢
    by_cases c1 : get32 (d.read 0) 0 ≠ MAGIC_NUMBER
        ∨ get32 (d.read 0) 3 ≠ get32 (d.read 0) 2 * INODES_PER_BLOCK % 2 ^ 32
    · rw [if_pos c1]
    · rw [if_neg c1] at h ⊢
      by_cases c2 : (if d.size % 10 = 0 then get32 (d.read 0) 2 ≠ d.size / 10
          else get32 (d.read 0) 2 ≠ d.size / 10 + 1)
      · rw [if_pos c2]
      · rw [if_neg c2] at h
        exact Bool.noConfusion h

/-- C12: when `format`, `mount` or `remove` returns false, or `write` returns -1, the
device (every block and its mounted flag), the bitmap and the rest of the `FileSystem`
object are what they were before the call.  (`stat` and `read` contain no statement that
writes to the device or the bitmap, which is why their embeddings return no new state.) -/
theorem failure_changes_nothing :
    (∀ d : Disk, (format d).1 = false → (format d).2 = d)
      ∧ (∀ (fs : FileSystem) (d : Disk), (mount fs d).1 = false →
          (mount fs d).2 = fs ∧ mountDevice fs d = d)
      ∧ (∀ (fs : FileSystem) (i : Nat), (remove fs i).1 = false → (remove fs i).2 = fs)
      ∧ (∀ (fs : FileSystem) (i : Nat) (data : Buffer) (length offset : Nat),
          (write fs i data length offset).1 = -1 →
          (write fs i data length offset).2 = fs) := by
  refine ⟨?_, ?_, ?_, ?_⟩
  · intro d h
    unfold format at h ⊢
    by_cases hM : d.mounted = true
    · simp only [hM, if_true]
    · simp only [hM, Bool.false_eq_true, if_false] at h
      exact Bool.noConfusion h
  · intro fs d h
    refine ⟨mount_false fs d h, ?_⟩
    unfold mountDevice
    rw [h]
    rfl
  · exact remove_false
  · exact write_error_unchanged

/-- C12 at concrete inputs: `format` of the mounted 20-block device, `remove(0)` of an
inode that was never created, and a `write` past the end of inode 0 all fail and leave
the state as it was. -/
theorem failure_changes_nothing_witness :
    (format (freshFS 20).disk_).2 = (freshFS 20).disk_
      ∧ (remove (freshFS 20) 0).2 = freshFS 20
      ∧ (write twentyBytes 0 hello 5 21).2 = twentyBytes :=
  ⟨failure_changes_nothing.1 (freshFS 20).disk_ (by decide!),
   failure_changes_nothing.2.2.1 (freshFS 20) 0 (by decide!),
   failure_changes_nothing.2.2.2 twentyBytes 0 hello 5 21 (by decide!)⟩

/-! ## C11: what mount validates -/

/-- The four bytes of a word are determined by its value. -/
theorem get32_inj (b b' : Block) (w : Nat) (h : get32 b w = get32 b' w) :
    ∀ k, k < 4 → b (4 * w + k) = b' (4 * w + k) := by
  unfold get32 at h
  have h0 := (b (4 * w)).isLt
  have h1 := (b (4 * w + 1)).isLt
  have h2 := (b (4 * w + 2)).isLt
  have h3 := (b (4 * w + 3)).isLt
  have g0 := (b' (4 * w)).isLt
  have g1 := (b' (4 * w + 1)).isLt
  have g2 := (b' (4 * w + 2)).isLt
  have g3 := (b' (4 * w + 3)).isLt
  intro k hk
  apply Fin.ext
  have hk4 : k = 0 ∨ k = 1 ∨ k = 2 ∨ k = 3 := by omega
  rcases hk4 with rfl | rfl | rfl | rfl
  · rw [Nat.add_zero]; omega
  · omega
  · omega
  · omega

/-- The checks of `mount`: it returns false, and changes neither the object nor the device,
when the magic is wrong, when `Inodes` differs from `InodeBlocks * 128` taken modulo 2^32,
or when `InodeBlocks` is not the device size divided by 10 and rounded up. -/
theorem mount_rejects (fs : FileSystem) (d : Disk)
    (h : get32 (d.read 0) 0 ≠ MAGIC_NUMBER
      ∨ get32 (d.read 0) 3 ≠ get32 (d.read 0) 2 * INODES_PER_BLOCK % 2 ^ 32
      ∨ get32 (d.read 0) 2 ≠ (d.size + 9) / 10) :
    (mount fs d).1 = false ∧ (mount fs d).2 = fs ∧ mountDevice fs d = d := by
  have hf : (mount fs d).1 = false := by
    cases hm : (mount fs d).1 with
    | false => rfl
    | true =>
      exfalso
      obtain ⟨-, h0, h3, h2a, h2b, -⟩ := mount_true fs d hm
      rcases h with h | h | h
      · exact h h0
      · exact h h3
      · by_cases hmod : d.size % 10 = 0
        · apply h; rw [h2a hmod]; omega
        · apply h; rw [h2b hmod]; omega
  refine ⟨hf, mount_false fs d hf, ?_⟩
  unfold mountDevice
  rw [hf]
  rfl

theorem pokeByte_read_zero (d : Disk) (k : Nat) (v : Byte) (h0 : 0 < d.Blocks) :
    (pokeByte d 0 k v).read 0 k = v ∧ ∀ j, j ≠ k → (pokeByte d 0 k v).read 0 j = d.read 0 j := by
  unfold pokeByte Disk.read
  simp only [h0, if_true]
  constructor
  · simp
  · intro j hj
    simp [hj]

/-- C11 (amended): for every unmounted device, `mount` returns false, leaves the device
unmounted and the object unchanged whenever the superblock has a magic other than
0xf0f03410, or `inodes` differs from `inode_blocks * 128` taken modulo 2^32, or
`inode_blocks` differs from ceil(size / 10), where size is the block count of the device;
in particular, changing one byte of the magic of a formatted device makes `mount` fail. -/
theorem mount_validation :
    (∀ (fs : FileSystem) (d : Disk), d.mounted = false →
        (get32 (d.read 0) 0 ≠ MAGIC_NUMBER
          ∨ get32 (d.read 0) 3 ≠ get32 (d.read 0) 2 * INODES_PER_BLOCK % 2 ^ 32
          ∨ get32 (d.read 0) 2 ≠ (d.size + 9) / 10) →
        (mount fs d).1 = false ∧ (mount fs d).2 = fs
          ∧ (mountDevice fs d).mounted = false)
      ∧ (∀ (fs : FileSystem) (d : Disk) (k : Nat) (v : Byte), d.mounted = false →
          d.size < 2 ^ 32 → 0 < d.size → k < 4 → v ≠ (format d).2.read 0 k →
          (mount fs (pokeByte (format d).2 0 k v)).1 = false
            ∧ (mountDevice fs (pokeByte (format d).2 0 k v)).mounted = false) := by
  constructor
  · intro fs d hd h
    obtain ⟨a, b, c⟩ := mount_rejects fs d h
    exact ⟨a, b, by rw [c]; exact hd⟩
  · intro fs d k v hd h32 hpos hk hv
    obtain ⟨-, hB, hM, h0, -⟩ := format_spec d hd h32
    have hpos' : 0 < (format d).2.Blocks := by rw [hB]; exact hpos
    obtain ⟨p1, p2⟩ := pokeByte_read_zero (format d).2 k v hpos'
    have hmagic : get32 ((pokeByte (format d).2 0 k v).read 0) 0 ≠ MAGIC_NUMBER := by
      intro hc
      have hf : get32 ((format d).2.read 0) 0 = MAGIC_NUMBER := by
        rw [h0 hpos]; exact (get32_formatSuper d.Blocks).1
      have := get32_inj _ _ 0 (hc.trans hf.symm) k hk
      simp only [Nat.mul_zero, Nat.zero_add] at this
      rw [p1] at this
      exact hv this
    obtain ⟨a, -, c⟩ := mount_rejects fs (pokeByte (format d).2 0 k v) (Or.inl hmagic)
    refine ⟨a, ?_⟩
    rw [c]
    exact hM

/-- C11 at a concrete input: on the formatted 20-block device with the lowest byte of the
magic changed from 0x10 to 0x11, `mount` returns false and the device stays unmounted. -/
theorem mount_validation_witness :
    (mount newFileSystem (pokeByte (format (blankDisk 20)).2 0 0 17)).1 = false
      ∧ (mountDevice newFileSystem (pokeByte (format (blankDisk 20)).2 0 0 17)).mounted
          = false :=
  mount_validation.2 newFileSystem (blankDisk 20) 0 17 (by decide) (by decide) (by decide)
    (by decide) (by decide!)

/-- C11 as stated fails: a 20-block device whose superblock says `blocks = 5`,
`inode_blocks = 2`, `inodes = 256` has `inode_blocks != ceil(blocks / 10) = 1`, yet `mount`
returns true, because the code compares with the device size; and on a device of
335544320 blocks a superblock with `inode_blocks = 2^25`, `inodes = 0` has
`inodes != inode_blocks * 128`, yet `mount` returns true, because the product wraps. -/
theorem mount_accepts_what_claim_rejects :
    (¬ ∀ (fs : FileSystem) (d : Disk), d.mounted = false →
        get32 (d.read 0) 2 ≠ (get32 (d.read 0) 1 + 9) / 10 → (mount fs d).1 = false)
      ∧ (¬ ∀ (fs : FileSystem) (d : Disk), d.mounted = false →
        get32 (d.read 0) 3 ≠ get32 (d.read 0) 2 * INODES_PER_BLOCK → (mount fs d).1 = false) := by
  constructor
  · intro h
    have := h newFileSystem (diskWithSuper 20 (superBlockOf MAGIC_NUMBER 5 2 256))
      (by decide) (by decide!)
    exact absurd this (by decide!)
  · intro h
    have := h newFileSystem
      (diskWithSuper 335544320 (superBlockOf MAGIC_NUMBER 335544320 33554432 0))
      (by decide) (by decide!)
    exact absurd this (by decide!)

/-! ## More evaluations of the code at concrete inputs -/

/-- C13: a `FileSystem` object that was mounted on one 20-block device (and wrote 20 bytes
there, so its bitmap marks block 3 in use) is mounted on another, freshly formatted
20-block device: `mount` returns true, no inode of the new device is valid, and bitmap
entry 3 is still 0 (in use), because `resize` keeps the entries the vector held. -/
theorem mount_keeps_stale_bitmap_entries :
    (format (blankDisk 20)).2.mounted = false
      ∧ twentyBytes.bitmap_ = [0, 0, 0, 0, 1, 1, 1, 1, 1, 1, 1, 1, 1, 1, 1, 1, 1, 1, 1, 1]
      ∧ (mount twentyBytes (format (blankDisk 20)).2).1 = true
      ∧ (∀ j, j < 256 → (inodeAt (mount twentyBytes (format (blankDisk 20)).2).2 j).Valid = 0)
      ∧ (mount twentyBytes (format (blankDisk 20)).2).2.inode_blocks_num_ = 2
      ∧ bitGet (mount twentyBytes (format (blankDisk 20)).2).2.bitmap_ 3 = 0 := by
  decide!

/-- C14: on a 20-block device with "hello" written to inodes 0 and 1, inode 1 has the single
nonzero direct pointer 4, but the dump of `debug` lists `3 4` as the direct blocks of
inode 1: the vector `direct_blocks` is never cleared between inodes. -/
theorem debug_accumulates_direct_blocks :
    (∀ t, t < 5 → (inodeAt twoSmallFiles 1).Direct t = if t = 0 then 4 else 0)
      ∧ debug twoSmallFiles.disk_ =
        [DebugLine.superBlock, DebugLine.magicValid, DebugLine.blocks 20,
         DebugLine.inodeBlocks 2, DebugLine.inodes 256,
         DebugLine.inode 0, DebugLine.size 5, DebugLine.directBlocks [3],
         DebugLine.inode 1, DebugLine.size 5, DebugLine.directBlocks [3, 4]] := by
  decide!

/-- C18: with five free blocks left on a 10-block device, the write of 24576 bytes at offset
0 to the valid, empty inode 1 returns 20480, but afterwards the record of inode 1 has no
direct and no indirect pointer and size 0: no data block of the file holds the bytes of the
range `[0, 20480)`. -/
theorem written_bytes_lost_after_cut_short_write :
    stat fiveBlocksLeft 1 = 0
      ∧ (write fiveBlocksLeft 1 (fill 66) 24576 0).1 = 20480
      ∧ (∀ s, s < 6 → ptrAt (write fiveBlocksLeft 1 (fill 66) 24576 0).2 1 s = 0)
      ∧ (inodeAt (write fiveBlocksLeft 1 (fill 66) 24576 0).2 1).Size = 0 := by
  decide!

/-- C20: on a 20-block device, after `create`, `remove(0)` and `create`, the bitmap marks
block 0 free and `allocate_free_block` returns 0; the write of "hello" to inode 0 that
follows returns 5 and leaves the bytes "hell" where the magic number was in block 0. -/
theorem superblock_overwritten_after_remove :
    get32 (afterRemove.disk_.read 0) 0 = MAGIC_NUMBER
      ∧ bitGet afterRemove.bitmap_ 0 = 1
      ∧ (allocate_free_block afterRemove).1 = some 0
      ∧ (write afterRemove 0 hello 5 0).1 = 5
      ∧ get32 ((write afterRemove 0 hello 5 0).2.disk_.read 0) 0 = 1819043176
      ∧ ∀ k, k < 5 → (write afterRemove 0 hello 5 0).2.disk_.read 0 k = hello k := by
  decide!

/-! ## C16: the file size bound -/

theorem writeLoadIndirect_idx (s s2 : WState) (h : writeLoadIndirect s = some s2) :
    s2.idx = s.idx ∧ s2.inode.Size = s.inode.Size := by
  unfold writeLoadIndirect at h
  by_cases hI : s.inode.Indirect = 0
  · simp only [hI, if_true] at h
    rcases allocate_spec s.fs with ha | ⟨b, -, -, ha⟩
    · rw [ha] at h; simp at h
    · rw [ha] at h
      simp only [] at h
      split_ifs at h <;> (cases h; exact ⟨rfl, rfl⟩)
  · simp only [hI, if_false] at h
    split_ifs at h <;> (cases h; exact ⟨rfl, rfl⟩)

theorem writeSelect_idx (block_i : Nat) (s : WState) :
    match writeSelect block_i s with
    | Step.brk s1 => s1.idx = s.idx ∧ s1.inode.Size = s.inode.Size
    | Step.ret s1 => s1.idx = s.idx ∧ s1.inode.Size = s.inode.Size
    | Step.go _ s1 => s1.idx = s.idx ∧ s1.inode.Size = s.inode.Size := by
  unfold writeSelect
  by_cases hd : block_i < POINTERS_PER_INODE
  · simp only [hd, if_true]
    by_cases hz : s.inode.Direct block_i = 0
    · simp only [hz, if_true]
      rcases allocate_spec s.fs with ha | ⟨b, -, -, ha⟩
      · rw [ha]; exact ⟨rfl, rfl⟩
      · rw [ha]; exact ⟨rfl, rfl⟩
    · simp only [hz, if_false]
      constructor <;> first | rfl | trivial
  · simp only [hd, if_false]
    cases hl : writeLoadIndirect s with
    | none => exact ⟨rfl, rfl⟩
    | some s2 =>
      have h2 := writeLoadIndirect_idx s s2 hl
      simp only []
      by_cases hz : get32 s2.ptr_block (block_i - POINTERS_PER_INODE) = 0
      · simp only [hz, if_true]
        rcases allocate_spec s2.fs with ha | ⟨b, -, -, ha⟩
        · rw [ha]; exact h2
        · rw [ha]; exact h2
      · simp only [hz, if_false]
        exact h2

theorem writeCopy_idx (data : Buffer) (length offset cur : Nat) (s : WState)
    (h : s.idx < length) :
    s.idx < (writeCopy data length offset cur s).idx
      ∧ (writeCopy data length offset cur s).idx ≤ length
      ∧ (writeCopy data length offset cur s).inode.Size = s.inode.Size := by
  unfold writeCopy
  simp only []
  have hpos : offset % BLOCK_SIZE < BLOCK_SIZE := Nat.mod_lt _ (by decide)
  by_cases hz : s.idx = 0
  · simp only [hz, if_true]
    have h1 : min (BLOCK_SIZE - offset % BLOCK_SIZE) length ≤ length := Nat.min_le_right _ _
    have h2 : 0 < min (BLOCK_SIZE - offset % BLOCK_SIZE) length := by
      rw [Nat.lt_min]; exact ⟨by omega, by omega⟩
    exact ⟨by omega, by omega, trivial⟩
  · simp only [hz, if_false]
    have h1 : min (BLOCK_SIZE - 0) (length - s.idx) ≤ length - s.idx := Nat.min_le_right _ _
    have h2 : 0 < min (BLOCK_SIZE - 0) (length - s.idx) := by
      rw [Nat.lt_min]; exact ⟨by decide, by omega⟩
    exact ⟨by omega, by omega, trivial⟩

theorem writeLoop_idx (data : Buffer) (length offset n block_i : Nat) (s : WState)
    (h : s.idx ≤ length) :
    (writeLoop data length offset n block_i s).2.idx ≤ length
      ∧ (writeLoop data length offset n block_i s).2.inode.Size = s.inode.Size := by
  induction n generalizing block_i s with
  | zero => exact ⟨h, rfl⟩
  | succ n ih =>
    unfold writeLoop
    by_cases hlen : s.idx < length
    · simp only [hlen, if_true]
      have hsel := writeSelect_idx block_i s
      cases hw : writeSelect block_i s with
      | brk s1 => rw [hw] at hsel; exact ⟨by rw [hsel.1]; exact h, hsel.2⟩
      | ret s1 => rw [hw] at hsel; exact ⟨by rw [hsel.1]; exact h, hsel.2⟩
      | go cur s1 =>
        rw [hw] at hsel
        simp only []
        obtain ⟨-, c2, c3⟩ := writeCopy_idx data length offset cur s1 (by rw [hsel.1]; exact hlen)
        obtain ⟨i1, i2⟩ := ih (block_i + 1) _ c2
        exact ⟨i1, by rw [i2, c3, hsel.2]⟩
    · simp only [hlen, if_false]
      constructor <;> first | exact h | rfl | trivial

/-- The length that `write` works with after clamping, when the offset does not exceed the
maximal file size. -/
theorem clamp_eq (length offset : Nat) (h : offset ≤ MAX_FILE_SIZE) :
    min length ((BLOCK_SIZE * (POINTERS_PER_INODE + POINTERS_PER_BLOCK) + 2 ^ 64 - offset)
      % 2 ^ 64) = min length (MAX_FILE_SIZE - offset) := by
  unfold MAX_FILE_SIZE BLOCK_SIZE POINTERS_PER_INODE POINTERS_PER_BLOCK at *
  congr 1
  omega

/-- The byte count that `write` returns is at most the length asked for and at most what
is left up to the maximal file size. -/
theorem write_return_le (fs : FileSystem) (i : Nat) (data : Buffer) (length offset : Nat) :
    (write fs i data length offset).1 ≤ ((min length (MAX_FILE_SIZE - offset) : Nat) : Int) := by
  unfold write
  rw [load_inode_eq]
  by_cases hi : i ≥ fs.inodes_num_
  · simp only [hi, if_true]; omega
  · simp only [hi, if_false]
    by_cases ho : offset > (inodeAt fs i).Size
    · simp only [ho, if_true]; omega
    · simp only [ho, if_false]
      by_cases hmax : offset ≤ MAX_FILE_SIZE
      · rw [clamp_eq length offset hmax]
        have hl := (writeLoop_idx data (min length (MAX_FILE_SIZE - offset)) offset
          (POINTERS_PER_INODE + POINTERS_PER_BLOCK - offset / BLOCK_SIZE) (offset / BLOCK_SIZE)
          (writeInit fs (inodeAt fs i)) (Nat.zero_le _)).1
        generalize writeLoop data (min length (MAX_FILE_SIZE - offset)) offset
          (POINTERS_PER_INODE + POINTERS_PER_BLOCK - offset / BLOCK_SIZE) (offset / BLOCK_SIZE)
          (writeInit fs (inodeAt fs i)) = res at hl
        obtain ⟨early, s⟩ := res
        cases early <;> (simp only; exact Int.ofNat_le.mpr hl)
      · have hfuel : POINTERS_PER_INODE + POINTERS_PER_BLOCK - offset / BLOCK_SIZE = 0 := by
          unfold MAX_FILE_SIZE BLOCK_SIZE POINTERS_PER_INODE POINTERS_PER_BLOCK at *
          omega
        rw [hfuel]
        have hm : min length (MAX_FILE_SIZE - offset) = 0 := by omega
        rw [hm]
        unfold writeLoop
        simp only []
        exact le_refl _

/-- The inode block of inode `i` after the code that follows the loop of `write`. -/
theorem writeFinish_read_table (i offset : Nat) (s : WState) (hi : i < s.fs.inodes_num_)
    (htb : i / INODES_PER_BLOCK + 1 < s.fs.disk_.Blocks)
    (hP : s.inode.Indirect ≠ i / INODES_PER_BLOCK + 1) :
    (writeFinish i offset s).disk_.read (i / INODES_PER_BLOCK + 1) =
      if s.idx + offset > s.inode.Size then
        setInode (s.fs.disk_.read (i / INODES_PER_BLOCK + 1)) (i % INODES_PER_BLOCK)
          { s.inode with Size := s.idx + offset }
      else if s.modify_inode = true then
        setInode (s.fs.disk_.read (i / INODES_PER_BLOCK + 1)) (i % INODES_PER_BLOCK) s.inode
      else s.fs.disk_.read (i / INODES_PER_BLOCK + 1) := by
  have hi' : ¬ i ≥ s.fs.inodes_num_ := by omega
  have hP' : i / INODES_PER_BLOCK + 1 ≠ s.inode.Indirect := fun e => hP e.symm
  unfold writeFinish
  simp only [save_inode_eq, hi', if_false]
  by_cases hg : s.idx + offset > s.inode.Size
  · cases hp : s.modify_ptr_block <;>
      simp [hg, putInode, Disk.read_write_ne _ _ _ _ hP', Disk.read_write_same _ _ _ htb]
  · cases hm : s.modify_inode <;> cases hp : s.modify_ptr_block <;>
      simp [hg, putInode, Disk.read_write_ne _ _ _ _ hP', Disk.read_write_same _ _ _ htb]

/-- The size that the record of inode `i` holds after the code that follows the loop of
`write`: the new end of the file, the size held in memory, or the size it had. -/
theorem writeFinish_size (fs0 : FileSystem) (hinv : Inv fs0) (i : Nat)
    (hi : i < fs0.inodes_num_) (offset : Nat) (s : WState) (h : WInv fs0 i s) :
    (inodeAt (writeFinish i offset s) i).Size = (s.idx + offset) % 2 ^ 32
      ∨ (inodeAt (writeFinish i offset s) i).Size = s.inode.Size % 2 ^ 32
      ∨ (inodeAt (writeFinish i offset s) i).Size = (inodeAt fs0 i).Size := by
  have hc := h.core
  have hi' : i < s.fs.inodes_num_ := by rw [hc.f_inodes]; exact hi
  have hit := inumber_in_table fs0 hinv i hi
  have htb := table_block_le fs0 i hit
  have htbB : i / INODES_PER_BLOCK + 1 < s.fs.disk_.Blocks := by
    rw [hc.f_dblocks, ← hinv.blocks_eq]
    have := hinv.table_lt
    omega
  have hP : s.inode.Indirect ≠ i / INODES_PER_BLOCK + 1 := by
    intro e
    have hP5 : memPtr fs0 i s 5 = s.inode.Indirect := by simp [memPtr]
    have := hc.range hinv hi 5 (by decide) (by rw [hP5, e]; omega)
    rw [hP5, e] at this
    omega
  unfold inodeAt
  rw [writeFinish_read_table i offset s hi' htbB hP]
  by_cases hg : s.idx + offset > s.inode.Size
  · left
    rw [if_pos hg, (getInode_setInode_same _ _ _).2.1]
  · rw [if_neg hg]
    by_cases hm : s.modify_inode = true
    · right; left
      rw [if_pos hm, (getInode_setInode_same _ _ _).2.1]
    · right; right
      rw [if_neg hm, hc.table hinv hi _ htb.1 htb.2]

/-- The size of inode `i` stays within `MAX_FILE_SIZE` across a `write` to it. -/
theorem write_size_self (fs0 : FileSystem) (hinv : Inv fs0) (hsz : SizeOK fs0) (i : Nat)
    (hi : i < fs0.inodes_num_) (data : Buffer) (length offset : Nat) :
    (inodeAt (write fs0 i data length offset).2 i).Size ≤ MAX_FILE_SIZE := by
  have hit := inumber_in_table fs0 hinv i hi
  have h0sz := hsz i hit
  unfold write
  rw [load_inode_eq]
  have hi' : ¬ i ≥ fs0.inodes_num_ := by omega
  simp only [hi', if_false]
  by_cases ho : offset > (inodeAt fs0 i).Size
  · simp only [ho, if_true]; exact h0sz
  · simp only [ho, if_false]
    have hmax : offset ≤ MAX_FILE_SIZE := by omega
    rw [clamp_eq length offset hmax]
    have h0 := WInv.init fs0 hinv i hi
    have hw : WInv fs0 i (writeLoop data (min length (MAX_FILE_SIZE - offset)) offset
        (POINTERS_PER_INODE + POINTERS_PER_BLOCK - offset / BLOCK_SIZE) (offset / BLOCK_SIZE)
        (writeInit fs0 (inodeAt fs0 i))).2 := by
      by_cases hb : offset / BLOCK_SIZE ≤ POINTERS_PER_INODE + POINTERS_PER_BLOCK
      · exact writeLoop_inv fs0 hinv i hi data _ offset _ _ (by omega) _ h0
      · have e : POINTERS_PER_INODE + POINTERS_PER_BLOCK - offset / BLOCK_SIZE = 0 := by omega
        rw [e]
        exact h0
    obtain ⟨hl1, hl2⟩ := writeLoop_idx data (min length (MAX_FILE_SIZE - offset)) offset
      (POINTERS_PER_INODE + POINTERS_PER_BLOCK - offset / BLOCK_SIZE) (offset / BLOCK_SIZE)
      (writeInit fs0 (inodeAt fs0 i)) (Nat.zero_le _)
    generalize writeLoop data (min length (MAX_FILE_SIZE - offset)) offset
      (POINTERS_PER_INODE + POINTERS_PER_BLOCK - offset / BLOCK_SIZE) (offset / BLOCK_SIZE)
      (writeInit fs0 (inodeAt fs0 i)) = res at hw hl1 hl2
    obtain ⟨early, s⟩ := res
    have hl2' : s.inode.Size = (inodeAt fs0 i).Size := hl2
    have hl1' : s.idx ≤ min length (MAX_FILE_SIZE - offset) := hl1
    cases early with
    | true =>
      show (inodeAt s.fs i).Size ≤ MAX_FILE_SIZE
      rw [hw.core.inodeAt_eq hinv hi i hit]
      exact h0sz
    | false =>
      show (inodeAt (writeFinish i offset s) i).Size ≤ MAX_FILE_SIZE
      have hle : s.idx ≤ MAX_FILE_SIZE - offset := le_trans hl1' (Nat.min_le_right _ _)
      rcases writeFinish_size fs0 hinv i hi offset s hw with e | e | e
      · rw [e]
        exact le_trans (Nat.mod_le _ _) (by omega)
      · rw [e, hl2']
        exact le_trans (Nat.mod_le _ _) h0sz
      · rw [e]; exact h0sz

theorem write_sizeOK (fs0 : FileSystem) (hinv : Inv fs0) (hsz : SizeOK fs0) (i : Nat)
    (data : Buffer) (length offset : Nat) : SizeOK (write fs0 i data length offset).2 := by
  rcases write_effect fs0 hinv i data length offset with h | ⟨hi, h⟩
  · rw [h]; exact hsz
  · intro j hj
    rw [h.f_ib] at hj
    by_cases hji : j = i
    · rw [hji]; exact write_size_self fs0 hinv hsz i hi data length offset
    · rw [h.others j hj hji]; exact hsz j hj

theorem putInode_sizeOK (fs : FileSystem) (hsz : SizeOK fs) (bm : List Int) (j : Nat)
    (x : Inode) (hx : x.Size ≤ MAX_FILE_SIZE) :
    SizeOK (putInode { fs with bitmap_ := bm } j x) := by
  intro j' hj'
  have hj1 : j' < fs.inode_blocks_num_ * INODES_PER_BLOCK := hj'
  by_cases hjj : j' = j
  · subst hjj
    unfold inodeAt putInode
    simp only []
    rw [Disk.read_write]
    split_ifs
    · rw [(getInode_setInode_same _ _ _).2.1]
      exact le_trans (Nat.mod_le _ _) hx
    · exact hsz j' hj1
  · rw [inodeAt_putInode_ne _ j j' x hjj]
    exact hsz j' hj1

theorem createFrom_sizeOK (n k : Nat) (fs : FileSystem) (hsz : SizeOK fs) (hk : 1 ≤ k) :
    SizeOK (createFrom fs n k).2 := by
  induction n generalizing k fs with
  | zero => exact hsz
  | succ n ih =>
    unfold createFrom
    cases hf : firstFreeInode (fs.disk_.read k) INODES_PER_BLOCK 0 with
    | none =>
      simp only [hf]
      exact ih (k + 1) fs hsz (by omega)
    | some r =>
      simp only [hf]
      have hr := firstFreeInode_lt _ _ _ _ hf
      have e1 : (INODES_PER_BLOCK * (k - 1) + r) / INODES_PER_BLOCK + 1 = k := by
        unfold INODES_PER_BLOCK at *; omega
      have e2 : (INODES_PER_BLOCK * (k - 1) + r) % INODES_PER_BLOCK = r := by
        unfold INODES_PER_BLOCK at *; omega
      have hsz1 := putInode_sizeOK fs hsz fs.bitmap_ (INODES_PER_BLOCK * (k - 1) + r)
        (make_inode true) (Nat.zero_le _)
      unfold putInode at hsz1
      simp only [e1, e2] at hsz1
      split_ifs
      · exact hsz1
      · exact ih (k + 1) _ hsz1 (by omega)

theorem remove_sizeOK (fs : FileSystem) (hsz : SizeOK fs) (i : Nat) : SizeOK (remove fs i).2 := by
  cases hr : (remove fs i).1 with
  | false => rw [remove_false fs i hr]; exact hsz
  | true =>
    obtain ⟨-, -, hfs⟩ := remove_true fs i hr
    rw [hfs]
    exact putInode_sizeOK fs hsz _ i _ (Nat.zero_le _)

theorem fresh_sizeOK (fs0 : FileSystem) (d : Disk) (hd : d.mounted = false)
    (h32 : d.size < 2 ^ 32) (hm : (mount fs0 (format d).2).1 = true) :
    SizeOK (mount fs0 (format d).2).2 := by
  obtain ⟨hfs, -, -⟩ := mount_fresh fs0 d hd h32 hm
  obtain ⟨-, -, -, -, hz⟩ := format_spec d hd h32
  intro j _
  have hino : inodeAt (mount fs0 (format d).2).2 j = getInode zeroBlock (j % INODES_PER_BLOCK) := by
    rw [hfs]
    unfold inodeAt
    simp only [Disk.mount_read]
    rw [hz _ (Nat.le_add_left 1 _)]
  rw [hino]
  have : (getInode zeroBlock (j % INODES_PER_BLOCK)).Size = 0 := get32_zeroBlock _
  rw [this]
  exact Nat.zero_le _

theorem Reachable.sizeOK {fs : FileSystem} (h : Reachable fs) : SizeOK fs := by
  induction h with
  | fresh fs0 d hd h31 hm => exact fresh_sizeOK fs0 d hd (lt_of_le_of_lt h31 (by decide)) hm
  | create fs _ ih => exact createFrom_sizeOK _ 1 fs ih (le_refl _)
  | remove fs i _ ih => exact remove_sizeOK fs ih i
  | write fs i data length offset hr ih =>
    exact write_sizeOK fs hr.consistent ih i data length offset

/-- C16: `write(i, buf, len, off)` never returns more than `min(len, MAX_FILE_SIZE - off)`
(the difference taken as 0 when `off` is larger), and in every state reached from a freshly
formatted and mounted device by `create`, `remove` and `write` calls every valid inode has
a size of at most `MAX_FILE_SIZE` = (5 + 1024) * 4096. -/
theorem file_size_bound :
    (∀ (fs : FileSystem) (i : Nat) (data : Buffer) (length offset : Nat),
        (write fs i data length offset).1
          ≤ ((min length (MAX_FILE_SIZE - offset) : Nat) : Int))
      ∧ (∀ fs : FileSystem, Reachable fs → ∀ j, j < fs.inodes_num_ →
          (inodeAt fs j).Valid ≠ 0 → (inodeAt fs j).Size ≤ MAX_FILE_SIZE)
      ∧ MAX_FILE_SIZE = (5 + 1024) * 4096 := by
  refine ⟨write_return_le, ?_, by decide⟩
  intro fs h j hj _
  exact h.sizeOK j (lt_of_lt_of_le hj h.consistent.inodes_le)

/-- C16 at a concrete input: on the 20-block device where inode 0 holds 20 bytes, which is
a reachable state, the size of inode 0 is within the bound. -/
theorem file_size_bound_witness : (inodeAt twentyBytes 0).Size ≤ MAX_FILE_SIZE :=
  file_size_bound.2.1 twentyBytes reachable_twentyBytes 0 (by decide!) (by decide!)

/-! ## C15: the shape of a file written in one call -/

theorem freeBelow_pos (bm : List Int) (n : Nat) (h : 0 < freeBelow bm n) :
    ∃ r, r < n ∧ bitGet bm r ≠ 0 := by
  induction n with
  | zero => exact absurd h (Nat.lt_irrefl 0)
  | succ n ih =>
    unfold freeBelow at h
    by_cases hb : bitGet bm n ≠ 0
    · exact ⟨n, Nat.lt_succ_self n, hb⟩
    · rw [if_neg hb] at h
      obtain ⟨r, hr, hf⟩ := ih h
      exact ⟨r, by omega, hf⟩

theorem freeBelow_congr (bm bm' : List Int) (n : Nat)
    (h : ∀ t, t < n → bitGet bm' t = bitGet bm t) : freeBelow bm' n = freeBelow bm n := by
  induction n with
  | zero => rfl
  | succ n ih =>
    unfold freeBelow
    rw [ih (fun t ht => h t (by omega)), h n (Nat.lt_succ_self n)]

/-- Marking a free entry below `n` as in use lowers the count of free entries by one. -/
theorem freeBelow_bitSet (bm : List Int) (n b : Nat) (hb : b < n) (hfree : bitGet bm b ≠ 0) :
    freeBelow (bitSet bm b 0) n + 1 = freeBelow bm n := by
  have hlen : b < bm.length := bitGet_ne_zero_lt bm b hfree
  induction n with
  | zero => omega
  | succ n ih =>
    unfold freeBelow
    by_cases hbn : b = n
    · subst hbn
      have e1 : freeBelow (bitSet bm b 0) b = freeBelow bm b := by
        apply freeBelow_congr
        intro t ht
        rw [bitGet_bitSet, if_neg (by omega)]
      have e2 : bitGet (bitSet bm b 0) b = 0 := by
        rw [bitGet_bitSet, if_pos ⟨rfl, hlen⟩]
      rw [e1, e2, if_pos hfree]
      simp
    · have e2 : bitGet (bitSet bm b 0) n = bitGet bm n := by
        rw [bitGet_bitSet, if_neg (fun hc => hbn hc.1.symm)]
      rw [e2]
      have := ih (by omega)
      omega

/-- With a free entry below `blocks`, `allocate_free_block` hands out a block behind the
inode table and the count of free entries drops by one. -/
theorem alloc_counted (fs : FileSystem) (n ib : Nat) (hbl : fs.blocks_num_ = n)
    (htab : ∀ b, b ≤ ib → bitGet fs.bitmap_ b = 0) (hfree : 0 < freeBelow fs.bitmap_ n) :
    ∃ b, ib < b ∧ b < n
      ∧ allocate_free_block fs =
          (some b, { fs with bitmap_ := bitSet fs.bitmap_ b 0,
                             disk_ := fs.disk_.write b zeroBlock })
      ∧ freeBelow (bitSet fs.bitmap_ b 0) n + 1 = freeBelow fs.bitmap_ n
      ∧ (∀ t, t ≤ ib → bitGet (bitSet fs.bitmap_ b 0) t = 0) := by
  obtain ⟨r, hr, hrf⟩ := freeBelow_pos _ _ hfree
  rcases allocate_spec fs with ha | ⟨b, hb1, hb2, ha⟩
  · exfalso
    unfold allocate_free_block at ha
    cases hf : firstFreeBit fs.bitmap_ fs.blocks_num_ 0 with
    | some b => rw [hf] at ha; simp at ha
    | none =>
      have hex : ∃ r, r < fs.blocks_num_ ∧ bitGet fs.bitmap_ r ≠ 0 := ⟨r, by omega, hrf⟩
      classical
      have hmin : ∀ t, 0 ≤ t → t < Nat.find hex → bitGet fs.bitmap_ t = 0 := by
        intro t _ ht
        by_contra hc
        exact Nat.find_min hex ht ⟨lt_trans ht (Nat.find_spec hex).1, hc⟩
      rw [firstFreeBit_first fs.bitmap_ fs.blocks_num_ 0 (Nat.find hex) (Nat.zero_le _)
        (by have := (Nat.find_spec hex).1; omega) (Nat.find_spec hex).2 hmin] at hf
      cases hf
  · have hib : ib < b := by
      by_contra hc
      exact hb2 (htab b (by omega))
    refine ⟨b, hib, by omega, ha, freeBelow_bitSet _ _ _ (by omega) hb2, ?_⟩
    intro t ht
    rw [bitGet_bitSet, if_neg (by omega)]
    exact htab t ht

/-- One of the first five logical blocks: a free block becomes `Direct[j]`. -/
theorem writeSelect_shape_direct (n ib N need j : Nat) (s : WState)
    (h : Shape n ib N need j s) (hj : j < 5) (hneed : j < need) :
    ∃ b s1, writeSelect j s = Step.go b s1 ∧ Shape n ib N need (j + 1) s1
      ∧ s1.idx = s.idx := by
  have hj' : j < POINTERS_PER_INODE := hj
  have hD : s.inode.Direct j = 0 := by
    by_contra hc
    have := (h.direct j hj).1.mp hc
    omega
  obtain ⟨b, hb1, hb2, ha, hcnt, htab⟩ := alloc_counted s.fs n ib h.blocks h.table
    (by have := h.room; omega)
  unfold writeSelect
  simp only [hj', if_true, hD, ha]
  refine ⟨_, _, rfl, ?_, rfl⟩
  constructor
  · exact h.blocks
  · show (s.fs.disk_.write b zeroBlock).Blocks = n
    rw [Disk.write_Blocks]; exact h.dblocks
  · exact h.inodes
  · exact htab
  · show need ≤ j + 1 + freeBelow (bitSet s.fs.bitmap_ b 0) n
    have := h.room
    omega
  · exact h.size
  · intro t ht
    show ((if t = j then b else s.inode.Direct t) ≠ 0 ↔ t < j + 1)
      ∧ (if t = j then b else s.inode.Direct t) < n
    by_cases htj : t = j
    · rw [if_pos htj]
      exact ⟨⟨fun _ => by omega, fun _ => by omega⟩, hb2⟩
    · rw [if_neg htj]
      obtain ⟨d1, d2⟩ := h.direct t ht
      exact ⟨⟨fun hc => by have := d1.mp hc; omega, fun hc => d1.mpr (by omega)⟩, d2⟩
  · show (s.inode.Indirect ≠ 0 ↔ 5 < j + 1) ∧ _
    obtain ⟨i1, i2, i3⟩ := h.indirect
    exact ⟨⟨fun hc => by have := i1.mp hc; omega, fun hc => by omega⟩, i2, i3⟩
  · intro _; exact h.notLoaded (by omega)
  · intro h5; omega
  · intro h5; omega

/-- The pointer block is allocated, zero-filled and loaded when the sixth logical block
is reached, and is kept afterwards. -/
theorem writeLoadIndirect_shape (n ib N need k : Nat) (s : WState)
    (h : Shape n ib N need k s) (hk : 5 ≤ k) (hneed : k < need) :
    ∃ s2, writeLoadIndirect s = some s2 ∧ Shape n ib N need (max k 6) s2
      ∧ s2.idx = s.idx := by
  unfold writeLoadIndirect
  by_cases h5 : k = 5
  · subst h5
    have hI : s.inode.Indirect = 0 := by
      by_contra hc
      have := h.indirect.1.mp hc
      omega
    have hnl := h.notLoaded (le_refl _)
    obtain ⟨b, hb1, hb2, ha, hcnt, htab⟩ := alloc_counted s.fs n ib h.blocks h.table
      (by have := h.room; omega)
    simp only [hI, if_true, ha, hnl, Bool.false_eq_true, if_false]
    refine ⟨_, rfl, ?_, rfl⟩
    have hmax : max 5 6 = 6 := rfl
    rw [hmax]
    constructor
    · exact h.blocks
    · show (s.fs.disk_.write b zeroBlock).Blocks = n
      rw [Disk.write_Blocks]; exact h.dblocks
    · exact h.inodes
    · exact htab
    · show need ≤ 6 + freeBelow (bitSet s.fs.bitmap_ b 0) n
      have := h.room
      omega
    · exact h.size
    · intro t ht
      show (s.inode.Direct t ≠ 0 ↔ t < 6) ∧ s.inode.Direct t < n
      obtain ⟨d1, d2⟩ := h.direct t ht
      exact ⟨⟨fun _ => by omega, fun _ => d1.mpr ht⟩, d2⟩
    · show (b ≠ 0 ↔ 5 < 6) ∧ b < n ∧ (b ≠ 0 → ib < b)
      exact ⟨⟨fun _ => by omega, fun _ => by omega⟩, hb2, fun _ => hb1⟩
    · intro hh; omega
    · intro _; exact ⟨rfl, rfl⟩
    · intro _ u hu6
      show get32 ((s.fs.disk_.write b zeroBlock).read b) u ≠ 0 ↔ u + 6 < 6
      rw [Disk.read_write_same _ _ _ (by rw [h.dblocks]; exact hb2), get32_zeroBlock]
      exact ⟨fun hc => absurd rfl hc, fun hc => by omega⟩
  · have h6 : 5 < k := by omega
    have hI : ¬ s.inode.Indirect = 0 := h.indirect.1.mpr h6
    have hl := (h.loaded h6).1
    simp only [hI, if_false, hl, if_true]
    refine ⟨_, rfl, ?_, rfl⟩
    have hmax : max k 6 = k := by omega
    rw [hmax]
    exact h

/-- A logical block behind the direct pointers: a free block becomes its entry of the
pointer block. -/
theorem writeSelect_shape_indirect (n ib N need j : Nat) (s : WState)
    (h : Shape n ib N need (blocksUsed j) s) (h32 : n < 2 ^ 32) (hj : 5 ≤ j)
    (hj2 : j < 1029) (hneed : j + 2 ≤ need) :
    ∃ b s1, writeSelect j s = Step.go b s1 ∧ Shape n ib N need (j + 2) s1
      ∧ s1.idx = s.idx := by
  have hj' : ¬ j < POINTERS_PER_INODE := by unfold POINTERS_PER_INODE; omega
  have hk5 : 5 ≤ blocksUsed j := by unfold blocksUsed; split_ifs <;> omega
  have hkn : blocksUsed j < need := by unfold blocksUsed; split_ifs <;> omega
  have hmax : max (blocksUsed j) 6 = j + 1 := by unfold blocksUsed; split_ifs <;> omega
  obtain ⟨s2, hl, h2, hidx⟩ := writeLoadIndirect_shape n ib N need (blocksUsed j) s h hk5 hkn
  rw [hmax] at h2
  have he : get32 s2.ptr_block (j - POINTERS_PER_INODE) = 0 := by
    unfold POINTERS_PER_INODE
    by_contra hc
    have := (h2.entries (by omega) (j - 5) (by omega)).mp hc
    omega
  obtain ⟨b, hb1, hb2, ha, hcnt, htab⟩ := alloc_counted s2.fs n ib h2.blocks h2.table
    (by have := h2.room; omega)
  unfold writeSelect
  simp only [hj', if_false, hl, he, if_true, ha]
  refine ⟨_, _, rfl, ?_, hidx⟩
  constructor
  · exact h2.blocks
  · show (s2.fs.disk_.write b zeroBlock).Blocks = n
    rw [Disk.write_Blocks]; exact h2.dblocks
  · exact h2.inodes
  · exact htab
  · show need ≤ j + 2 + freeBelow (bitSet s2.fs.bitmap_ b 0) n
    have := h2.room
    omega
  · exact h2.size
  · intro t ht
    show (s2.inode.Direct t ≠ 0 ↔ t < j + 2) ∧ s2.inode.Direct t < n
    obtain ⟨d1, d2⟩ := h2.direct t ht
    exact ⟨⟨fun _ => by omega, fun _ => d1.mpr (by omega)⟩, d2⟩
  · show (s2.inode.Indirect ≠ 0 ↔ 5 < j + 2) ∧ _
    obtain ⟨i1, i2, i3⟩ := h2.indirect
    exact ⟨⟨fun _ => by omega, fun _ => i1.mpr (by omega)⟩, i2, i3⟩
  · intro hh; omega
  · intro _; exact ⟨(h2.loaded (by omega)).1, rfl⟩
  · intro _ u hu6
    show get32 (set32 s2.ptr_block (j - POINTERS_PER_INODE) b) u ≠ 0 ↔ u + 6 < j + 2
    unfold POINTERS_PER_INODE
    by_cases hu5 : u = j - 5
    · subst hu5
      rw [get32_set32_same, Nat.mod_eq_of_lt (by omega)]
      exact ⟨fun _ => by omega, fun _ => by omega⟩
    · rw [get32_set32_ne _ _ _ _ hu5]
      have := h2.entries (by omega) u hu6
      exact ⟨fun hc => by have := this.mp hc; omega, fun hc => this.mpr (by omega)⟩

theorem writeCopy_shape (n ib N need k : Nat) (data : Buffer) (len b : Nat) (s : WState)
    (h : Shape n ib N need k s) :
    Shape n ib N need k (writeCopy data len 0 b s)
      ∧ (writeCopy data len 0 b s).idx = s.idx + min BLOCK_SIZE (len - s.idx) := by
  unfold writeCopy
  simp only []
  constructor
  · constructor
    · exact h.blocks
    · show (s.fs.disk_.write b _).Blocks = n
      rw [Disk.write_Blocks]; exact h.dblocks
    · exact h.inodes
    · exact h.table
    · exact h.room
    · exact h.size
    · exact h.direct
    · exact h.indirect
    · exact h.notLoaded
    · exact h.loaded
    · exact h.entries
  · by_cases hz : s.idx = 0
    · simp [hz]
    · simp [hz]

theorem blocksUsed_mono (a b : Nat) (h : a ≤ b) : blocksUsed a ≤ blocksUsed b := by
  unfold blocksUsed; split_ifs <;> omega

/-- The loop of `write` at offset 0 on a fresh file with enough free blocks runs to the end
of the data. -/
theorem writeLoop_shape (n ib N len : Nat) (data : Buffer) (h32 : n < 2 ^ 32)
    (hlen : len ≤ MAX_FILE_SIZE) :
    ∀ (f j : Nat) (s : WState), f + j = 1029 → j ≤ blocksOf len →
      Shape n ib N (blocksUsed (blocksOf len)) (blocksUsed j) s →
      s.idx = min (j * BLOCK_SIZE) len →
      ∃ s', writeLoop data len 0 f j s = (false, s')
        ∧ Shape n ib N (blocksUsed (blocksOf len)) (blocksUsed (blocksOf len)) s'
        ∧ s'.idx = len := by
  have hB : blocksOf len ≤ 1029 := by
    unfold blocksOf MAX_FILE_SIZE BLOCK_SIZE POINTERS_PER_INODE POINTERS_PER_BLOCK at *
    omega
  intro f
  induction f with
  | zero =>
    intro j s hfj hj hs hidx
    have hjB : j = blocksOf len := by omega
    have hidx' : s.idx = len := by
      rw [hidx]
      unfold blocksOf MAX_FILE_SIZE BLOCK_SIZE POINTERS_PER_INODE POINTERS_PER_BLOCK at *
      omega
    subst hjB
    exact ⟨s, rfl, hs, hidx'⟩
  | succ f ih =>
    intro j s hfj hj hs hidx
    unfold writeLoop
    by_cases hlt : s.idx < len
    · have hjl : j * BLOCK_SIZE < len := by omega
      have hj1 : j + 1 ≤ blocksOf len := by
        unfold blocksOf BLOCK_SIZE at *; omega
      have hr1 := blocksUsed_mono _ _ hj1
      have hsel : ∃ b s1, writeSelect j s = Step.go b s1
          ∧ Shape n ib N (blocksUsed (blocksOf len)) (blocksUsed (j + 1)) s1
          ∧ s1.idx = s.idx := by
        by_cases h5 : j < 5
        · have e0 : blocksUsed j = j := by unfold blocksUsed; rw [if_neg (by omega)]
          have e1 : blocksUsed (j + 1) = j + 1 := by unfold blocksUsed; rw [if_neg (by omega)]
          rw [e0] at hs
          rw [e1] at hr1 ⊢
          exact writeSelect_shape_direct n ib N _ j s hs h5 (by omega)
        · have e1 : blocksUsed (j + 1) = j + 2 := by unfold blocksUsed; rw [if_pos (by omega)]
          rw [e1] at hr1 ⊢
          exact writeSelect_shape_indirect n ib N _ j s hs h32 (by omega) (by omega) hr1
      obtain ⟨b, s1, hsel, hs1, hidx1⟩ := hsel
      simp only [hlt, if_true, hsel]
      obtain ⟨hs2, hidx2⟩ := writeCopy_shape n ib N _ _ data len b s1 hs1
      apply ih (j + 1) _ (by omega) hj1 hs2
      rw [hidx2, hidx1, hidx]
      unfold BLOCK_SIZE at *
      omega
    · simp only [hlt, if_false]
      have hjB : j = blocksOf len := by
        unfold blocksOf BLOCK_SIZE at *; omega
      have hidx' : s.idx = len := by omega
      subst hjB
      exact ⟨s, rfl, hs, hidx'⟩

/-- The pointer block on the device after the code that follows the loop of `write`. -/
theorem writeFinish_read_indirect (i offset : Nat) (s : WState)
    (hm : s.modify_ptr_block = true) (hB : s.inode.Indirect < s.fs.disk_.Blocks) :
    (writeFinish i offset s).disk_.read s.inode.Indirect = s.ptr_block := by
  unfold writeFinish
  simp only [save_inode_eq, hm, if_true]
  by_cases hg : s.idx + offset > s.inode.Size
  · by_cases hi : i ≥ s.fs.inodes_num_
    · simp [hg, hi, Disk.read_write_same _ _ _ hB]
    · simp only [hg, hi, putInode, decide_True, Bool.true_or, if_true, if_false]
      exact Disk.read_write_same _ _ _ (by rw [Disk.write_Blocks]; exact hB)
  · by_cases hi : i ≥ s.fs.inodes_num_
    · cases hmi : s.modify_inode <;> simp [hg, hi, Disk.read_write_same _ _ _ hB]
    · cases hmi : s.modify_inode
      · simp [hg, hi, Disk.read_write_same _ _ _ hB]
      · simp only [hg, hi, putInode, decide_False, Bool.false_or, if_true, if_false]
        exact Disk.read_write_same _ _ _ (by rw [Disk.write_Blocks]; exact hB)

theorem length_filter_lt (m B : Nat) :
    ((List.range m).filter (fun t => decide (t < B))).length = min m B := by
  induction m with
  | zero => simp
  | succ m ih =>
    rw [List.range_succ, List.filter_append, List.length_append, ih]
    by_cases h : m < B
    · simp [h]; omega
    · simp [h]; omega

theorem countNonzero_eq (f : Nat → Nat) (m B : Nat) (h : ∀ t, t < m → (f t ≠ 0 ↔ t < B)) :
    countNonzero f m = min m B := by
  unfold countNonzero
  rw [← length_filter_lt m B]
  congr 1
  apply List.filter_congr
  intro t ht
  have := h t (List.mem_range.mp ht)
  by_cases hb : t < B
  · simp [hb, this.mpr hb]
  · have hz : f t = 0 := by
      by_contra hc
      exact hb (this.mp hc)
    simp [hb, hz]

/-- The pointers that one `write` of `len` bytes at offset 0 leaves on the device for a
fresh file when the bitmap has enough free entries. -/
theorem write_shape (fs : FileSystem) (i : Nat) (h : FreshFile fs i) (data : Buffer)
    (len : Nat) (h0 : 0 < len) (hmax : len ≤ MAX_FILE_SIZE)
    (hroom : blocksUsed (blocksOf len) ≤ freeBelow fs.bitmap_ fs.blocks_num_) :
    (write fs i data len 0).1 = (len : Int)
      ∧ (∀ t, t < 5 →
          ((inodeAt (write fs i data len 0).2 i).Direct t ≠ 0 ↔ t < blocksOf len))
      ∧ ((inodeAt (write fs i data len 0).2 i).Indirect ≠ 0 ↔ 5 < blocksOf len)
      ∧ (5 < blocksOf len → ∀ u, u < 1024 →
          (get32 ((write fs i data len 0).2.disk_.read
              (inodeAt (write fs i data len 0).2 i).Indirect) u ≠ 0
            ↔ u + 5 < blocksOf len)) := by
  have hi' : ¬ i ≥ fs.inodes_num_ := by have := h.i_lt; omega
  have ho : ¬ 0 > (inodeAt fs i).Size := by omega
  have hinit : Shape fs.blocks_num_ fs.inode_blocks_num_ fs.inodes_num_
      (blocksUsed (blocksOf len)) (blocksUsed 0) (writeInit fs (inodeAt fs i)) := by
    have e0 : blocksUsed 0 = 0 := rfl
    rw [e0]
    constructor
    · rfl
    · exact h.blocks_eq.symm
    · rfl
    · exact h.used
    · show _ ≤ 0 + freeBelow fs.bitmap_ fs.blocks_num_
      omega
    · exact h.size0
    · intro t ht
      show ((inodeAt fs i).Direct t ≠ 0 ↔ t < 0) ∧ (inodeAt fs i).Direct t < fs.blocks_num_
      rw [h.direct0 t ht]
      have := h.table_lt
      exact ⟨⟨fun hc => absurd rfl hc, fun hc => by omega⟩, by omega⟩
    · show ((inodeAt fs i).Indirect ≠ 0 ↔ 5 < 0) ∧ (inodeAt fs i).Indirect < fs.blocks_num_
        ∧ ((inodeAt fs i).Indirect ≠ 0 → fs.inode_blocks_num_ < (inodeAt fs i).Indirect)
      rw [h.indirect0]
      have := h.table_lt
      exact ⟨⟨fun hc => absurd rfl hc, fun hc => by omega⟩, by omega, fun hc => absurd rfl hc⟩
    · intro _; rfl
    · intro hh; omega
    · intro hh; omega
  obtain ⟨s, hloop, hs, hidx⟩ := writeLoop_shape fs.blocks_num_ fs.inode_blocks_num_
    fs.inodes_num_ len data h.blocks_u32 hmax 1029 0
    (writeInit fs (inodeAt fs i)) rfl (Nat.zero_le _) hinit (by simp [writeInit])
  have e1 : POINTERS_PER_INODE + POINTERS_PER_BLOCK - 0 / BLOCK_SIZE = 1029 := rfl
  have e2 : 0 / BLOCK_SIZE = 0 := rfl
  have e3 : min len (MAX_FILE_SIZE - 0) = len := by omega
  have hw : write fs i data len 0 = ((s.idx : Int), writeFinish i 0 s) := by
    unfold write
    rw [load_inode_eq]
    simp only [hi', if_false, ho]
    rw [clamp_eq len 0 (Nat.zero_le _), e3, e1, e2, hloop]
  rw [hw]
  have hit : i / INODES_PER_BLOCK + 1 ≤ fs.inode_blocks_num_ := by
    have h1 := h.i_lt
    have h2 := h.inodes_le
    unfold INODES_PER_BLOCK at *
    omega
  have htl := h.table_lt
  have h32 := h.blocks_u32
  have hk5 : 5 < blocksUsed (blocksOf len) ↔ 5 < blocksOf len := by
    unfold blocksUsed; split_ifs <;> omega
  obtain ⟨i1, i2, i3⟩ := hs.indirect
  have hP : s.inode.Indirect ≠ i / INODES_PER_BLOCK + 1 := by
    intro hc
    have hnz : s.inode.Indirect ≠ 0 := by rw [hc]; exact Nat.succ_ne_zero _
    have := i3 hnz
    rw [hc] at this
    exact absurd hit (Nat.not_le.mpr this)
  have hrec := writeFinish_read_table i 0 s (by rw [hs.inodes]; exact h.i_lt)
    (by rw [hs.dblocks]; omega) hP
  have hgrow : s.idx + 0 > s.inode.Size := by rw [hs.size, hidx]; omega
  rw [if_pos hgrow] at hrec
  have hino : inodeAt (writeFinish i 0 s) i
      = getInode (setInode (s.fs.disk_.read (i / INODES_PER_BLOCK + 1)) (i % INODES_PER_BLOCK)
          { s.inode with Size := s.idx + 0 }) (i % INODES_PER_BLOCK) := by
    unfold inodeAt
    rw [hrec]
  obtain ⟨-, -, hD, hI⟩ := getInode_setInode_same (s.fs.disk_.read (i / INODES_PER_BLOCK + 1))
    (i % INODES_PER_BLOCK) { s.inode with Size := s.idx + 0 }
  have hI' : (inodeAt (writeFinish i 0 s) i).Indirect = s.inode.Indirect := by
    rw [hino, hI]
    show s.inode.Indirect % 2 ^ 32 = _
    exact Nat.mod_eq_of_lt (by omega)
  refine ⟨by rw [hidx], ?_, ?_, ?_⟩
  · intro t ht
    show (inodeAt (writeFinish i 0 s) i).Direct t ≠ 0 ↔ _
    rw [hino, hD t ht]
    show s.inode.Direct t % 2 ^ 32 ≠ 0 ↔ _
    obtain ⟨d1, d2⟩ := hs.direct t ht
    rw [Nat.mod_eq_of_lt (by omega), d1]
    unfold blocksUsed
    split_ifs <;> omega
  · show (inodeAt (writeFinish i 0 s) i).Indirect ≠ 0 ↔ _
    rw [hI', i1, hk5]
  · intro hlt u hu
    show get32 ((writeFinish i 0 s).disk_.read (inodeAt (writeFinish i 0 s) i).Indirect) u ≠ 0
      ↔ _
    have hk := hk5.mpr hlt
    have hbk : blocksUsed (blocksOf len) = blocksOf len + 1 := by
      unfold blocksUsed; rw [if_pos hlt]
    rw [hI', writeFinish_read_indirect i 0 s (hs.loaded hk).2 (by rw [hs.dblocks]; exact i2),
      hs.entries hk u hu, hbk]
    omega

theorem createFrom_frame (n k : Nat) (fs : FileSystem) :
    (createFrom fs n k).2.bitmap_ = fs.bitmap_
      ∧ (createFrom fs n k).2.blocks_num_ = fs.blocks_num_
      ∧ (createFrom fs n k).2.inode_blocks_num_ = fs.inode_blocks_num_
      ∧ (createFrom fs n k).2.disk_.Blocks = fs.disk_.Blocks := by
  induction n generalizing k fs with
  | zero => exact ⟨rfl, rfl, rfl, rfl⟩
  | succ n ih =>
    unfold createFrom
    cases hf : firstFreeInode (fs.disk_.read k) INODES_PER_BLOCK 0 with
    | none =>
      simp only [hf]
      exact ih (k + 1) fs
    | some r =>
      simp only [hf]
      split_ifs
      · exact ⟨rfl, rfl, rfl, Disk.write_Blocks _ _ _⟩
      · obtain ⟨a, b, c, e⟩ := ih (k + 1)
          { fs with disk_ := fs.disk_.write k (setInode (fs.disk_.read k) r (make_inode true)) }
        exact ⟨a, b, c, e.trans (Disk.write_Blocks _ _ _)⟩

theorem createMany_frame (fs : FileSystem) (k : Nat) :
    (createMany fs k).bitmap_ = fs.bitmap_
      ∧ (createMany fs k).blocks_num_ = fs.blocks_num_
      ∧ (createMany fs k).inode_blocks_num_ = fs.inode_blocks_num_
      ∧ (createMany fs k).disk_.Blocks = fs.disk_.Blocks := by
  induction k with
  | zero => exact ⟨rfl, rfl, rfl, rfl⟩
  | succ k ih =>
    obtain ⟨a, b, c, e⟩ := ih
    obtain ⟨a', b', c', e'⟩ := createFrom_frame (createMany fs k).inode_blocks_num_ 1
      (createMany fs k)
    exact ⟨a'.trans a, b'.trans b, c'.trans c, e'.trans e⟩

/-- The state after `format`, `mount` and `k + 1` calls of `create`: the last `create`
returned `k`, inode `k` is a fresh file, and the bitmap is the one that `mount` built. -/
theorem fresh_file (fs0 : FileSystem) (d : Disk) (hd : d.mounted = false)
    (hint : d.size / 10 * INODES_PER_BLOCK < 2 ^ 31)
    (hm : (mount fs0 (format d).2).1 = true) (k : Nat)
    (hk : k < (mount fs0 (format d).2).2.inodes_num_) :
    (create (createMany (mount fs0 (format d).2).2 k)).1 = (k : Int)
      ∧ FreshFile (create (createMany (mount fs0 (format d).2).2 k)).2 k
      ∧ (create (createMany (mount fs0 (format d).2).2 k)).2.bitmap_
          = (mount fs0 (format d).2).2.bitmap_
      ∧ (create (createMany (mount fs0 (format d).2).2 k)).2.blocks_num_ = d.size := by
  have hsz : d.size = d.Blocks := rfl
  have h32 : d.size < 2 ^ 32 := by unfold INODES_PER_BLOCK at hint; omega
  obtain ⟨hfs, hmod, hpos⟩ := mount_fresh fs0 d hd h32 hm
  have hinv := fresh_inv fs0 d hd h32 hm
  have hv0 := fresh_validBelow fs0 d hd h32 hint hm
  obtain ⟨hn, hv⟩ := createMany_validBelow _ hv0 k
  have hmin : min k (mount fs0 (format d).2).2.inodes_num_ = k := by omega
  rw [hmin] at hv
  have hkM : k < (createMany (mount fs0 (format d).2).2 k).inodes_num_ := by rw [hn]; exact hk
  obtain ⟨hc, -⟩ := validBelow_step _ k hv hkM
  obtain ⟨fa, fb, fc, fe⟩ := createMany_frame (mount fs0 (format d).2).2 k
  obtain ⟨-, r2, r3, r4⟩ := inodeAt_createAt _ hv.1 k hkM
  have g1 : (mount fs0 (format d).2).2.blocks_num_ = d.Blocks := by rw [hfs]
  have g0 : bitGet (mount fs0 (format d).2).2.bitmap_ 0 = 0 := by
    rw [hfs]
    show bitGet ((List.range' 1 (d.Blocks / 10)).foldl (fun bm i => bitSet bm i 0)
      (bitSet (resize fs0.bitmap_ d.Blocks 1) 0 0)) 0 = 0
    rw [bitGet_foldl_bitSet (List.range' 1 (d.Blocks / 10)) (fun i => i) 0]
    split_ifs
    · rfl
    · rw [bitGet_bitSet, resize_length, if_pos ⟨rfl, hpos⟩]
  rw [hc]
  have c1 : (createAt (createMany (mount fs0 (format d).2).2 k) k).blocks_num_
      = (mount fs0 (format d).2).2.blocks_num_ := fb
  have c2 : (createAt (createMany (mount fs0 (format d).2).2 k) k).inode_blocks_num_
      = (mount fs0 (format d).2).2.inode_blocks_num_ := fc
  have c3 : (createAt (createMany (mount fs0 (format d).2).2 k) k).disk_.Blocks
      = (mount fs0 (format d).2).2.disk_.Blocks := by
    show (Disk.write _ _ _).Blocks = _
    rw [Disk.write_Blocks]
    exact fe
  have c4 : (createAt (createMany (mount fs0 (format d).2).2 k) k).bitmap_
      = (mount fs0 (format d).2).2.bitmap_ := fa
  have c5 : (createAt (createMany (mount fs0 (format d).2).2 k) k).inodes_num_
      = (mount fs0 (format d).2).2.inodes_num_ := hn
  refine ⟨rfl, ?_, c4, c1.trans g1⟩
  constructor
  · rw [c1, c3]; exact hinv.blocks_eq
  · rw [c1]; exact hinv.blocks_u32
  · rw [c1, c2]; exact hinv.table_lt
  · rw [c5]; exact hk
  · rw [c5, c2]; exact hinv.inodes_le
  · intro b hb
    rw [c2] at hb
    rw [c4]
    by_cases hb0 : b = 0
    · rw [hb0]; exact g0
    · exact hinv.table_used b (by omega) hb
  · exact r2
  · exact r3
  · exact r4

/-- C15: on a device that was formatted and mounted, after `k + 1` calls of `create` (the
last of which returns `k`) and with enough free bitmap entries for the data blocks and the
pointer block, for every `len` with `0 < len <= MAX_FILE_SIZE` the call
`write(k, buf, len, 0)` returns `len` and leaves in the inode table a record of inode `k`
with exactly `min(5, ceil(len / 4096))` nonzero direct pointers, with a nonzero indirect
pointer if and only if `len > 5 * 4096`, and then exactly `ceil(len / 4096) - 5` entries of
the pointer block are nonzero. -/
theorem lazy_allocation_shape (fs0 : FileSystem) (d : Disk) (hd : d.mounted = false)
    (hint : d.size / 10 * INODES_PER_BLOCK < 2 ^ 31)
    (hm : (mount fs0 (format d).2).1 = true) (k : Nat)
    (hk : k < (mount fs0 (format d).2).2.inodes_num_) (data : Buffer) (len : Nat)
    (h0 : 0 < len) (hmax : len ≤ MAX_FILE_SIZE)
    (hroom : blocksUsed (blocksOf len) ≤ freeBelow (mount fs0 (format d).2).2.bitmap_ d.size) :
    (create (createMany (mount fs0 (format d).2).2 k)).1 = (k : Int)
      ∧ (write (create (createMany (mount fs0 (format d).2).2 k)).2 k data len 0).1 = (len : Int)
      ∧ countNonzero (inodeAt (writeNewFile fs0 d k data len) k).Direct POINTERS_PER_INODE
          = min 5 (blocksOf len)
      ∧ ((inodeAt (writeNewFile fs0 d k data len) k).Indirect ≠ 0 ↔ len > 5 * BLOCK_SIZE)
      ∧ ((inodeAt (writeNewFile fs0 d k data len) k).Indirect ≠ 0 →
          countNonzero
              (get32 ((writeNewFile fs0 d k data len).disk_.read
                (inodeAt (writeNewFile fs0 d k data len) k).Indirect))
              POINTERS_PER_BLOCK
            = blocksOf len - 5)
      ∧ blocksOf len = (len + 4095) / 4096 := by
  obtain ⟨hc, hfresh, e1, e2⟩ := fresh_file fs0 d hd hint hm k hk
  have hroom' : blocksUsed (blocksOf len)
      ≤ freeBelow (create (createMany (mount fs0 (format d).2).2 k)).2.bitmap_
          (create (createMany (mount fs0 (format d).2).2 k)).2.blocks_num_ := by
    rw [e1, e2]; exact hroom
  obtain ⟨hret, hD, hI, hE⟩ := write_shape _ k hfresh data len h0 hmax hroom'
  have hD' : ∀ t, t < 5 →
      ((inodeAt (writeNewFile fs0 d k data len) k).Direct t ≠ 0 ↔ t < blocksOf len) := hD
  have hI' : (inodeAt (writeNewFile fs0 d k data len) k).Indirect ≠ 0 ↔ 5 < blocksOf len := hI
  have hE' : 5 < blocksOf len → ∀ u, u < 1024 →
      (get32 ((writeNewFile fs0 d k data len).disk_.read
          (inodeAt (writeNewFile fs0 d k data len) k).Indirect) u ≠ 0
        ↔ u + 5 < blocksOf len) := hE
  have hB5 : 5 < blocksOf len ↔ len > 5 * BLOCK_SIZE := by
    unfold blocksOf BLOCK_SIZE; omega
  have hB : blocksOf len ≤ 1029 := by
    unfold blocksOf MAX_FILE_SIZE BLOCK_SIZE POINTERS_PER_INODE POINTERS_PER_BLOCK at *
    omega
  refine ⟨hc, hret, ?_, hI'.trans hB5, ?_, rfl⟩
  · exact countNonzero_eq _ _ _ hD'
  · intro hnz
    have h5 := hI'.mp hnz
    have hcnt := countNonzero_eq
      (get32 ((writeNewFile fs0 d k data len).disk_.read
        (inodeAt (writeNewFile fs0 d k data len) k).Indirect))
      POINTERS_PER_BLOCK (blocksOf len - 5) (by
        intro u hu
        rw [hE' h5 u hu]
        omega)
    rw [hcnt]
    unfold POINTERS_PER_BLOCK
    omega

/-- C15 at a concrete input: 20481 bytes written to the first file of a 20-block device
give five direct pointers, an indirect pointer and one entry of the pointer block. -/
theorem lazy_allocation_shape_witness :
    (create (createMany (mount newFileSystem (format (blankDisk 20)).2).2 0)).1 = ((0 : Nat) : Int)
      ∧ (write (create (createMany (mount newFileSystem (format (blankDisk 20)).2).2 0)).2 0
          (fill 65) 20481 0).1 = ((20481 : Nat) : Int)
      ∧ countNonzero
          (inodeAt (writeNewFile newFileSystem (blankDisk 20) 0 (fill 65) 20481) 0).Direct
          POINTERS_PER_INODE = min 5 (blocksOf 20481)
      ∧ ((inodeAt (writeNewFile newFileSystem (blankDisk 20) 0 (fill 65) 20481) 0).Indirect ≠ 0
          ↔ 20481 > 5 * BLOCK_SIZE)
      ∧ ((inodeAt (writeNewFile newFileSystem (blankDisk 20) 0 (fill 65) 20481) 0).Indirect ≠ 0 →
          countNonzero
              (get32 ((writeNewFile newFileSystem (blankDisk 20) 0 (fill 65) 20481).disk_.read
                (inodeAt (writeNewFile newFileSystem (blankDisk 20) 0 (fill 65) 20481) 0).Indirect))
              POINTERS_PER_BLOCK
            = blocksOf 20481 - 5)
      ∧ blocksOf 20481 = (20481 + 4095) / 4096 :=
  lazy_allocation_shape newFileSystem (blankDisk 20) (by decide) (by decide) (by decide!)
    0 (by decide!) (fill 65) 20481 (by decide) (by decide) (by decide!)

end SFS

